import Mathlib

/-!
# Group indexer of `indexthis` (`src/to_index.cpp`)

A shallow embedding of the indexing routines of `to_index.cpp` and the
properties of the index they return.

Modelling conventions.

* A C++ `int` is an `Int`. The arithmetic of the descriptor constructor and
  the subtraction of a column's minimum are reduced with `to_int32`
  (two's-complement wraparound). The packed keys of the direct-address loops
  are computed exactly: they stay below `2^31` as long as the lookup table has
  at most `2^31` entries. `uint32_t` values are `Nat`s reduced modulo `2^32`.
  Group ids, row positions and table entries, which are never negative, are
  `Nat`s.
* A `double` is its IEEE-754 binary64 bit pattern (`Dbl`).
* A heap array is a function from positions to values together with its
  allocated size; every access is checked against the size and an access
  outside of it ends the run with `Failure.out_of_bounds`.
* An input column is the list of its `n` values; the loops read it at rows
  below `n` only (with `List.getD`).
* An output index buffer is the list of the entries written so far (the loops
  write position `i` at iteration `i`).
* `while` loops that are not structurally bounded carry a step budget; running
  out of it is reported as `Failure.diverges`.
-/

namespace indexthis

/-! ## Machine integers -/

def INT_MIN : Int := -2147483648

def INT_MAX : Int := 2147483647

/-- R's missing integer, `NA_INTEGER`, is the smallest `int`. -/
def NA_INTEGER : Int := INT_MIN

/-- Two's-complement reduction of an exact integer to a 32-bit `int`. -/
def to_int32 (v : Int) : Int := (v + 2147483648) % 4294967296 - 2147483648

/-- Conversion of an `int` (or a wider integer) to `uint32_t`. -/
def to_uint32 (v : Int) : Nat := (v % 4294967296).toNat

/-- Conversion of a `double` holding the exact integer `v` to `int`: the value
itself when it fits, and the x86-64 "integer indefinite" value otherwise. -/
def double_to_int (v : Int) : Int :=
  if INT_MIN ≤ v ∧ v ≤ INT_MAX then v else INT_MIN

/-! ## Logarithms -/

/-- Search for the least `k` with `m <= 2^k`, from `k` upwards, in at most
`fuel` steps. -/
def ceil_log2_from : Nat → Nat → Nat → Nat
  | 0, k, _ => k
  | fuel + 1, k, m => if m ≤ 2 ^ k then k else ceil_log2_from fuel (k + 1) m

/-- The value `ceil(log2(m))` for `m >= 1`: the least `k` with `m <= 2^k`. -/
def ceil_log2 (m : Nat) : Nat := ceil_log2_from m 0 m

/-! ## Doubles -/

/-- A `double`, represented by its 64-bit IEEE-754 pattern. -/
structure Dbl where
  bits : Nat
deriving DecidableEq, Repr

namespace Dbl

/-- Low 32-bit word (`y[0]` on a little-endian machine). -/
def lo (x : Dbl) : Nat := x.bits % 2 ^ 32

/-- High 32-bit word (`y[1]`). -/
def hi (x : Dbl) : Nat := (x.bits / 2 ^ 32) % 2 ^ 32

def sign (x : Dbl) : Bool := (x.bits / 2 ^ 63) % 2 == 1

/-- Biased exponent. -/
def expo (x : Dbl) : Nat := (x.bits / 2 ^ 52) % 2048

def mant (x : Dbl) : Nat := x.bits % 2 ^ 52

/-- The source's `std::isnan`. -/
def isnan (x : Dbl) : Bool := x.expo == 2047 && x.mant != 0

/-- Order key of a double that is not a NaN: the magnitude bits with the
sign. The IEEE order and equality of two such doubles are those of their keys
(both zeros have key 0). -/
def key (x : Dbl) : Int :=
  if x.sign then -((x.bits % 2 ^ 63 : Nat) : Int) else ((x.bits % 2 ^ 63 : Nat) : Int)

/-- IEEE `x == y`. -/
def eq (x y : Dbl) : Bool := !x.isnan && !y.isnan && x.key == y.key

/-- IEEE `x < y`. -/
def lt (x y : Dbl) : Bool := !x.isnan && !y.isnan && decide (x.key < y.key)

/-- The conversion `(int) x`: truncation toward zero. A magnitude of `2^31` or
more (biased exponent from 1054 on, which covers the infinities and the NaNs)
converts to the x86-64 "integer indefinite" value `INT_MIN`, which is also the
exact result for `-2^31`. -/
def to_int (x : Dbl) : Int :=
  if x.expo ≥ 1054 then INT_MIN
  else
    let t : Nat := if x.expo < 1023 then 0 else (2 ^ 52 + x.mant) >>> (1075 - x.expo)
    if x.sign then -(t : Int) else (t : Int)

/-- The conversion of an `int` to `double` (exact). -/
def of_int (v : Int) : Dbl :=
  if v = 0 then ⟨0⟩
  else
    let a := v.natAbs
    let k := ceil_log2 (a + 1) - 1
    ⟨(if v < 0 then 2 ^ 63 else 0) + (1023 + k) * 2 ^ 52 + (a * 2 ^ (52 - k) - 2 ^ 52)⟩

end Dbl

/-! ## Hash primitives -/

/-- The source's `double_to_uint32`: sum of the two 32-bit halves (unsigned wraparound),
returned as `int`. -/
def double_to_uint32 (x : Dbl) : Int := to_int32 ((x.lo + x.hi : Nat) : Int)

/-- The source's `power_of_two(x) = ceil(log2(x + 1))`, computed exactly. For `x + 1 <= 0`
the logarithm is `-inf` or NaN and its conversion to `int` gives the "integer
indefinite" value.

The source computes `std::ceil(std::log2(x + 1))` on a `double`. Every argument
it passes is a range or a number of groups (an `int`), or `2n + 1` or `5n` for a
number of rows `n` that is an `int`: all are below `2^34`, where `x + 1` is
exact and the rounded logarithm has the exact ceiling. For far larger arguments
the two differ (the `double` computation gives 49 at `x = 2^49`, the exact
value is 50); the properties below that bound their argument do so for that
reason. -/
def power_of_two (x : Int) : Int :=
  if x + 1 ≤ 0 then INT_MIN else (ceil_log2 (x + 1).toNat : Int)

/-- The source's `hash_single`: `3141592653U * value >> (32 - shifter)` on `uint32_t`. -/
def hash_single (value : Nat) (shifter : Int) : Nat :=
  ((3141592653 * (value % 2 ^ 32)) % 2 ^ 32) >>> (32 - shifter).toNat

/-- The source's `hash_double`: `((3141592653U * v1) ^ (3141592653U * v2)) >> (32 - shifter)`. -/
def hash_double (v1 v2 : Nat) (shifter : Int) : Nat :=
  (((3141592653 * (v1 % 2 ^ 32)) % 2 ^ 32) ^^^ ((3141592653 * (v2 % 2 ^ 32)) % 2 ^ 32))
    >>> (32 - shifter).toNat

/-- The source's `is_equal_dbl`: `std::isnan(x) ? std::isnan(y) : x == y`. -/
def is_equal_dbl (x y : Dbl) : Bool := if x.isnan then y.isnan else Dbl.eq x y

/-! ## Input vectors -/

/-- The ways a run can end without a result. The first three are the errors
the source raises with `Rf_error`; the others are what the C++ run-time does
on an access outside an array, a failed allocation, and a loop that does not
end. -/
inductive Failure where
  | length_mismatch
  | non_atomic
  | coercion_failed
  | out_of_bounds
  | bad_alloc
  | diverges
deriving DecidableEq, Repr

/-- An R vector as the descriptor constructor sees it.
`STRSXP` holds the interned string handles (`intptr_t`), `FACTOR` is an
`INTSXP` with a levels attribute (`p` holds its integer codes, `levels` is the
number of levels): its `TYPEOF` is `INTSXP`, `OTHER`
is an atomic vector of another kind (complex, raw, ...) together with what
`as.character` makes of it and whether that evaluation raised an error, and
`NON_ATOMIC` is any other value of the given length. -/
inductive SEXP where
  | STRSXP (p : List Nat)
  | REALSXP (p : List Dbl)
  | INTSXP (p : List Int)
  | LGLSXP (p : List Int)
  | FACTOR (p : List Int) (levels : Nat)
  | OTHER (as_character : List Nat) (any_error : Bool)
  | NON_ATOMIC (len : Nat)
deriving DecidableEq, Repr

/-- The source's `Rf_length`. -/
def Rf_length : SEXP → Nat
  | .STRSXP p => p.length
  | .REALSXP p => p.length
  | .INTSXP p => p.length
  | .LGLSXP p => p.length
  | .FACTOR p _ => p.length
  | .OTHER p _ => p.length
  | .NON_ATOMIC len => len

/-- The argument of `cpp_to_index_main`: a list of vectors (`VECSXP`) or a
single vector. -/
inductive Input where
  | VECSXP (elts : List SEXP)
  | vector (x : SEXP)
deriving DecidableEq, Repr

/-! ## Column descriptor -/

/-- The enum `{T_INT, T_DBL_INT, T_DBL, T_STR}`. -/
inductive VType where
  | T_INT
  | T_DBL_INT
  | T_DBL
  | T_STR
deriving DecidableEq, Repr

/-- The class `r_vector`, with the defaults of its member initialisers. The
three pointers are the lists they point to (empty when the pointer is null). -/
structure r_vector where
  n : Nat := 0
  is_fast_int : Bool := false
  x_range : Int := 0
  x_range_bin : Int := 0
  x_min : Int := 0
  type : VType := VType.T_INT
  is_protect : Bool := false
  any_na : Bool := true
  NA_value : Int := -1
  px_int : List Int := []
  px_dbl : List Dbl := []
  px_intptr : List Nat := []
deriving DecidableEq, Repr

instance : Inhabited r_vector := ⟨{}⟩

/-- The loop `while(i_start < n && px[i_start] == NA_INTEGER) ++i_start`. -/
def i_start_int : List Int → Nat
  | [] => 0
  | x :: xs => if x = NA_INTEGER then i_start_int xs + 1 else 0

/-- The loop `while(i_start < n && std::isnan(px[i_start])) ++i_start`. -/
def i_start_dbl : List Dbl → Nat
  | [] => 0
  | x :: xs => if x.isnan then i_start_dbl xs + 1 else 0

/-- The scan `for(int i=i_start ; i<n ; ++i)` of an integer vector, over the
elements from `i_start` on; the state is `(x_min, x_max, any_na)`. -/
def scan_int : List Int → Int × Int × Bool → Int × Int × Bool
  | [], s => s
  | x_tmp :: rest, (x_min, x_max, any_na) =>
    if x_tmp > x_max then scan_int rest (x_min, x_tmp, any_na)
    else if x_tmp < x_min then
      if x_tmp = NA_INTEGER then scan_int rest (x_min, x_max, true)
      else scan_int rest (x_tmp, x_max, any_na)
    else scan_int rest (x_min, x_max, any_na)

/-- The scan of a double vector; the state is `(x_min, x_max, any_na)` and the
result adds `IS_INT`, which is false when the loop was left by `break`. -/
def scan_dbl : List Dbl → Dbl × Dbl × Bool → Dbl × Dbl × Bool × Bool
  | [], (x_min, x_max, any_na) => (x_min, x_max, any_na, true)
  | x_tmp :: rest, (x_min, x_max, any_na) =>
    if x_tmp.isnan then scan_dbl rest (x_min, x_max, true)
    else if !Dbl.eq x_tmp (Dbl.of_int x_tmp.to_int) then (x_min, x_max, any_na, false)
    else if Dbl.lt x_max x_tmp then scan_dbl rest (x_min, x_tmp, any_na)
    else if Dbl.lt x_tmp x_min then scan_dbl rest (x_tmp, x_max, any_na)
    else scan_dbl rest (x_min, x_max, any_na)

/-- The block `if(IS_INT){...}` closing the numeric branch of the
constructor. -/
def set_fast_int (v : r_vector) : r_vector :=
  { v with
    x_range_bin := power_of_two v.x_range
    is_fast_int := decide (v.x_range < 100000) || decide (v.x_range ≤ to_int32 (2 * (v.n : Int)))
    NA_value := to_int32 (v.x_range - 1) }

/-- The scan of an `INTSXP`: `(x_min, x_max, any_na)` after the loops. -/
def scanned_int (px : List Int) : Int × Int × Bool :=
  let n := px.length
  let i_start := i_start_int px
  let any_na := decide (i_start > 0)
  if i_start < n then
    scan_int (px.drop i_start) (px.getD i_start 0, px.getD i_start 0, any_na)
  else (0, 0, any_na)

/-- The scan of a `REALSXP`: `(x_min, x_max, any_na, IS_INT)` after the
loops. -/
def scanned_dbl (px : List Dbl) : Dbl × Dbl × Bool × Bool :=
  let n := px.length
  let i_start := i_start_dbl px
  let any_na := decide (i_start > 0)
  if i_start < n then
    scan_dbl (px.drop i_start) (px.getD i_start ⟨0⟩, px.getD i_start ⟨0⟩, any_na)
  else (⟨0⟩, ⟨0⟩, any_na, true)

/-- The constructor `r_vector::r_vector(SEXP)`.

For a double vector that is not integer valued (`T_DBL`) the source stores
in `x_min` and `x_range` conversions of floating-point values that no later
code reads (`is_fast_int` stays false); the embedding leaves these two fields
at their defaults in that case.

A factor passes `Rf_isFactor(x)` and has `TYPEOF(x) == INTSXP`: it takes the arm
`if(TYPEOF(x) == INTSXP)`, which scans its codes as those of any integer vector.
The arm `// factor` that follows `else if(TYPEOF(x) == LGLSXP)` is reached by no
vector, and the levels are not read. -/
def r_vector.init (x : SEXP) : Except Failure r_vector :=
  match x with
  | .STRSXP p => .ok { n := p.length, type := VType.T_STR, px_intptr := p }
  | .REALSXP px =>
    let s := scanned_dbl px
    let x_min := s.1
    let x_max := s.2.1
    let any_na := s.2.2.1
    let IS_INT := s.2.2.2
    if IS_INT then
      .ok (set_fast_int
        { n := px.length, px_dbl := px, any_na := any_na, x_min := x_min.to_int,
          x_range := double_to_int (x_max.to_int - x_min.to_int + 2),
          type := VType.T_DBL_INT })
    else
      .ok { n := px.length, px_dbl := px, any_na := any_na, type := VType.T_DBL }
  | .INTSXP px =>
    let s := scanned_int px
    let x_min := s.1
    let x_max := s.2.1
    let any_na := s.2.2
    .ok (set_fast_int
      { n := px.length, px_int := px, type := VType.T_INT, any_na := any_na, x_min := x_min,
        x_range := to_int32 (x_max - x_min + 2) })
  | .LGLSXP px =>
    .ok (set_fast_int { n := px.length, px_int := px, type := VType.T_INT, x_min := 0, x_range := 3 })
  | .FACTOR px _ =>
    let s := scanned_int px
    let x_min := s.1
    let x_max := s.2.1
    let any_na := s.2.2
    .ok (set_fast_int
      { n := px.length, px_int := px, type := VType.T_INT, any_na := any_na, x_min := x_min,
        x_range := to_int32 (x_max - x_min + 2) })
  | .OTHER as_character any_error =>
    if any_error then .error Failure.coercion_failed
    else .ok { n := as_character.length, type := VType.T_STR, px_intptr := as_character,
               is_protect := true }
  | .NON_ATOMIC _ => .error Failure.non_atomic

/-! ## Working state of an indexing loop -/

/-- What a loop over the rows carries: the lookup array (`int_array` of the
direct-address loops, `hashed_obs_vec` of the hashing loops), the entries of
the output index written so far, the group counter `g`, and
`vec_first_obs`. -/
structure Scratch where
  lookup : Nat → Nat
  p_index : List Nat
  g : Nat
  vec_first_obs : List Nat

/-- The state before the first row: a zero-filled array, `g = 0`. -/
def Scratch.start (vec_first_obs : List Nat) : Scratch :=
  { lookup := fun _ => 0, p_index := [], g := 0, vec_first_obs := vec_first_obs }

/-- The body shared by the new-group branches: `++g`, store `g` (or the row
number) in the array, write `p_index[i] = g`, and record the row when
`is_final`. -/
def Scratch.new_group (st : Scratch) (id : Nat) (stored : Nat) (i : Nat) (is_final : Bool) :
    Scratch :=
  { lookup := Function.update st.lookup id stored
    p_index := st.p_index ++ [st.g + 1]
    g := st.g + 1
    vec_first_obs := if is_final then st.vec_first_obs ++ [i + 1] else st.vec_first_obs }

/-- The write `p_index[i] = v` of an existing group. -/
def Scratch.old_group (st : Scratch) (v : Nat) : Scratch :=
  { st with p_index := st.p_index ++ [v] }

/-! ## Direct-address loops -/

/-- The source's `update_index_intarray_g_obs`, also written out in the source at the end of
the `K == 2` and `K >= 3` loops and in the direct-address branch of
`general_type_to_index_double`. `lookup_size` is the allocated size of
`int_array`. -/
def update_index_intarray_g_obs (lookup_size : Int) (id : Int) (i : Nat) (st : Scratch)
    (is_final : Bool) : Except Failure Scratch :=
  if id < 0 ∨ lookup_size ≤ id then .error Failure.out_of_bounds
  else if st.lookup id.toNat = 0 then .ok (st.new_group id.toNat (st.g + 1) i is_final)
  else .ok (st.old_group (st.lookup id.toNat))

/-- A loop `for(size_t i=0 ; i<n ; ++i)` whose body computes `id` from the row
and calls `update_index_intarray_g_obs`. -/
def direct_loop (lookup_size : Int) (id : Nat → Int) (n : Nat) (is_final : Bool)
    (st : Scratch) : Except Failure Scratch :=
  (List.range n).foldlM
    (fun st i => update_index_intarray_g_obs lookup_size (id i) i st is_final) st

/-- The allocation `new int[lookup_size]` followed by a direct-address loop: a negative size
(a huge `size_t`) cannot be allocated. -/
def direct_index (lookup_size : Int) (id : Nat → Int) (n : Nat) (is_final : Bool)
    (vec_first_obs : List Nat) : Except Failure Scratch :=
  if lookup_size < 0 then .error Failure.bad_alloc
  else direct_loop lookup_size id n is_final (Scratch.start vec_first_obs)

/-- The macro `UPDATE_V` (the `K == 1` loops spell out the same cases): the
normalised value of row `i` of a fast-int column. -/
def UPDATE_V (xk : r_vector) (i : Nat) : Int :=
  if xk.type = VType.T_INT then
    if xk.any_na then
      if xk.px_int.getD i 0 = NA_INTEGER then xk.NA_value
      else to_int32 (xk.px_int.getD i 0 - xk.x_min)
    else to_int32 (xk.px_int.getD i 0 - xk.x_min)
  else
    if xk.any_na then
      if (xk.px_dbl.getD i ⟨0⟩).isnan then xk.NA_value
      else to_int32 ((xk.px_dbl.getD i ⟨0⟩).to_int - xk.x_min)
    else to_int32 ((xk.px_dbl.getD i ⟨0⟩).to_int - xk.x_min)

/-- The shift `v << offset` on `int`: the product with `2^offset` reduced to
32 bits, as the compiled code computes it for `offset < 32` (a shift that does
not fit is undefined in the source, as is a shift by 32 or more; a negative
`offset` shifts by nothing). -/
def shl (v : Int) (offset : Int) : Int := to_int32 (v * 2 ^ offset.toNat)

/-- The value `std::pow(2, e)` converted to `size_t`. -/
def pow2 (e : Int) : Int := if e < 0 then 0 else 2 ^ e.toNat

/-- The loop `for(int ind=2 ; ind<K-1 ; ++ind)` over the intermediate columns:
each adds its shifted values to `sum_vec`, an array of `int`, and its bits to
`offset`. -/
def add_middle (all_vecs : List r_vector) : List Nat → (Nat → Int) × Int → (Nat → Int) × Int
  | [], s => s
  | k :: ks, (sum_vec, offset) =>
    let xk := all_vecs.getD k default
    add_middle all_vecs ks
      (fun i => to_int32 (sum_vec i + shl (UPDATE_V xk i) offset), offset + xk.x_range_bin)

/-- The loop `for(auto &&k : all_k) sum_bin_ranges += all_vecs[k].x_range_bin;`
of `multiple_ints_to_index`, on an `int`. -/
def sum_bin_ranges (all_vecs : List r_vector) (all_k : List Nat) : Int :=
  all_k.foldl (fun s k => to_int32 (s + (all_vecs.getD k default).x_range_bin)) 0

/-- The source's `multiple_ints_to_index`. The result holds the written index, `n_groups`
(field `g`) and `vec_first_obs`. The key `id` and the entries of `sum_vec` are
of type `int`: their sums are reduced to 32 bits, as are `sum_bin_ranges` and
the exponent `sum_bin_ranges + K - 1`. -/
def multiple_ints_to_index (all_vecs : List r_vector) (all_k : List Nat)
    (vec_first_obs : List Nat) (is_final : Bool) : Except Failure Scratch :=
  let sum_bin_ranges : Int := sum_bin_ranges all_vecs all_k
  let K : Int := all_k.length
  match all_k with
  | [] => .error Failure.out_of_bounds
  | [k0] =>
    let x0 := all_vecs.getD k0 default
    direct_index (to_int32 (x0.x_range + 1)) (UPDATE_V x0) x0.n is_final vec_first_obs
  | [k0, k1] =>
    let x0 := all_vecs.getD k0 default
    let x1 := all_vecs.getD k1 default
    let offset := x0.x_range_bin
    direct_index (pow2 (to_int32 (sum_bin_ranges + K - 1)))
      (fun i => to_int32 (UPDATE_V x0 i + shl (UPDATE_V x1 i) offset)) x0.n is_final
      vec_first_obs
  | k0 :: k1 :: rest =>
    let x0 := all_vecs.getD k0 default
    let x1 := all_vecs.getD k1 default
    let offset := x0.x_range_bin
    let sum_vec := fun i => to_int32 (UPDATE_V x0 i + shl (UPDATE_V x1 i) offset)
    let (sum_vec, offset) := add_middle all_vecs rest.dropLast (sum_vec, offset + x1.x_range_bin)
    let xk := all_vecs.getD (rest.getLastD 0) default
    direct_index (pow2 (to_int32 (sum_bin_ranges + K - 1)))
      (fun i => to_int32 (sum_vec i + shl (UPDATE_V xk i) offset)) x0.n is_final vec_first_obs

/-! ## Hashing loops -/

/-- The advance of the probe: `++id; if(id > larger_n) id %= larger_n;` on a
`uint32_t`. -/
def next_id (larger_n : Nat) (id : Nat) : Nat :=
  let id1 := (id + 1) % 2 ^ 32
  if id1 > larger_n then id1 % larger_n else id1

/-- The loop `while(hashed_obs_vec[id] != 0)`. `same obs` is the equality test
of the row stored in the slot with the current row. The result is the slot
where the loop stopped, with the stored row when it stopped by `break`
(`does_exist`). `hashed_obs_vec` has `larger_n + 1` entries. -/
def probe (larger_n : Nat) (hashed_obs_vec : Nat → Nat) (same : Nat → Bool) :
    Nat → Nat → Except Failure (Nat × Option Nat)
  | 0, _ => .error Failure.diverges
  | fuel + 1, id =>
    if id > larger_n then .error Failure.out_of_bounds
    else if hashed_obs_vec id = 0 then .ok (id, none)
    else
      let obs := hashed_obs_vec id - 1
      if same obs then .ok (id, some obs)
      else probe larger_n hashed_obs_vec same fuel (next_id larger_n id)

/-- One iteration of a hashing loop for row `i`: probe from `hash i`, then
either copy the group of the matching row or open a new group. The probe has a
budget of `larger_n + 1` steps, one per slot of the table: a probe that has
made that many steps has seen every slot it can reach occupied by a row that
does not match, and the loop of the source would not end. Reading the index at
a row that has not been written yet ends the run as well. -/
def hash_row (larger_n : Nat) (hash : Nat → Nat) (same : Nat → Nat → Bool) (is_final : Bool)
    (st : Scratch) (i : Nat) : Except Failure Scratch :=
  match probe larger_n st.lookup (fun obs => same obs i) (larger_n + 1) (hash i) with
  | .error e => .error e
  | .ok (_, some obs) =>
    match st.p_index[obs]? with
    | none => .error Failure.out_of_bounds
    | some v => .ok (st.old_group v)
  | .ok (id, none) => .ok (st.new_group id (i + 1) i is_final)

/-- A hashing loop `for(size_t i=0 ; i<n ; ++i)` over a zero-filled
`hashed_obs_vec`. -/
def hash_index (larger_n : Nat) (hash : Nat → Nat) (same : Nat → Nat → Bool) (n : Nat)
    (is_final : Bool) (vec_first_obs : List Nat) : Except Failure Scratch :=
  (List.range n).foldlM (hash_row larger_n hash same is_final) (Scratch.start vec_first_obs)

/-- The number of bits of the hash: `power_of_two(2.0 * n + 1.0)`, at least 8. -/
def shifter_of (n : Nat) : Int :=
  if power_of_two (2 * (n : Int) + 1) < 8 then 8 else power_of_two (2 * (n : Int) + 1)

/-- The value a row contributes to the hash (`hash_single`'s argument, the
first argument of `hash_double`), by type of the column. -/
def hash_value (x : r_vector) (i : Nat) : Nat :=
  match x.type with
  | VType.T_STR => x.px_intptr.getD i 0 % 2 ^ 32
  | VType.T_INT => to_uint32 (x.px_int.getD i 0)
  | VType.T_DBL_INT =>
    if x.any_na then
      if (x.px_dbl.getD i ⟨0⟩).isnan then to_uint32 x.NA_value
      else to_uint32 (x.px_dbl.getD i ⟨0⟩).to_int
    else to_uint32 (x.px_dbl.getD i ⟨0⟩).to_int
  | VType.T_DBL => to_uint32 (double_to_uint32 (x.px_dbl.getD i ⟨0⟩))

/-- The equality test of two rows of a column in the probe loops. -/
def same_value (x : r_vector) (obs i : Nat) : Bool :=
  match x.type with
  | VType.T_STR => x.px_intptr.getD obs 0 == x.px_intptr.getD i 0
  | VType.T_INT => x.px_int.getD obs 0 == x.px_int.getD i 0
  | _ => is_equal_dbl (x.px_dbl.getD obs ⟨0⟩) (x.px_dbl.getD i ⟨0⟩)

/-- The source's `general_type_to_index_single`. -/
def general_type_to_index_single (x : r_vector) (vec_first_obs : List Nat) (is_final : Bool) :
    Except Failure Scratch :=
  let shifter := shifter_of x.n
  let larger_n := (pow2 shifter).toNat
  hash_index larger_n (fun i => hash_single (hash_value x i) shifter) (same_value x) x.n
    is_final vec_first_obs

/-- The source's `general_type_to_index_double`; `n_groups` is the number of groups of
`p_index_in` on entry. -/
def general_type_to_index_double (x : r_vector) (p_index_in : List Nat) (n_groups : Nat)
    (vec_first_obs : List Nat) (is_final : Bool) : Except Failure Scratch :=
  let n := x.n
  let sum_range_bin := x.x_range_bin + power_of_two n_groups
  let do_fast_int := x.is_fast_int &&
    (decide (sum_range_bin < 17) || decide (sum_range_bin ≤ power_of_two (5 * (n : Int))))
  if do_fast_int then
    let n_groups_bin := power_of_two n_groups
    let offset := n_groups_bin
    direct_index (pow2 (x.x_range_bin + n_groups_bin + 1))
      (fun i => to_int32 ((p_index_in.getD i 0 : Int) + shl (UPDATE_V x i) offset)) n is_final
      vec_first_obs
  else
    let shifter := shifter_of n
    let larger_n := (pow2 shifter).toNat
    hash_index larger_n
      (fun i => hash_double (hash_value x i) (p_index_in.getD i 0) shifter)
      (fun obs i => same_value x obs i && p_index_in.getD obs 0 == p_index_in.getD i 0) n
      is_final vec_first_obs

/-! ## Pipeline driver -/

/-- The descriptor loop of the driver for the columns after the first: build
the descriptor, then compare the length with `n`. -/
def descriptors_from (n : Nat) : List SEXP → Except Failure (List r_vector)
  | [] => .ok []
  | e :: es =>
    match r_vector.init e with
    | .error err => .error err
    | .ok rvec =>
      if Rf_length e ≠ n then .error Failure.length_mismatch
      else
        match descriptors_from n es with
        | .error err => .error err
        | .ok vs => .ok (rvec :: vs)

/-- The first part of the driver: `K`, `n` and `all_vecs`. -/
def descriptors (x : Input) : Except Failure (Nat × Nat × List r_vector) :=
  match x with
  | .VECSXP [] => .ok (0, 0, [])
  | .VECSXP (e0 :: es) =>
    match r_vector.init e0 with
    | .error err => .error err
    | .ok rvec =>
      match descriptors_from (Rf_length e0) es with
      | .error err => .error err
      | .ok vs => .ok (es.length + 1, Rf_length e0, rvec :: vs)
  | .vector v =>
    match r_vector.init v with
    | .error err => .error err
    | .ok rvec => .ok (1, Rf_length v, [rvec])

/-- The loop filling `id_fast_int`, from column `k` on, with the running
`sum_bin_ranges`. A column that is not `is_fast_int` is passed over; the loop
is left at the first fast-int column that does not fit. -/
def id_fast_int_from (K n : Nat) : List r_vector → Nat → Int → List Nat
  | [], _, _ => []
  | x :: rest, k, sum_bin_ranges =>
    if x.is_fast_int then
      let new_bin_range := to_int32 (sum_bin_ranges + x.x_range_bin)
      if new_bin_range < 17 ∨ (K ≥ 2 ∧ new_bin_range ≤ power_of_two (5 * (n : Int))) then
        k :: id_fast_int_from K n rest (k + 1) new_bin_range
      else []
    else id_fast_int_from K n rest (k + 1) sum_bin_ranges

/-- The loop `for(size_t ind=0 ; ind<all_k_left.size() ; ++ind)` of STEP 2.
The two buffers `p_index` and `p_extra_index` alternate as input and output;
here the index written by one stage is the input of the next, and the copy
that ends the loop is the identity. -/
def fold_left (all_vecs : List r_vector) : List Nat → Scratch → Except Failure Scratch
  | [], st => .ok st
  | k :: ks, st =>
    match general_type_to_index_double (all_vecs.getD k default) st.p_index st.g
        st.vec_first_obs ks.isEmpty with
    | .error err => .error err
    | .ok st1 => fold_left all_vecs ks st1

/-- STEP 1 and STEP 2 of the driver, from the descriptors on. -/
def run_stages (K n : Nat) (all_vecs : List r_vector) : Except Failure Scratch :=
  let id_fast_int := id_fast_int_from K n all_vecs 0 0
  let all_k_left := (List.range K).filter (fun k => !id_fast_int.contains k)
  if !id_fast_int.isEmpty then
    let is_final := decide (K = id_fast_int.length)
    match multiple_ints_to_index all_vecs id_fast_int [] is_final with
    | .error err => .error err
    | .ok st => if is_final then .ok st else fold_left all_vecs all_k_left st
  else
    match all_k_left with
    | [] => .error Failure.out_of_bounds
    | k0 :: all_k_left =>
      let is_final := all_k_left.isEmpty
      match general_type_to_index_single (all_vecs.getD k0 default) [] is_final with
      | .error err => .error err
      | .ok st => if is_final then .ok st else fold_left all_vecs all_k_left st

/-- The source's `cpp_to_index_main`: the pair `(index, first_obs)`. -/
def cpp_to_index_main (x : Input) : Except Failure (List Nat × List Nat) :=
  match descriptors x with
  | .error err => .error err
  | .ok (K, n, all_vecs) =>
    match run_stages K n all_vecs with
    | .error err => .error err
    | .ok st => .ok (st.p_index, st.vec_first_obs)

/-- The number of rows of the argument: the length of the only vector, or of
the first vector of the list. -/
def Input.nrow : Input → Nat
  | .VECSXP [] => 0
  | .VECSXP (e0 :: _) => Rf_length e0
  | .vector v => Rf_length v

/-! ## Indices numbered by first occurrence -/

/-- How the loops build an index together with the list of first
occurrences: a row either opens the next group, whose id is the number of
groups so far plus one and whose one-based position is recorded, or it takes
the id of an earlier row. -/
inductive Numbered : List Nat → List Nat → Prop where
  | nil : Numbered [] []
  | fresh {idx fo : List Nat} : Numbered idx fo →
      Numbered (idx ++ [fo.length + 1]) (fo ++ [idx.length + 1])
  | again {idx fo : List Nat} {v : Nat} : Numbered idx fo → v ∈ idx →
      Numbered (idx ++ [v]) fo

/-- The largest entry of a list of group ids (0 for the empty list). -/
def max_id (l : List Nat) : Nat := l.foldr max 0

/-- What every indexing loop keeps true after `i` rows: the index written so
far is numbered by first occurrence with `g` groups, and the positions the loop
has pushed on `vec_first_obs` (all of them when `is_final`, none otherwise)
follow the entries `init` that were there before. -/
def Scratch.Inv (st : Scratch) (is_final : Bool) (init : List Nat) (i : Nat) : Prop :=
  st.p_index.length = i ∧
  ∃ fo, Numbered st.p_index fo ∧ st.g = fo.length ∧
    st.vec_first_obs = init ++ (if is_final then fo else [])

/-- The invariant of a direct-address loop: `Scratch.Inv`, and every non-zero
entry of `int_array` is a group id already written to the index. -/
def Scratch.DirectInv (st : Scratch) (is_final : Bool) (init : List Nat) (i : Nat) : Prop :=
  st.Inv is_final init i ∧ ∀ k, st.lookup k ≠ 0 → st.lookup k ∈ st.p_index

/-- The vectors for which the descriptor constructor returns: the atomic
vectors whose conversion to strings, when one is needed, raises no error. -/
def SEXP.convertible : SEXP → Prop
  | .NON_ATOMIC _ => False
  | .OTHER _ any_error => any_error = false
  | _ => True

/-- The failures of the C++ run-time, as opposed to the errors raised with
`Rf_error`. -/
def Failure.runtime (e : Failure) : Prop :=
  e = Failure.out_of_bounds ∨ e = Failure.bad_alloc ∨ e = Failure.diverges

/-- The columns of the argument. -/
def Input.columns : Input → List SEXP
  | .VECSXP elts => elts
  | .vector x => [x]

/-- The supported vectors: those the constructor accepts. -/
def SEXP.supported : SEXP → Prop
  | .NON_ATOMIC _ => False
  | .OTHER _ any_error => any_error = false
  | _ => True

/-- The invariant of a hashing loop after `i` rows, for a table of
`larger_n + 1` slots. Besides `Scratch.Inv`: every occupied slot holds the
one-based number of a row already seen (`stored_le`), no row is stored twice
(`inj`), the slot of a stored row is reached from its hash through occupied
slots (`reach`), every row seen has a stored row equal to it with the same id
(`rep`), and two stored rows are neither equal (`rep_same`) nor of the same id
(`rep_id`). -/
structure Scratch.HashInv (larger_n : Nat) (hash : Nat → Nat) (same : Nat → Nat → Bool)
    (is_final : Bool) (init : List Nat) (st : Scratch) (i : Nat) : Prop where
  inv : st.Inv is_final init i
  stored_le : ∀ s, st.lookup s ≠ 0 → st.lookup s ≤ i
  inj : ∀ s s', st.lookup s ≠ 0 → st.lookup s = st.lookup s' → s = s'
  reach : ∀ s, st.lookup s ≠ 0 →
    ∃ d, s = (next_id larger_n)^[d] (hash (st.lookup s - 1)) ∧
      ∀ e, e < d → st.lookup ((next_id larger_n)^[e] (hash (st.lookup s - 1))) ≠ 0
  rep : ∀ a, a < i →
    ∃ s, st.lookup s ≠ 0 ∧ same (st.lookup s - 1) a = true ∧
      st.p_index[a]? = st.p_index[st.lookup s - 1]?
  rep_same : ∀ s s', st.lookup s ≠ 0 → st.lookup s' ≠ 0 →
    same (st.lookup s - 1) (st.lookup s' - 1) = true → s = s'
  rep_id : ∀ s s', st.lookup s ≠ 0 → st.lookup s' ≠ 0 →
    st.p_index[st.lookup s - 1]? = st.p_index[st.lookup s' - 1]? → s = s'

/-! ## Table and keys of the direct-address paths -/

/-- The size of `int_array` in `multiple_ints_to_index`:
`lookup_size = K == 1 ? x0->x_range + 1 : std::pow(2, sum_bin_ranges + K - 1)`. -/
def lookup_size (all_vecs : List r_vector) (all_k : List Nat) : Int :=
  let sum_bin_ranges : Int := sum_bin_ranges all_vecs all_k
  let K : Int := all_k.length
  if K = 1 then to_int32 ((all_vecs.getD (all_k.getD 0 0) default).x_range + 1)
  else pow2 (to_int32 (sum_bin_ranges + K - 1))

/-- The key `id` that `multiple_ints_to_index` computes for row `i`: the
normalised value for `K == 1`, `v0 + (v1 << offset)` for `K == 2`, and
`sum_vec[i] + (vk << offset)` for `K >= 3`, each an `int`, so reduced to 32
bits. -/
def packed_key (all_vecs : List r_vector) (all_k : List Nat) (i : Nat) : Int :=
  match all_k with
  | [] => 0
  | [k0] => UPDATE_V (all_vecs.getD k0 default) i
  | [k0, k1] =>
    let x0 := all_vecs.getD k0 default
    let x1 := all_vecs.getD k1 default
    to_int32 (UPDATE_V x0 i + shl (UPDATE_V x1 i) x0.x_range_bin)
  | k0 :: k1 :: rest =>
    let x0 := all_vecs.getD k0 default
    let x1 := all_vecs.getD k1 default
    let offset := x0.x_range_bin
    let sum_vec := fun i => to_int32 (UPDATE_V x0 i + shl (UPDATE_V x1 i) offset)
    let s := add_middle all_vecs rest.dropLast (sum_vec, offset + x1.x_range_bin)
    let xk := all_vecs.getD (rest.getLastD 0) default
    to_int32 (s.1 i + shl (UPDATE_V xk i) s.2)

/-- The key `id = p_index_in[i] + (v << offset)` of the direct-address branch
of `general_type_to_index_double`, with `offset = power_of_two(n_groups)`; it
is an `int`, so reduced to 32 bits. -/
def composed_key (x : r_vector) (p_index_in : List Nat) (n_groups : Nat) (i : Nat) : Int :=
  to_int32 ((p_index_in.getD i 0 : Int) + shl (UPDATE_V x i) (power_of_two n_groups))

/-- The test `do_fast_int` of `general_type_to_index_double`. -/
def do_fast_int (x : r_vector) (n_groups : Nat) : Bool :=
  x.is_fast_int &&
    (decide (x.x_range_bin + power_of_two n_groups < 17) ||
      decide (x.x_range_bin + power_of_two n_groups ≤ power_of_two (5 * (x.n : Int))))

/-! ## The descriptor invariant of a fast-int column -/

/-- Row `i` of an integer-like column holds the missing value: `NA_INTEGER`
in an `int` array, a NaN in a `double` array. -/
def r_vector.is_na (x : r_vector) (i : Nat) : Bool :=
  if x.type = VType.T_INT then decide (x.px_int.getD i 0 = NA_INTEGER)
  else (x.px_dbl.getD i ⟨0⟩).isnan

/-- The integer held by row `i` of an integer-like column. -/
def r_vector.int_value (x : r_vector) (i : Nat) : Int :=
  if x.type = VType.T_INT then x.px_int.getD i 0 else (x.px_dbl.getD i ⟨0⟩).to_int

/-- The descriptor invariant of a fast-int column of `n` rows: the column is
integer-like, `x_range` is at least 1 and passes the test of `is_fast_int`
(`x_range < 100000 || x_range <= 2*n`, the product being an `int`),
`x_range_bin = power_of_two(x_range)`, `NA_value = x_range - 1`, `any_na` is
set when a row is missing, and every other row `v` has
`0 <= v - x_min < x_range - 1`. -/
structure r_vector.FastInt (x : r_vector) (n : Nat) : Prop where
  rows : x.n = n
  kind : x.type = VType.T_INT ∨ x.type = VType.T_DBL_INT
  range_pos : 1 ≤ x.x_range
  fast_ok : x.x_range < 100000 ∨ x.x_range ≤ to_int32 (2 * (n : Int))
  bits : x.x_range_bin = power_of_two x.x_range
  missing_id : x.NA_value = x.x_range - 1
  any_missing : ∀ i, i < n → x.is_na i = true → x.any_na = true
  in_range : ∀ i, i < n → x.is_na i = false →
    0 ≤ x.int_value i - x.x_min ∧ x.int_value i - x.x_min < x.x_range - 1

/-- The number of bits of the field of a column in a packed key:
`ceil(log2(x_range + 1))`. -/
def r_vector.bits_nat (x : r_vector) : Nat := ceil_log2 (x.x_range + 1).toNat

/-- The packed key in closed form, as an exact integer: the normalised values
of row `i` of the columns `ks`, each in a field of `x_range_bin` bits, the
first column in the lowest bits. -/
def pack (all_vecs : List r_vector) : List Nat → Nat → Int
  | [], _ => 0
  | k :: ks, i =>
    UPDATE_V (all_vecs.getD k default) i +
      pack all_vecs ks i * 2 ^ (all_vecs.getD k default).bits_nat

/-! ## The selection of the fast-int columns, in closed form -/

/-- The numbers of the columns that are `is_fast_int`, counted from `k`. -/
def fast_columns : List r_vector → Nat → List Nat
  | [], _ => []
  | x :: rest, k =>
    if x.is_fast_int then k :: fast_columns rest (k + 1) else fast_columns rest (k + 1)

/-- The rule of the selection on the running sum `S` of the bits:
`S < 17 || (K >= 2 && S <= power_of_two(5 * n))`. -/
def fits (K n : Nat) (S : Int) : Bool :=
  decide (S < 17) || (decide (K ≥ 2) && decide (S ≤ power_of_two (5 * (n : Int))))

/-- How many leading columns of a list fit, the running sum starting at
`S`. -/
def fit_count (K n : Nat) : List r_vector → Int → Nat
  | [], _ => 0
  | x :: rest, S =>
    if fits K n (to_int32 (S + x.x_range_bin)) then
      fit_count K n rest (to_int32 (S + x.x_range_bin)) + 1
    else 0

/-! ## Example data -/

/-- The descriptors of the three integer columns `[1, 1, 2, 2, 1]`,
`[10, 20, 10, 10, 10]` and `[NA, NA, 5, 5, NA]`. -/
def example_columns : List r_vector :=
  [ { n := 5, is_fast_int := true, x_range := 3, x_range_bin := 2, x_min := 1,
      type := VType.T_INT, any_na := false, NA_value := 2, px_int := [1, 1, 2, 2, 1] },
    { n := 5, is_fast_int := true, x_range := 12, x_range_bin := 4, x_min := 10,
      type := VType.T_INT, any_na := false, NA_value := 11, px_int := [10, 20, 10, 10, 10] },
    { n := 5, is_fast_int := true, x_range := 2, x_range_bin := 2, x_min := 5,
      type := VType.T_INT, any_na := true, NA_value := 1,
      px_int := [NA_INTEGER, NA_INTEGER, 5, 5, NA_INTEGER] } ]

/-- The descriptor of the integer column `[108, 499, 200111]`, which is not
fast-int. -/
def example_wide_column : r_vector :=
  { n := 3, is_fast_int := false, x_range := 200005, x_range_bin := 18, x_min := 108,
    type := VType.T_INT, any_na := false, NA_value := 200004, px_int := [108, 499, 200111] }

/-- The descriptor of a column of five strings, of handles
`[1000, 2000, 1000, 3000, 2000]`. -/
def example_string_column : r_vector :=
  { n := 5, type := VType.T_STR, px_intptr := [1000, 2000, 1000, 3000, 2000] }

/-- The descriptors of the two integer columns `[0, 0, 70000]` and
`[0, 32768, 40000]`, of 17 and 16 bits. -/
def example_columns_33_bits : List r_vector :=
  [ { n := 3, is_fast_int := true, x_range := 70002, x_range_bin := 17, x_min := 0,
      type := VType.T_INT, any_na := false, NA_value := 70001, px_int := [0, 0, 70000] },
    { n := 3, is_fast_int := true, x_range := 40002, x_range_bin := 16, x_min := 0,
      type := VType.T_INT, any_na := false, NA_value := 40001, px_int := [0, 32768, 40000] } ]

/-- The descriptors of the two integer columns `[0, 0, 40000]` and
`[0, 32768, 40000]`, of 16 bits each. -/
def example_columns_32_bits : List r_vector :=
  [ { n := 3, is_fast_int := true, x_range := 40002, x_range_bin := 16, x_min := 0,
      type := VType.T_INT, any_na := false, NA_value := 40001, px_int := [0, 0, 40000] },
    { n := 3, is_fast_int := true, x_range := 40002, x_range_bin := 16, x_min := 0,
      type := VType.T_INT, any_na := false, NA_value := 40001, px_int := [0, 32768, 40000] } ]

/-- The descriptor of the integer column `[10, 20, 10, 10, 10]`, which is
fast-int. -/
def example_int_column : r_vector :=
  { n := 5, is_fast_int := true, x_range := 12, x_range_bin := 4, x_min := 10,
    type := VType.T_INT, any_na := false, NA_value := 11, px_int := [10, 20, 10, 10, 10] }

/-- The descriptor of the integer column
`[1000000000, 1000000001, 1000000000, 1000000002]`: its values are large but
its range is 4, so it is fast-int. -/
def example_offset_column : r_vector :=
  { n := 4, is_fast_int := true, x_range := 4, x_range_bin := 3, x_min := 1000000000,
    type := VType.T_INT, any_na := false, NA_value := 3,
    px_int := [1000000000, 1000000001, 1000000000, 1000000002] }

/-- The descriptor of the integer column `[0, 1000000001, 0, 1000000002]`, of
range 1000000004: it is not fast-int. -/
def example_spread_column : r_vector :=
  { n := 4, is_fast_int := false, x_range := 1000000004, x_range_bin := 30, x_min := 0,
    type := VType.T_INT, any_na := false, NA_value := 1000000003,
    px_int := [0, 1000000001, 0, 1000000002] }

/-- One call of an indexer by the driver: the flag `is_final` it was given,
`vec_first_obs` as it was before the call, and the state it returned. -/
structure Stage where
  is_final : Bool
  first_obs_before : List Nat
  result : Scratch

/-- The calls of `general_type_to_index_double` made by the loop of STEP 2 (the
loop of `fold_left`), in order. -/
def fold_left_stages (all_vecs : List r_vector) : List Nat → Scratch → Except Failure (List Stage)
  | [], _ => .ok []
  | k :: ks, st =>
    match general_type_to_index_double (all_vecs.getD k default) st.p_index st.g
        st.vec_first_obs ks.isEmpty with
    | .error err => .error err
    | .ok st1 =>
      match fold_left_stages all_vecs ks st1 with
      | .error err => .error err
      | .ok tr => .ok (⟨ks.isEmpty, st.vec_first_obs, st1⟩ :: tr)

/-- The calls of the indexers made by STEP 1 and STEP 2 of the driver (the
calls of `run_stages`), in order. -/
def stages (K n : Nat) (all_vecs : List r_vector) : Except Failure (List Stage) :=
  let id_fast_int := id_fast_int_from K n all_vecs 0 0
  let all_k_left := (List.range K).filter (fun k => !id_fast_int.contains k)
  if !id_fast_int.isEmpty then
    let is_final := decide (K = id_fast_int.length)
    match multiple_ints_to_index all_vecs id_fast_int [] is_final with
    | .error err => .error err
    | .ok st =>
      if is_final then .ok [⟨is_final, [], st⟩]
      else
        match fold_left_stages all_vecs all_k_left st with
        | .error err => .error err
        | .ok tr => .ok (⟨is_final, [], st⟩ :: tr)
  else
    match all_k_left with
    | [] => .error Failure.out_of_bounds
    | k0 :: all_k_left =>
      let is_final := all_k_left.isEmpty
      match general_type_to_index_single (all_vecs.getD k0 default) [] is_final with
      | .error err => .error err
      | .ok st =>
        if is_final then .ok [⟨is_final, [], st⟩]
        else
          match fold_left_stages all_vecs all_k_left st with
          | .error err => .error err
          | .ok tr => .ok (⟨is_final, [], st⟩ :: tr)

/-! ## The two branches of the composed indexer -/

theorem le_max_id {l : List Nat} {v : Nat} (h : v ∈ l) : v ≤ max_id l := by
  induction l with
  | nil => cases h
  | cons a t ih =>
    simp only [max_id, List.foldr_cons] at *
    rcases List.mem_cons.mp h with h | h
    · subst h; exact le_max_left _ _
    · exact le_trans (ih h) (le_max_right _ _)

theorem max_id_mem {l : List Nat} (h : l ≠ []) : max_id l ∈ l := by
  induction l with
  | nil => exact absurd rfl h
  | cons a t ih =>
    simp only [max_id, List.foldr_cons]
    by_cases ht : t = []
    · subst ht; simp
    · rcases le_total a (List.foldr max 0 t) with hle | hle
      · rw [max_eq_right hle]; exact List.mem_cons_of_mem _ (ih ht)
      · rw [max_eq_left hle]; exact List.mem_cons_self _ _

/-- The ids of a numbered index are exactly `1..G`. -/
theorem Numbered.mem_iff {idx fo : List Nat} (h : Numbered idx fo) (v : Nat) :
    v ∈ idx ↔ 1 ≤ v ∧ v ≤ fo.length := by
  induction h generalizing v with
  | nil => simp; omega
  | @fresh idx fo _ ih =>
    simp only [List.mem_append, List.mem_singleton, List.length_append, List.length_singleton,
      ih v]
    omega
  | @again idx fo w _ hw ih =>
    simp only [List.mem_append, List.mem_singleton, ih v]
    have := (ih w).mp hw
    constructor
    · rintro (h | h)
      · exact h
      · subst h; exact this
    · intro h; exact Or.inl h

/-- Every recorded position is a one-based row position. -/
theorem Numbered.fo_bound {idx fo : List Nat} (h : Numbered idx fo) :
    ∀ p ∈ fo, 1 ≤ p ∧ p ≤ idx.length := by
  induction h with
  | nil => simp
  | @fresh idx fo _ ih =>
    intro p hp
    simp only [List.mem_append, List.mem_singleton] at hp
    simp only [List.length_append, List.length_singleton]
    rcases hp with hp | hp
    · have := ih p hp; omega
    · omega
  | @again idx fo w _ _ ih =>
    intro p hp
    simp only [List.length_append, List.length_singleton]
    have := ih p hp; omega

/-- The recorded positions are strictly increasing. -/
theorem Numbered.fo_sorted {idx fo : List Nat} (h : Numbered idx fo) :
    fo.Pairwise (· < ·) := by
  induction h with
  | nil => exact List.Pairwise.nil
  | @fresh idx fo h ih =>
    rw [List.pairwise_append]
    refine ⟨ih, List.pairwise_singleton _ _, ?_⟩
    intro a ha b hb
    simp only [List.mem_singleton] at hb
    have := h.fo_bound a ha
    omega
  | again _ _ ih => exact ih

/-- Entry `g` of the recorded positions is the first row holding id `g + 1`,
and every row before it holds a smaller id. -/
theorem Numbered.first_row {idx fo : List Nat} (h : Numbered idx fo) (g : Nat)
    (hg : g < fo.length) :
    ∃ i, fo[g]? = some (i + 1) ∧ idx[i]? = some (g + 1) ∧
      ∀ j v, j < i → idx[j]? = some v → v < g + 1 := by
  induction h generalizing g with
  | nil => simp at hg
  | @fresh idx fo h ih =>
    simp only [List.length_append, List.length_singleton] at hg
    by_cases hlt : g < fo.length
    · obtain ⟨i, h1, h2, h3⟩ := ih g hlt
      have hi : i < idx.length := by
        rcases List.getElem?_eq_some.mp h2 with ⟨hi, _⟩; exact hi
      refine ⟨i, ?_, ?_, ?_⟩
      · rw [List.getElem?_append_left hlt]; exact h1
      · rw [List.getElem?_append_left hi]; exact h2
      · intro j v hj hv
        rw [List.getElem?_append_left (by omega)] at hv
        exact h3 j v hj hv
    · have hge : g = fo.length := by omega
      subst hge
      refine ⟨idx.length, ?_, ?_, ?_⟩
      · exact List.getElem?_concat_length _ _
      · exact List.getElem?_concat_length _ _
      · intro j v hj hv
        rw [List.getElem?_append_left hj] at hv
        have hm : v ∈ idx := List.mem_iff_getElem?.mpr ⟨j, hv⟩
        have := (h.mem_iff v).mp hm
        omega
  | @again idx fo w h hw ih =>
    obtain ⟨i, h1, h2, h3⟩ := ih g hg
    have hi : i < idx.length := by
      rcases List.getElem?_eq_some.mp h2 with ⟨hi, _⟩; exact hi
    refine ⟨i, h1, ?_, ?_⟩
    · rw [List.getElem?_append_left hi]; exact h2
    · intro j v hj hv
      rw [List.getElem?_append_left (by omega)] at hv
      exact h3 j v hj hv

/-- Each id is at most one more than the largest id before it. -/
theorem Numbered.le_succ_max {idx fo : List Nat} (h : Numbered idx fo) (i v : Nat)
    (hv : idx[i]? = some v) : v ≤ 1 + max_id (idx.take i) := by
  induction h generalizing i v with
  | nil => simp at hv
  | @fresh idx fo h ih =>
    by_cases hlt : i < idx.length
    · rw [List.getElem?_append_left hlt] at hv
      rw [List.take_append_of_le_length (by omega)]
      exact ih i v hv
    · have hi : i = idx.length := by
        rcases List.getElem?_eq_some.mp hv with ⟨hi, _⟩
        simp only [List.length_append, List.length_singleton] at hi
        omega
      subst hi
      rw [List.getElem?_concat_length] at hv
      rw [List.take_left]
      have hv1 : v = fo.length + 1 := by injection hv with hv; exact hv.symm
      subst hv1
      by_cases hfo : fo.length = 0
      · omega
      · have hm : fo.length ∈ idx := (h.mem_iff _).mpr ⟨by omega, le_refl _⟩
        have := le_max_id hm
        omega
  | @again idx fo w h hw ih =>
    by_cases hlt : i < idx.length
    · rw [List.getElem?_append_left hlt] at hv
      rw [List.take_append_of_le_length (by omega)]
      exact ih i v hv
    · have hi : i = idx.length := by
        rcases List.getElem?_eq_some.mp hv with ⟨hi, _⟩
        simp only [List.length_append, List.length_singleton] at hi
        omega
      subst hi
      rw [List.getElem?_concat_length] at hv
      rw [List.take_left]
      have hv1 : v = w := by injection hv with hv; exact hv.symm
      subst hv1
      have := le_max_id hw
      omega

/-! ## Loops over the rows -/

/-- Invariant rule for a loop `for(i = 0; i < n; ++i)` whose body can fail. -/
theorem foldlM_range_inv {σ ε : Type} (f : σ → Nat → Except ε σ) (P : Nat → σ → Prop)
    (n : Nat) (s0 s : σ) (h0 : P 0 s0)
    (hstep : ∀ i a b, i < n → P i a → f a i = .ok b → P (i + 1) b)
    (h : (List.range n).foldlM f s0 = .ok s) : P n s := by
  induction n generalizing s with
  | zero =>
    simp only [List.range_zero, List.foldlM_nil] at h
    cases h; exact h0
  | succ n ih =>
    rw [List.range_succ, List.foldlM_append] at h
    cases hm : (List.range n).foldlM f s0 with
    | error e => rw [hm] at h; cases h
    | ok a =>
      rw [hm] at h
      have ha := ih a (fun i a b hi => hstep i a b (by omega)) hm
      cases hf : f a n with
      | error e =>
        simp only [List.foldlM_cons, List.foldlM_nil] at h
        have h1 : (Except.ok a >>= fun init => f init n >>= fun s1 => pure s1) = .error e := by
          show (f a n >>= fun s1 => pure s1) = .error e
          rw [hf]; rfl
        rw [h1] at h; cases h
      | ok b =>
        have h1 : (Except.ok a >>= fun init => f init n >>= fun s1 => pure s1) = .ok b := by
          show (f a n >>= fun s1 => pure s1) = .ok b
          rw [hf]; rfl
        simp only [List.foldlM_cons, List.foldlM_nil] at h
        rw [h1] at h
        cases h
        exact hstep n a _ (by omega) ha hf

/-- Progress rule: when the body succeeds from every state satisfying the
invariant, the loop succeeds. -/
theorem foldlM_range_total {σ ε : Type} (f : σ → Nat → Except ε σ) (P : Nat → σ → Prop)
    (n : Nat) (s0 : σ) (h0 : P 0 s0)
    (hstep : ∀ i a, i < n → P i a → ∃ b, f a i = .ok b ∧ P (i + 1) b) :
    ∃ s, (List.range n).foldlM f s0 = .ok s ∧ P n s := by
  induction n with
  | zero => exact ⟨s0, rfl, h0⟩
  | succ n ih =>
    obtain ⟨a, ha, hPa⟩ := ih (fun i a hi => hstep i a (by omega))
    obtain ⟨b, hb, hPb⟩ := hstep n a (by omega) hPa
    refine ⟨b, ?_, hPb⟩
    rw [List.range_succ, List.foldlM_append, ha]
    show (f a n >>= fun s1 => pure s1) = .ok b
    rw [hb]; rfl

theorem Scratch.start_inv (is_final : Bool) (init : List Nat) :
    (Scratch.start init).Inv is_final init 0 := by
  refine ⟨rfl, [], Numbered.nil, rfl, ?_⟩
  cases is_final <;> simp [Scratch.start]

theorem Scratch.new_group_inv {st : Scratch} {is_final : Bool} {init : List Nat} {i : Nat}
    (h : st.Inv is_final init i) (id stored : Nat) :
    (st.new_group id stored i is_final).Inv is_final init (i + 1) := by
  obtain ⟨hlen, fo, hnum, hg, hfo⟩ := h
  refine ⟨by simp [Scratch.new_group, hlen], fo ++ [i + 1], ?_, ?_, ?_⟩
  · have := Numbered.fresh hnum
    rw [hlen, ← hg] at this
    exact this
  · simp [Scratch.new_group, hg]
  · cases is_final <;> simp_all [Scratch.new_group]

theorem Scratch.old_group_inv {st : Scratch} {is_final : Bool} {init : List Nat} {i : Nat}
    (h : st.Inv is_final init i) {v : Nat} (hv : v ∈ st.p_index) :
    (st.old_group v).Inv is_final init (i + 1) := by
  obtain ⟨hlen, fo, hnum, hg, hfo⟩ := h
  exact ⟨by simp [Scratch.old_group, hlen], fo, Numbered.again hnum hv, hg, hfo⟩

/-- The direct-address step keeps the invariant. -/
theorem update_index_intarray_g_obs_inv {lookup_size id : Int} {i : Nat} {st st1 : Scratch}
    {is_final : Bool} {init : List Nat} (h : st.DirectInv is_final init i)
    (hr : update_index_intarray_g_obs lookup_size id i st is_final = .ok st1) :
    st1.DirectInv is_final init (i + 1) := by
  unfold update_index_intarray_g_obs at hr
  split_ifs at hr with h1 h2
  · cases hr
    refine ⟨Scratch.new_group_inv h.1 _ _, ?_⟩
    intro k hk
    simp only [Scratch.new_group] at hk ⊢
    by_cases hkid : k = id.toNat
    · subst hkid; simp
    · rw [Function.update_noteq hkid] at hk ⊢
      exact List.mem_append_left _ (h.2 k hk)
  · cases hr
    refine ⟨Scratch.old_group_inv h.1 (h.2 _ h2), ?_⟩
    intro k hk
    exact List.mem_append_left _ (h.2 k hk)

/-- A direct-address loop returns an index of `n` rows numbered by first
occurrence. -/
theorem direct_index_inv {lookup_size : Int} {id : Nat → Int} {n : Nat} {is_final : Bool}
    {init : List Nat} {st : Scratch}
    (hr : direct_index lookup_size id n is_final init = .ok st) :
    st.Inv is_final init n := by
  unfold direct_index at hr
  split_ifs at hr
  have := foldlM_range_inv _ (fun i s => Scratch.DirectInv s is_final init i) n _ st
    ⟨Scratch.start_inv is_final init, by simp [Scratch.start]⟩
    (fun i a b _ ha hb => update_index_intarray_g_obs_inv ha hb) hr
  exact this.1

/-- The hashing step keeps the invariant. -/
theorem hash_row_inv {larger_n : Nat} {hash : Nat → Nat} {same : Nat → Nat → Bool}
    {is_final : Bool} {init : List Nat} {st st1 : Scratch} {i : Nat}
    (h : st.Inv is_final init i) (hr : hash_row larger_n hash same is_final st i = .ok st1) :
    st1.Inv is_final init (i + 1) := by
  unfold hash_row at hr
  split at hr
  · cases hr
  · split at hr
    · cases hr
    · rename_i v hv
      cases hr
      exact Scratch.old_group_inv h (List.mem_iff_getElem?.mpr ⟨_, hv⟩)
  · cases hr
    exact Scratch.new_group_inv h _ _

/-- A hashing loop returns an index of `n` rows numbered by first occurrence. -/
theorem hash_index_inv {larger_n : Nat} {hash : Nat → Nat} {same : Nat → Nat → Bool} {n : Nat}
    {is_final : Bool} {init : List Nat} {st : Scratch}
    (hr : hash_index larger_n hash same n is_final init = .ok st) :
    st.Inv is_final init n :=
  foldlM_range_inv _ (fun i s => Scratch.Inv s is_final init i) n _ st
    (Scratch.start_inv is_final init) (fun _ _ _ _ ha hb => hash_row_inv ha hb) hr

/-! ## The three indexers -/

/-- The function `multiple_ints_to_index` returns an index numbered by first occurrence,
with one entry per row of the first column it is given. -/
theorem multiple_ints_to_index_inv {all_vecs : List r_vector} {all_k : List Nat}
    {init : List Nat} {is_final : Bool} {st : Scratch}
    (hr : multiple_ints_to_index all_vecs all_k init is_final = .ok st) :
    st.Inv is_final init (all_vecs.getD (all_k.headD 0) default).n := by
  unfold multiple_ints_to_index at hr
  match all_k, hr with
  | [], hr => cases hr
  | [k0], hr => exact direct_index_inv hr
  | [k0, k1], hr => exact direct_index_inv hr
  | k0 :: k1 :: k2 :: rest, hr => exact direct_index_inv hr

theorem general_type_to_index_single_inv {x : r_vector} {init : List Nat} {is_final : Bool}
    {st : Scratch} (hr : general_type_to_index_single x init is_final = .ok st) :
    st.Inv is_final init x.n :=
  hash_index_inv hr

theorem general_type_to_index_double_inv {x : r_vector} {p_index_in : List Nat}
    {n_groups : Nat} {init : List Nat} {is_final : Bool} {st : Scratch}
    (hr : general_type_to_index_double x p_index_in n_groups init is_final = .ok st) :
    st.Inv is_final init x.n := by
  unfold general_type_to_index_double at hr
  simp only at hr
  split_ifs at hr
  · exact direct_index_inv hr
  · exact hash_index_inv hr

/-! ## Descriptors of the driver -/

theorem r_vector.init_n {e : SEXP} {v : r_vector} (h : r_vector.init e = .ok v) :
    v.n = Rf_length e := by
  unfold r_vector.init at h
  cases e with
  | STRSXP p => cases h; rfl
  | REALSXP p =>
    simp only at h
    split_ifs at h <;> cases h <;> rfl
  | INTSXP p => cases h; rfl
  | LGLSXP p => cases h; rfl
  | FACTOR p l => cases h; rfl
  | OTHER p b =>
    simp only at h
    split_ifs at h
    cases h; rfl
  | NON_ATOMIC l => cases h

theorem descriptors_from_spec {n : Nat} {es : List SEXP} {vs : List r_vector}
    (h : descriptors_from n es = .ok vs) :
    vs.length = es.length ∧ ∀ v ∈ vs, v.n = n := by
  induction es generalizing vs with
  | nil => cases h; simp
  | cons e es ih =>
    unfold descriptors_from at h
    split at h
    · cases h
    · rename_i rvec hrv
      split_ifs at h with hl
      split at h
      · cases h
      · rename_i vs1 hvs
        cases h
        obtain ⟨h1, h2⟩ := ih hvs
        refine ⟨by simp [h1], ?_⟩
        intro v hv
        rcases List.mem_cons.mp hv with hv | hv
        · subst hv
          rw [r_vector.init_n hrv]
          exact not_not.mp hl
        · exact h2 v hv

/-- The descriptors the driver builds: one per column, each with the row count
of the argument. -/
theorem descriptors_spec {x : Input} {K n : Nat} {vs : List r_vector}
    (h : descriptors x = .ok (K, n, vs)) :
    vs.length = K ∧ n = x.nrow ∧ ∀ v ∈ vs, v.n = n := by
  unfold descriptors at h
  split at h
  · cases h; simp [Input.nrow]
  · rename_i e0 es
    split at h
    · cases h
    · rename_i rvec hrv
      split at h
      · cases h
      · rename_i vs1 hvs
        cases h
        obtain ⟨h1, h2⟩ := descriptors_from_spec hvs
        refine ⟨by simp [h1], rfl, ?_⟩
        intro v hv
        rcases List.mem_cons.mp hv with hv | hv
        · subst hv; exact r_vector.init_n hrv
        · exact h2 v hv
  · rename_i v0
    split at h
    · cases h
    · rename_i rvec hrv
      cases h
      refine ⟨rfl, rfl, ?_⟩
      intro v hv
      simp only [List.mem_singleton] at hv
      subst hv; exact r_vector.init_n hrv

/-! ## The stages of the driver -/

/-- The columns chosen for the direct-address indexer are listed in increasing
order, without repetition, and are columns of the argument. -/
theorem id_fast_int_from_sublist (K n : Nat) (vs : List r_vector) (k : Nat) (s : Int) :
    (id_fast_int_from K n vs k s).Sublist (List.range' k vs.length) := by
  induction vs generalizing k s with
  | nil => simp [id_fast_int_from]
  | cons x rest ih =>
    unfold id_fast_int_from
    rw [List.length_cons, List.range'_succ]
    by_cases hx : x.is_fast_int = true
    · simp only [hx, if_true]
      split_ifs
      · exact List.Sublist.cons₂ _ (ih _ _)
      · exact List.nil_sublist _
    · simp only [hx]
      exact List.Sublist.cons _ (ih _ _)

theorem id_fast_int_lt {K n : Nat} {vs : List r_vector} {k : Nat}
    (hk : k ∈ id_fast_int_from K n vs 0 0) : k < vs.length := by
  have := (id_fast_int_from_sublist K n vs 0 0).subset hk
  rw [← List.range_eq_range'] at this
  exact List.mem_range.mp this

/-- When no column is left over, every column was chosen. -/
theorem all_k_left_nil {K n : Nat} {vs : List r_vector} (hK : vs.length = K)
    (h : (List.range K).filter (fun k => !(id_fast_int_from K n vs 0 0).contains k) = []) :
    K = (id_fast_int_from K n vs 0 0).length := by
  have hsub := id_fast_int_from_sublist K n vs 0 0
  rw [hK, ← List.range_eq_range'] at hsub
  have hss : List.range K ⊆ id_fast_int_from K n vs 0 0 := by
    intro k hk
    have := (List.filter_eq_nil_iff.mp h) k hk
    simpa using this
  have hle := ((List.nodup_range K).subperm hss).length_le
  rw [List.length_range] at hle
  have := hsub.length_le
  rw [List.length_range] at this
  omega

theorem getD_n {vs : List r_vector} {n k : Nat} (hn : ∀ v ∈ vs, v.n = n) (hk : k < vs.length) :
    (vs.getD k default).n = n := by
  rw [List.getD_eq_getElem _ _ hk]
  exact hn _ (List.getElem_mem hk)

/-- The folding loop of STEP 2, entered with an empty `vec_first_obs` and at
least one column left, ends with an index numbered by first occurrence and its
first occurrences. -/
theorem fold_left_inv {vs : List r_vector} {n : Nat} {ks : List Nat} {st st1 : Scratch}
    (hks : ks ≠ []) (hfo : st.vec_first_obs = [])
    (hn : ∀ k ∈ ks, (vs.getD k default).n = n)
    (hr : fold_left vs ks st = .ok st1) : st1.Inv true [] n := by
  induction ks generalizing st with
  | nil => exact absurd rfl hks
  | cons k ks ih =>
    unfold fold_left at hr
    split at hr
    · cases hr
    · rename_i st2 hst2
      have hinv := general_type_to_index_double_inv hst2
      rw [hn k (List.mem_cons_self _ _), hfo] at hinv
      cases ks with
      | nil =>
        unfold fold_left at hr
        cases hr
        exact hinv
      | cons k1 ks1 =>
        refine ih (List.cons_ne_nil _ _) ?_ (fun j hj => hn j (List.mem_cons_of_mem _ hj)) hr
        obtain ⟨_, fo, _, _, h3⟩ := hinv
        simpa using h3

/-- The stages of the driver end with an index of `n` rows numbered by first
occurrence and the list of its first occurrences. -/
theorem run_stages_inv {K n : Nat} {vs : List r_vector} {st : Scratch}
    (hK : vs.length = K) (hn : ∀ v ∈ vs, v.n = n)
    (hr : run_stages K n vs = .ok st) : st.Inv true [] n := by
  unfold run_stages at hr
  simp only at hr
  have hleft : ∀ k ∈ (List.range K).filter
      (fun k => !(id_fast_int_from K n vs 0 0).contains k), (vs.getD k default).n = n := by
    intro k hk
    have := (List.mem_filter.mp hk).1
    exact getD_n hn (by rw [hK]; exact List.mem_range.mp this)
  split at hr
  · rename_i hfast
    split at hr
    · cases hr
    · rename_i st0 hst0
      have hinv := multiple_ints_to_index_inv hst0
      have hhead : (vs.getD ((id_fast_int_from K n vs 0 0).headD 0) default).n = n := by
        apply getD_n hn
        apply id_fast_int_lt (K := K) (n := n)
        cases hl : id_fast_int_from K n vs 0 0 with
        | nil => simp [hl] at hfast
        | cons a t => simp
      rw [hhead] at hinv
      split at hr
      · rename_i hfin
        cases hr
        simpa [hfin] using hinv
      · rename_i hfin
        have hne : (List.range K).filter
            (fun k => !(id_fast_int_from K n vs 0 0).contains k) ≠ [] := by
          intro h
          exact hfin (by simpa using all_k_left_nil hK h)
        refine fold_left_inv hne ?_ hleft hr
        obtain ⟨_, fo, _, _, h3⟩ := hinv
        simpa [hfin] using h3
  · split at hr
    · cases hr
    · rename_i k0 left hl
      have hk0 : (vs.getD k0 default).n = n := hleft k0 (by rw [hl]; exact List.mem_cons_self _ _)
      split at hr
      · cases hr
      · rename_i st0 hst0
        have hinv := general_type_to_index_single_inv hst0
        rw [hk0] at hinv
        split at hr
        · rename_i hfin
          cases hr
          simpa [hfin] using hinv
        · rename_i hfin
          have hne : left ≠ [] := by
            intro h; apply hfin; simp [h]
          refine fold_left_inv hne ?_
            (fun j hj => hleft j (by rw [hl]; exact List.mem_cons_of_mem _ hj)) hr
          obtain ⟨_, fo, _, _, h3⟩ := hinv
          simpa [hfin] using h3

/-- Every result of the driver is an index with one entry per row, numbered by
first occurrence, together with the positions of the first occurrences. -/
theorem cpp_to_index_main_numbered {x : Input} {index first_obs : List Nat}
    (h : cpp_to_index_main x = .ok (index, first_obs)) :
    index.length = x.nrow ∧ Numbered index first_obs := by
  unfold cpp_to_index_main at h
  split at h
  · cases h
  · rename_i K n vs hd
    split at h
    · cases h
    · rename_i st hst
      cases h
      obtain ⟨h1, h2, h3⟩ := descriptors_spec hd
      obtain ⟨hlen, fo, hnum, _, hfo⟩ := run_stages_inv h1 h3 hst
      refine ⟨by rw [hlen, h2], ?_⟩
      have : st.vec_first_obs = fo := by simpa using hfo
      rw [this]; exact hnum

/-- A row that is the first of its group holds an id above the ids of all
rows before it. -/
theorem Numbered.first_lt {idx fo : List Nat} (h : Numbered idx fo) {i j vi vj : Nat}
    (hij : i < j) (hi : idx[i]? = some vi) (hj : idx[j]? = some vj)
    (hfj : ∀ k, k < j → idx[k]? ≠ some vj) : vi < vj := by
  have hm : vj ∈ idx := List.mem_iff_getElem?.mpr ⟨j, hj⟩
  have hb := (h.mem_iff vj).mp hm
  obtain ⟨b, _, hb2, hb3⟩ := h.first_row (vj - 1) (by omega)
  have hvj : vj - 1 + 1 = vj := by omega
  rw [hvj] at hb2 hb3
  have hbj : b = j := by
    rcases Nat.lt_trichotomy b j with hlt | heq | hgt
    · exact absurd hb2 (hfj b hlt)
    · exact heq
    · have := hb3 j vj hgt hj; omega
  subst hbj
  exact hb3 i vi hij hi

/-! ## Claims on the numbering of the groups -/

/-- The property of C2 on the runs that return: whenever the driver returns
`(index, first_obs)`, entry `g - 1` of
`first_obs` is, for every group id `g` in `1..G` (`G` the length of
`first_obs`), the smallest one-based position of a row holding `g`, and
`first_obs` is strictly increasing. The run may have ended with any of the
three indexers. -/
theorem first_obs_is_first_occurrence (x : Input) (index first_obs : List Nat)
    (h : cpp_to_index_main x = .ok (index, first_obs)) :
    (∀ g, 1 ≤ g → g ≤ first_obs.length →
      ∃ i, first_obs[g - 1]? = some (i + 1) ∧ index[i]? = some g ∧
        ∀ j, j < i → index[j]? ≠ some g) ∧
    first_obs.Pairwise (· < ·) := by
  obtain ⟨_, hnum⟩ := cpp_to_index_main_numbered h
  refine ⟨?_, hnum.fo_sorted⟩
  intro g hg1 hg2
  obtain ⟨i, h1, h2, h3⟩ := hnum.first_row (g - 1) (by omega)
  have hg : g - 1 + 1 = g := by omega
  rw [hg] at h2 h3
  refine ⟨i, h1, h2, ?_⟩
  intro j hj hjg
  have := h3 j g hj hjg
  omega

theorem first_obs_is_first_occurrence_witness :
    cpp_to_index_main (.vector (.INTSXP [3, 1, 3, NA_INTEGER, 1, NA_INTEGER])) =
        .ok ([1, 2, 1, 3, 2, 3], [1, 2, 4]) ∧
      ((∀ g, 1 ≤ g → g ≤ [1, 2, 4].length →
        ∃ i, [1, 2, 4][g - 1]? = some (i + 1) ∧ [1, 2, 1, 3, 2, 3][i]? = some g ∧
          ∀ j, j < i → [1, 2, 1, 3, 2, 3][j]? ≠ some g) ∧
      [1, 2, 4].Pairwise (· < ·)) :=
  ⟨rfl, first_obs_is_first_occurrence
    (.vector (.INTSXP [3, 1, 3, NA_INTEGER, 1, NA_INTEGER])) _ _ rfl⟩

/-- The property of C3 on the runs that return: group ids are given in order
of first appearance. Whenever the driver
returns an index for an argument with at least one row, the first id is 1,
every later id is at most one more than the largest id before it, and of two
rows that are each the first of their group the earlier one has the smaller
id. -/
theorem ids_in_order_of_first_appearance (x : Input) (index first_obs : List Nat)
    (h : cpp_to_index_main x = .ok (index, first_obs)) (hn : 1 ≤ x.nrow) :
    index[0]? = some 1 ∧
    (∀ i v, 1 ≤ i → index[i]? = some v → v ≤ 1 + max_id (index.take i)) ∧
    (∀ i j vi vj : Nat, i < j → index[i]? = some vi → index[j]? = some vj →
      (∀ k, k < i → index[k]? ≠ some vi) → (∀ k, k < j → index[k]? ≠ some vj) → vi < vj) := by
  obtain ⟨hlen, hnum⟩ := cpp_to_index_main_numbered h
  refine ⟨?_, fun i v _ hv => hnum.le_succ_max i v hv, ?_⟩
  · have h0 : 0 < index.length := by omega
    have hv := List.getElem?_eq_getElem h0
    have hle := hnum.le_succ_max 0 _ hv
    have hge := (hnum.mem_iff _).mp (List.getElem_mem h0)
    simp only [List.take_zero, max_id, List.foldr_nil] at hle
    rw [hv]
    congr 1
    omega
  · intro i j vi vj hij hi hj _ hfj
    exact hnum.first_lt hij hi hj hfj

theorem ids_in_order_of_first_appearance_witness :
    cpp_to_index_main (.VECSXP [.INTSXP [1, 1, 2, 1], .STRSXP [1000, 2000, 1000, 1000]]) =
        .ok ([1, 2, 3, 1], [1, 2, 3]) ∧
      1 ≤ (Input.VECSXP [.INTSXP [1, 1, 2, 1], .STRSXP [1000, 2000, 1000, 1000]]).nrow ∧
      ([1, 2, 3, 1][0]? = some 1 ∧
      (∀ i v, 1 ≤ i → [1, 2, 3, 1][i]? = some v → v ≤ 1 + max_id ([1, 2, 3, 1].take i)) ∧
      (∀ i j vi vj : Nat, i < j → [1, 2, 3, 1][i]? = some vi → [1, 2, 3, 1][j]? = some vj →
        (∀ k, k < i → [1, 2, 3, 1][k]? ≠ some vi) →
        (∀ k, k < j → [1, 2, 3, 1][k]? ≠ some vj) → vi < vj)) :=
  ⟨rfl, by decide, ids_in_order_of_first_appearance
    (.VECSXP [.INTSXP [1, 1, 2, 1], .STRSXP [1000, 2000, 1000, 1000]]) _ _ rfl (by decide)⟩

/-- The property of C4 on the runs that return: whenever the driver returns
`(index, first_obs)`, the ids occurring in
`index` are exactly `1..G` with `G` the length of `first_obs`; and `G` is the
largest id when there is at least one row. -/
theorem ids_are_dense (x : Input) (index first_obs : List Nat)
    (h : cpp_to_index_main x = .ok (index, first_obs)) :
    (∀ v, v ∈ index ↔ 1 ≤ v ∧ v ≤ first_obs.length) ∧
    (1 ≤ x.nrow → max_id index = first_obs.length) := by
  obtain ⟨hlen, hnum⟩ := cpp_to_index_main_numbered h
  refine ⟨hnum.mem_iff, ?_⟩
  intro hn
  have hne : index ≠ [] := by
    intro h0; rw [h0] at hlen; simp at hlen; omega
  have h1 := (hnum.mem_iff _).mp (max_id_mem hne)
  by_cases hG : first_obs.length = 0
  · omega
  · have h2 := le_max_id ((hnum.mem_iff first_obs.length).mpr ⟨by omega, le_refl _⟩)
    omega

theorem ids_are_dense_witness :
    cpp_to_index_main (.vector (.STRSXP [1000, 2000, 1000, 3000, 2000])) =
        .ok ([1, 2, 1, 3, 2], [1, 2, 4]) ∧
      ((∀ v, v ∈ [1, 2, 1, 3, 2] ↔ 1 ≤ v ∧ v ≤ [1, 2, 4].length) ∧
      (1 ≤ (Input.vector (.STRSXP [1000, 2000, 1000, 3000, 2000])).nrow →
        max_id [1, 2, 1, 3, 2] = [1, 2, 4].length)) :=
  ⟨rfl, ids_are_dense (.vector (.STRSXP [1000, 2000, 1000, 3000, 2000])) _ _ rfl⟩

/-! ## Double columns whose equal values have different bit patterns -/

/-- C1 (not met on double columns that hold a value that is not integer
valued): in the column `[0.5, 0.0, -0.0]` the rows 1 and 2 are equal under
`is_equal_dbl`, the test of the probe loop (IEEE `==`), and still receive the
ids 2 and 3: the hash is taken from the bit pattern, which differs, so the
probe of row 2 never meets row 1. In the integer-valued column
`[1.0, 0.0, -0.0]`, hashed through `(int)`, the same two values share id 2. -/
theorem equal_doubles_get_different_ids :
    is_equal_dbl ⟨0⟩ ⟨0x8000000000000000⟩ = true ∧
    cpp_to_index_main
      (.vector (.REALSXP [⟨0x3FE0000000000000⟩, ⟨0⟩, ⟨0x8000000000000000⟩])) =
        .ok ([1, 2, 3], [1, 2, 3]) ∧
    cpp_to_index_main
      (.vector (.REALSXP [⟨0x3FF0000000000000⟩, ⟨0⟩, ⟨0x8000000000000000⟩])) =
        .ok ([1, 2, 2], [1, 2]) :=
  ⟨rfl, rfl, rfl⟩

/-- C5 (not met on double columns that hold a value that is not integer
valued): `NA_real_` (`0x7FF00000000007A2`) and the NaN `0x7FF8000000000000` are
both missing, yet in the column `[0.5, NA_real_, NaN]` they receive the ids 2
and 3. In the integer-valued column `[1.0, NA_real_, NaN]` they share id 2. -/
theorem missing_doubles_get_different_ids :
    (Dbl.mk 0x7FF00000000007A2).isnan = true ∧ (Dbl.mk 0x7FF8000000000000).isnan = true ∧
    cpp_to_index_main
      (.vector (.REALSXP [⟨0x3FE0000000000000⟩, ⟨0x7FF00000000007A2⟩, ⟨0x7FF8000000000000⟩])) =
        .ok ([1, 2, 3], [1, 2, 3]) ∧
    cpp_to_index_main
      (.vector (.REALSXP [⟨0x3FF0000000000000⟩, ⟨0x7FF00000000007A2⟩, ⟨0x7FF8000000000000⟩])) =
        .ok ([1, 2, 2], [1, 2]) :=
  ⟨rfl, rfl, rfl, rfl⟩

/-- C7 (not met): the columns `A = [37.5, NaN, NaN']` (the two NaNs with the
patterns `0x7FF8000000000000` and `0x7FF0000000000003`) and
`S = ["s", "s", "s"]` give 2 groups in the order `(A, S)` and 3 groups in the
order `(S, A)`. With `A` first the probe of row 2 starts in the slot of row 0
and walks into the slot of row 1, where `is_equal_dbl` matches the two NaNs;
with `S` first the hash is combined with the earlier index and the two slots
are no longer neighbours. -/
theorem column_order_changes_the_groups :
    cpp_to_index_main
      (.VECSXP [.REALSXP [⟨0x4042C00000000000⟩, ⟨0x7FF8000000000000⟩, ⟨0x7FF0000000000003⟩],
                .STRSXP [1000, 1000, 1000]]) = .ok ([1, 2, 2], [1, 2]) ∧
    cpp_to_index_main
      (.VECSXP [.STRSXP [1000, 1000, 1000],
                .REALSXP [⟨0x4042C00000000000⟩, ⟨0x7FF8000000000000⟩, ⟨0x7FF0000000000003⟩]]) =
        .ok ([1, 2, 3], [1, 2, 3]) :=
  ⟨rfl, rfl⟩

/-! ## Errors -/

theorem foldlM_range_error {σ ε : Type} (f : σ → Nat → Except ε σ) (Q : ε → Prop)
    (n : Nat) (s0 : σ) (e : ε) (hstep : ∀ a i e, f a i = .error e → Q e)
    (h : (List.range n).foldlM f s0 = .error e) : Q e := by
  induction n with
  | zero => simp only [List.range_zero, List.foldlM_nil] at h; cases h
  | succ n ih =>
    rw [List.range_succ, List.foldlM_append] at h
    cases hm : (List.range n).foldlM f s0 with
    | error e1 =>
      rw [hm] at h
      cases h
      exact ih hm
    | ok a =>
      rw [hm] at h
      cases hf : f a n with
      | error e1 =>
        have h1 : (Except.ok a >>= fun init => List.foldlM f init [n]) = .error e1 := by
          show (f a n >>= fun s1 => pure s1) = .error e1
          rw [hf]; rfl
        rw [h1] at h
        cases h
        exact hstep _ _ _ hf
      | ok b =>
        have h1 : (Except.ok a >>= fun init => List.foldlM f init [n]) = .ok b := by
          show (f a n >>= fun s1 => pure s1) = .ok b
          rw [hf]; rfl
        rw [h1] at h
        cases h

theorem direct_index_error {lookup_size : Int} {id : Nat → Int} {n : Nat} {is_final : Bool}
    {init : List Nat} {e : Failure}
    (h : direct_index lookup_size id n is_final init = .error e) : e.runtime := by
  unfold direct_index at h
  split_ifs at h
  · cases h; exact Or.inr (Or.inl rfl)
  · refine foldlM_range_error _ Failure.runtime n _ e ?_ h
    intro a i e1 he
    unfold update_index_intarray_g_obs at he
    split_ifs at he
    cases he; exact Or.inl rfl

theorem probe_error {larger_n : Nat} {lookup : Nat → Nat} {same : Nat → Bool} {fuel id : Nat}
    {e : Failure} (h : probe larger_n lookup same fuel id = .error e) : e.runtime := by
  induction fuel generalizing id with
  | zero => unfold probe at h; cases h; exact Or.inr (Or.inr rfl)
  | succ fuel ih =>
    unfold probe at h
    simp only at h
    split_ifs at h
    · cases h; exact Or.inl rfl
    · exact ih h

theorem hash_index_error {larger_n : Nat} {hash : Nat → Nat} {same : Nat → Nat → Bool}
    {n : Nat} {is_final : Bool} {init : List Nat} {e : Failure}
    (h : hash_index larger_n hash same n is_final init = .error e) : e.runtime := by
  refine foldlM_range_error _ Failure.runtime n _ e ?_ h
  intro a i e1 he
  unfold hash_row at he
  split at he
  · rename_i e2 hp
    cases he
    exact probe_error hp
  · split at he
    · cases he; exact Or.inl rfl
    · cases he
  · cases he

theorem multiple_ints_to_index_error {all_vecs : List r_vector} {all_k : List Nat}
    {init : List Nat} {is_final : Bool} {e : Failure}
    (h : multiple_ints_to_index all_vecs all_k init is_final = .error e) : e.runtime := by
  unfold multiple_ints_to_index at h
  match all_k, h with
  | [], h => cases h; exact Or.inl rfl
  | [k0], h => exact direct_index_error h
  | [k0, k1], h => exact direct_index_error h
  | k0 :: k1 :: k2 :: rest, h => exact direct_index_error h

theorem general_type_to_index_double_error {x : r_vector} {p_index_in : List Nat}
    {n_groups : Nat} {init : List Nat} {is_final : Bool} {e : Failure}
    (h : general_type_to_index_double x p_index_in n_groups init is_final = .error e) :
    e.runtime := by
  unfold general_type_to_index_double at h
  simp only at h
  split_ifs at h
  · exact direct_index_error h
  · exact hash_index_error h

theorem fold_left_error {vs : List r_vector} {ks : List Nat} {st : Scratch} {e : Failure}
    (h : fold_left vs ks st = .error e) : e.runtime := by
  induction ks generalizing st with
  | nil => unfold fold_left at h; cases h
  | cons k ks ih =>
    unfold fold_left at h
    split at h
    · rename_i e1 he1
      cases h
      exact general_type_to_index_double_error he1
    · exact ih h

/-- The stages of the driver raise none of the errors of the source; they can
only end by a failure of the run-time. -/
theorem run_stages_error {K n : Nat} {vs : List r_vector} {e : Failure}
    (h : run_stages K n vs = .error e) : e.runtime := by
  unfold run_stages at h
  simp only at h
  split at h
  · split at h
    · rename_i e1 he1
      cases h
      exact multiple_ints_to_index_error he1
    · split at h
      · cases h
      · exact fold_left_error h
  · split at h
    · cases h; exact Or.inl rfl
    · split at h
      · rename_i e1 he1
        cases h
        exact hash_index_error he1
      · split at h
        · cases h
        · exact fold_left_error h

theorem r_vector.init_ok_iff (c : SEXP) : (∃ v, r_vector.init c = .ok v) ↔ c.convertible := by
  cases c with
  | STRSXP p => simp [r_vector.init, SEXP.convertible]
  | REALSXP p =>
    simp only [r_vector.init, SEXP.convertible, iff_true]
    split_ifs <;> exact ⟨_, rfl⟩
  | INTSXP p => simp [r_vector.init, SEXP.convertible]
  | LGLSXP p => simp [r_vector.init, SEXP.convertible]
  | FACTOR p l => simp [r_vector.init, SEXP.convertible]
  | OTHER p b => cases b <;> simp [r_vector.init, SEXP.convertible]
  | NON_ATOMIC l => simp [r_vector.init, SEXP.convertible]

theorem r_vector.init_error {c : SEXP} {e : Failure} (h : r_vector.init c = .error e) :
    e ≠ Failure.length_mismatch := by
  cases c with
  | STRSXP p => cases h
  | REALSXP p =>
    simp only [r_vector.init] at h
    split_ifs at h
  | INTSXP p => cases h
  | LGLSXP p => cases h
  | FACTOR p l => cases h
  | OTHER p b =>
    simp only [r_vector.init] at h
    split_ifs at h
    cases h; simp
  | NON_ATOMIC l => cases h; simp

/-- The descriptor loop raises the length error exactly when it reaches a
column of another length, which it does when the descriptors of that column
and of all columns before it can be built and the columns before it have the
length `n`. -/
theorem descriptors_from_length_mismatch (n : Nat) (es : List SEXP) :
    descriptors_from n es = .error Failure.length_mismatch ↔
      ∃ pre e post, es = pre ++ e :: post ∧ Rf_length e ≠ n ∧ e.convertible ∧
        ∀ c ∈ pre, Rf_length c = n ∧ c.convertible := by
  induction es with
  | nil =>
    simp only [descriptors_from]
    constructor
    · intro h; cases h
    · rintro ⟨pre, e, post, h, _⟩
      cases pre <;> cases h
  | cons e0 es ih =>
    unfold descriptors_from
    cases hinit : r_vector.init e0 with
    | error err =>
      simp only
      constructor
      · intro h
        cases h
        exact absurd rfl (r_vector.init_error hinit)
      · rintro ⟨pre, e, post, h, _, hc, hpre⟩
        have hconv : e0.convertible := by
          cases pre with
          | nil => cases h; exact hc
          | cons a t => cases h; exact (hpre _ (List.mem_cons_self _ _)).2
        obtain ⟨v, hv⟩ := (r_vector.init_ok_iff e0).mpr hconv
        rw [hv] at hinit; cases hinit
    | ok rvec =>
      have hconv : e0.convertible := (r_vector.init_ok_iff e0).mp ⟨_, hinit⟩
      simp only
      by_cases hl : Rf_length e0 = n
      · simp only [hl, ne_eq, not_true_eq_false, if_false]
        constructor
        · intro h
          have h1 : descriptors_from n es = .error Failure.length_mismatch := by
            cases hd : descriptors_from n es with
            | error err => rw [hd] at h; exact h
            | ok vs => rw [hd] at h; cases h
          obtain ⟨pre, e, post, h2, h3, h4, h5⟩ := ih.mp h1
          refine ⟨e0 :: pre, e, post, by simp [h2], h3, h4, ?_⟩
          intro c hcm
          rcases List.mem_cons.mp hcm with hcm | hcm
          · subst hcm; exact ⟨hl, hconv⟩
          · exact h5 c hcm
        · rintro ⟨pre, e, post, h2, h3, h4, h5⟩
          cases pre with
          | nil => cases h2; exact absurd hl h3
          | cons a t =>
            cases h2
            have := ih.mpr ⟨t, e, post, rfl, h3, h4,
              fun c hcm => h5 c (List.mem_cons_of_mem _ hcm)⟩
            rw [this]
      · simp only [ne_eq, hl, not_false_eq_true, if_true, true_iff]
        exact ⟨[], e0, es, rfl, hl, hconv, by simp⟩

/-- C8, amended: for a list of columns the driver ends with the length error
exactly when some column has another length than the first one and the
descriptors of that column and of all columns before it can be built (each is
atomic and its conversion to strings, if one is needed, succeeds; the columns
before it have the length of the first one). The error is then raised by the
descriptor loop: the stages are not run and there is no result. -/
theorem length_mismatch_iff (es : List SEXP) :
    (cpp_to_index_main (.VECSXP es) = .error Failure.length_mismatch ↔
      ∃ pre e post, es = pre ++ e :: post ∧ Rf_length e ≠ (Input.VECSXP es).nrow ∧
        e.convertible ∧ ∀ c ∈ pre, Rf_length c = (Input.VECSXP es).nrow ∧ c.convertible) ∧
    (cpp_to_index_main (.VECSXP es) = .error Failure.length_mismatch →
      descriptors (.VECSXP es) = .error Failure.length_mismatch) := by
  have hmain : cpp_to_index_main (.VECSXP es) = .error Failure.length_mismatch ↔
      descriptors (.VECSXP es) = .error Failure.length_mismatch := by
    unfold cpp_to_index_main
    cases hd : descriptors (.VECSXP es) with
    | error err => simp
    | ok r =>
      obtain ⟨K, n, vs⟩ := r
      simp only
      cases hs : run_stages K n vs with
      | error err =>
        constructor
        · intro h
          cases h
          rcases run_stages_error hs with h | h | h <;> cases h
        · intro h; cases h
      | ok st => simp
  refine ⟨?_, hmain.mp⟩
  rw [hmain]
  cases es with
  | nil =>
    simp only [descriptors]
    constructor
    · intro h; cases h
    · rintro ⟨pre, e, post, h, _⟩
      cases pre <;> cases h
  | cons e0 rest =>
    simp only [descriptors, Input.nrow]
    cases hinit : r_vector.init e0 with
    | error err =>
      simp only
      constructor
      · intro h
        cases h
        exact absurd rfl (r_vector.init_error hinit)
      · rintro ⟨pre, e, post, h, _, hc, hpre⟩
        have hconv : e0.convertible := by
          cases pre with
          | nil => cases h; exact hc
          | cons a t => cases h; exact (hpre _ (List.mem_cons_self _ _)).2
        obtain ⟨v, hv⟩ := (r_vector.init_ok_iff e0).mpr hconv
        rw [hv] at hinit; cases hinit
    | ok rvec =>
      have hconv : e0.convertible := (r_vector.init_ok_iff e0).mp ⟨_, hinit⟩
      simp only
      constructor
      · intro h
        have h1 : descriptors_from (Rf_length e0) rest = .error Failure.length_mismatch := by
          cases hd : descriptors_from (Rf_length e0) rest with
          | error err => rw [hd] at h; cases h; rfl
          | ok vs => rw [hd] at h; cases h
        obtain ⟨pre, e, post, h2, h3, h4, h5⟩ :=
          (descriptors_from_length_mismatch _ _).mp h1
        refine ⟨e0 :: pre, e, post, by simp [h2], h3, h4, ?_⟩
        intro c hcm
        rcases List.mem_cons.mp hcm with hcm | hcm
        · subst hcm; exact ⟨rfl, hconv⟩
        · exact h5 c hcm
      · rintro ⟨pre, e, post, h2, h3, h4, h5⟩
        cases pre with
        | nil => cases h2; exact absurd rfl h3
        | cons a t =>
          cases h2
          have := (descriptors_from_length_mismatch (Rf_length e0) (t ++ e :: post)).mpr
            ⟨t, e, post, rfl, h3, h4, fun c hcm => h5 c (List.mem_cons_of_mem _ hcm)⟩
          show (match descriptors_from (Rf_length e0) (t ++ e :: post) with
            | Except.error err => Except.error err
            | Except.ok vs => Except.ok ((t ++ e :: post).length + 1, Rf_length e0, rvec :: vs)) =
            Except.error Failure.length_mismatch
          rw [this]

/-- C8 as stated does not hold: the second of the two atomic columns below is
longer than the first, and the driver ends with the conversion error, raised
by the constructor of the second descriptor before the lengths are compared,
not with the length error. -/
theorem failed_conversion_precedes_length_check :
    ¬ (cpp_to_index_main (.VECSXP [.INTSXP [1], .OTHER [1000, 2000] true]) =
          .error Failure.length_mismatch ↔
        ∃ c ∈ [SEXP.INTSXP [1], SEXP.OTHER [1000, 2000] true],
          Rf_length c ≠ Rf_length (SEXP.INTSXP [1])) := by
  intro h
  have h1 := h.mpr ⟨SEXP.OTHER [1000, 2000] true, by simp, by simp [Rf_length]⟩
  have h2 : cpp_to_index_main (.VECSXP [.INTSXP [1], .OTHER [1000, 2000] true]) =
      .error Failure.coercion_failed := rfl
  rw [h2] at h1
  cases h1

/-! ## Arguments without rows -/

theorem SEXP.supported.convertible {c : SEXP} (h : c.supported) : c.convertible := by
  cases c <;> simp_all [SEXP.supported, SEXP.convertible]

/-- When every column has `n` rows and its descriptor can be built, the
descriptor loop returns one descriptor per column, each built from its
column. -/
theorem descriptors_from_ok {n : Nat} {es : List SEXP}
    (h : ∀ c ∈ es, Rf_length c = n ∧ c.convertible) :
    ∃ vs, descriptors_from n es = .ok vs ∧ vs.length = es.length ∧
      ∀ v ∈ vs, ∃ c ∈ es, r_vector.init c = .ok v := by
  induction es with
  | nil => exact ⟨[], rfl, rfl, by simp⟩
  | cons e es ih =>
    obtain ⟨vs, h1, h2, h3⟩ := ih (fun c hc => h c (List.mem_cons_of_mem _ hc))
    obtain ⟨hl, hc⟩ := h e (List.mem_cons_self _ _)
    obtain ⟨v, hv⟩ := (r_vector.init_ok_iff e).mpr hc
    refine ⟨v :: vs, ?_, by simp [h2], ?_⟩
    · unfold descriptors_from
      rw [hv]
      simp only [hl, ne_eq, not_true_eq_false, if_false, h1]
    · intro w hw
      rcases List.mem_cons.mp hw with hw | hw
      · subst hw; exact ⟨e, List.mem_cons_self _ _, hv⟩
      · obtain ⟨c, hc1, hc2⟩ := h3 w hw
        exact ⟨c, List.mem_cons_of_mem _ hc1, hc2⟩

theorem descriptors_ok {x : Input} (hne : x.columns ≠ [])
    (h : ∀ c ∈ x.columns, Rf_length c = x.nrow ∧ c.convertible) :
    ∃ vs, descriptors x = .ok (x.columns.length, x.nrow, vs) ∧ vs.length = x.columns.length ∧
      ∀ v ∈ vs, ∃ c ∈ x.columns, r_vector.init c = .ok v := by
  cases x with
  | VECSXP es =>
    cases es with
    | nil => exact absurd rfl hne
    | cons e0 rest =>
      simp only [Input.columns, Input.nrow] at h ⊢
      obtain ⟨vs, h1, h2, h3⟩ := @descriptors_from_ok (Rf_length e0) rest
        (fun c hc => h c (List.mem_cons_of_mem _ hc))
      obtain ⟨v, hv⟩ := (r_vector.init_ok_iff e0).mpr (h e0 (List.mem_cons_self _ _)).2
      refine ⟨v :: vs, ?_, by simp [h2], ?_⟩
      · simp only [descriptors, hv, h1, List.length_cons]
      · intro w hw
        rcases List.mem_cons.mp hw with hw | hw
        · subst hw; exact ⟨e0, List.mem_cons_self _ _, hv⟩
        · obtain ⟨c, hc1, hc2⟩ := h3 w hw
          exact ⟨c, List.mem_cons_of_mem _ hc1, hc2⟩
  | vector c0 =>
    simp only [Input.columns, Input.nrow] at h ⊢
    obtain ⟨v, hv⟩ := (r_vector.init_ok_iff c0).mpr (h c0 (List.mem_singleton_self _)).2
    refine ⟨[v], ?_, rfl, ?_⟩
    · simp only [descriptors, hv, List.length_singleton]
    · intro w hw
      simp only [List.mem_singleton] at hw
      subst hw
      exact ⟨c0, List.mem_singleton_self _, hv⟩

theorem to_int32_of_range {v : Int} (h1 : -2147483648 ≤ v) (h2 : v ≤ 2147483647) :
    to_int32 v = v := by
  unfold to_int32
  omega

/-- The descriptor of a supported vector without rows: no rows, and a range
for which the table of the single-column direct-address loop can be
allocated. -/
theorem r_vector.init_empty {c : SEXP} {v : r_vector} (hs : c.supported)
    (h0 : Rf_length c = 0) (h : r_vector.init c = .ok v) :
    v.n = 0 ∧ (v.is_fast_int = true → 0 ≤ to_int32 (v.x_range + 1)) := by
  refine ⟨by rw [r_vector.init_n h, h0], ?_⟩
  cases c with
  | STRSXP p => cases h; simp
  | REALSXP p =>
    have hp : p = [] := List.length_eq_zero.mp h0
    subst hp
    cases h
    decide
  | INTSXP p =>
    have hp : p = [] := List.length_eq_zero.mp h0
    subst hp
    cases h
    decide
  | LGLSXP p =>
    cases h
    intro _
    show 0 ≤ to_int32 (3 + 1)
    decide
  | FACTOR p l =>
    have hp : p = [] := List.length_eq_zero.mp h0
    subst hp
    cases h
    decide
  | OTHER p b =>
    simp only [r_vector.init] at h
    split_ifs at h
    cases h; simp
  | NON_ATOMIC l => cases h

theorem direct_index_zero {lookup_size : Int} {id : Nat → Int} {is_final : Bool}
    {init : List Nat} (h : 0 ≤ lookup_size) :
    direct_index lookup_size id 0 is_final init = .ok (Scratch.start init) := by
  unfold direct_index
  rw [if_neg (by omega)]
  rfl

theorem pow2_nonneg (e : Int) : 0 ≤ pow2 e := by
  unfold pow2
  split_ifs
  · exact le_refl _
  · positivity

theorem multiple_ints_to_index_zero {vs : List r_vector} {all_k : List Nat} {init : List Nat}
    {is_final : Bool} (hne : all_k ≠ [])
    (h : ∀ k ∈ all_k, (vs.getD k default).n = 0 ∧
      0 ≤ to_int32 ((vs.getD k default).x_range + 1)) :
    multiple_ints_to_index vs all_k init is_final = .ok (Scratch.start init) := by
  unfold multiple_ints_to_index
  match all_k, hne, h with
  | [k0], _, h =>
    simp only
    rw [(h k0 (List.mem_singleton_self _)).1]
    exact direct_index_zero (h k0 (List.mem_singleton_self _)).2
  | [k0, k1], _, h =>
    simp only
    rw [(h k0 (List.mem_cons_self _ _)).1]
    exact direct_index_zero (pow2_nonneg _)
  | k0 :: k1 :: k2 :: rest, _, h =>
    simp only
    rw [(h k0 (List.mem_cons_self _ _)).1]
    exact direct_index_zero (pow2_nonneg _)

theorem general_type_to_index_single_zero {x : r_vector} {init : List Nat} {is_final : Bool}
    (h : x.n = 0) : general_type_to_index_single x init is_final = .ok (Scratch.start init) := by
  unfold general_type_to_index_single
  simp only [h]
  rfl

theorem general_type_to_index_double_zero {x : r_vector} {p_index_in : List Nat}
    {n_groups : Nat} {init : List Nat} {is_final : Bool} (h : x.n = 0) :
    general_type_to_index_double x p_index_in n_groups init is_final =
      .ok (Scratch.start init) := by
  unfold general_type_to_index_double
  simp only [h]
  split_ifs
  · exact direct_index_zero (pow2_nonneg _)
  · rfl

theorem fold_left_zero {vs : List r_vector} {ks : List Nat}
    (h : ∀ k ∈ ks, (vs.getD k default).n = 0) :
    fold_left vs ks (Scratch.start []) = .ok (Scratch.start []) := by
  induction ks with
  | nil => rfl
  | cons k ks ih =>
    unfold fold_left
    have h1 := @general_type_to_index_double_zero (vs.getD k default)
      (Scratch.start []).p_index (Scratch.start []).g
      (Scratch.start []).vec_first_obs ks.isEmpty
      (h k (List.mem_cons_self _ _))
    rw [h1]
    exact ih (fun j hj => h j (List.mem_cons_of_mem _ hj))

/-- Without rows every stage leaves the index and `vec_first_obs` empty. -/
theorem run_stages_zero {K n : Nat} {vs : List r_vector} (hK : vs.length = K) (hpos : 0 < K)
    (h : ∀ v ∈ vs, v.n = 0 ∧ (v.is_fast_int = true → 0 ≤ to_int32 (v.x_range + 1))) :
    run_stages K n vs = .ok (Scratch.start []) := by
  have hfast_true : ∀ (vs : List r_vector) (k : Nat) (s : Int),
      ∀ j ∈ id_fast_int_from K n vs k s, k ≤ j ∧ ((vs.getD (j - k) default).is_fast_int = true) := by
    intro vs
    induction vs with
    | nil => intro k s j hj; simp [id_fast_int_from] at hj
    | cons x rest ih =>
      intro k s j hj
      unfold id_fast_int_from at hj
      by_cases hx : x.is_fast_int = true
      · simp only [hx, if_true] at hj
        split_ifs at hj
        · rcases List.mem_cons.mp hj with hj | hj
          · subst hj; simp [hx]
          · obtain ⟨h1, h2⟩ := ih _ _ j hj
            refine ⟨by omega, ?_⟩
            have : j - k = (j - (k + 1)) + 1 := by omega
            rw [this]; simpa using h2
        · simp at hj
      · simp only [hx] at hj
        obtain ⟨h1, h2⟩ := ih _ _ j hj
        refine ⟨by omega, ?_⟩
        have : j - k = (j - (k + 1)) + 1 := by omega
        rw [this]; simpa using h2
  have hget : ∀ k, k < K → (vs.getD k default) ∈ vs := by
    intro k hk
    rw [List.getD_eq_getElem _ _ (by omega)]
    exact List.getElem_mem _
  have hleft : ∀ k ∈ (List.range K).filter
      (fun k => !(id_fast_int_from K n vs 0 0).contains k), (vs.getD k default).n = 0 := by
    intro k hk
    exact (h _ (hget k (List.mem_range.mp (List.mem_filter.mp hk).1))).1
  unfold run_stages
  simp only
  split
  · rename_i hfast
    have hne : id_fast_int_from K n vs 0 0 ≠ [] := by
      intro h0; rw [h0] at hfast; simp at hfast
    rw [multiple_ints_to_index_zero hne]
    · simp only
      split
      · rfl
      · exact fold_left_zero hleft
    · intro k hk
      have hlt := id_fast_int_lt hk
      have hmem := hget k (by omega)
      have := (hfast_true vs 0 0 k hk).2
      simp only [Nat.sub_zero] at this
      exact ⟨(h _ hmem).1, (h _ hmem).2 this⟩
  · rename_i hfast
    have hnil : id_fast_int_from K n vs 0 0 = [] := by
      cases hl : id_fast_int_from K n vs 0 0 with
      | nil => rfl
      | cons a t => rw [hl] at hfast; simp at hfast
    have hfil : (List.range K).filter
        (fun k => !(id_fast_int_from K n vs 0 0).contains k) = List.range K := by
      rw [hnil]; simp
    rw [hfil] at hleft ⊢
    obtain ⟨K1, rfl⟩ : ∃ K1, K = K1 + 1 := ⟨K - 1, by omega⟩
    rw [List.range_succ_eq_map] at hleft ⊢
    simp only
    rw [general_type_to_index_single_zero (hleft 0 (List.mem_cons_self _ _))]
    simp only
    split
    · rfl
    · exact fold_left_zero (fun j hj => hleft j (List.mem_cons_of_mem _ hj))

/-- C9: when the argument has at least one column, every column is of a
supported kind and has no rows, the driver returns the empty index and the
empty `first_obs`; no access leaves an array (such an access would end the run
with a failure). -/
theorem empty_columns_give_empty_result (x : Input) (hne : x.columns ≠ [])
    (h0 : ∀ c ∈ x.columns, Rf_length c = 0) (hs : ∀ c ∈ x.columns, c.supported) :
    cpp_to_index_main x = .ok ([], []) := by
  have hrow : x.nrow = 0 := by
    cases x with
    | VECSXP es =>
      cases es with
      | nil => rfl
      | cons e0 rest => exact h0 e0 (List.mem_cons_self _ _)
    | vector c0 => exact h0 c0 (List.mem_singleton_self _)
  obtain ⟨vs, hd, hlen, hvs⟩ := descriptors_ok hne
    (fun c hc => ⟨by rw [hrow]; exact h0 c hc, (hs c hc).convertible⟩)
  have hpos : 0 < x.columns.length := List.length_pos.mpr hne
  have hrun := run_stages_zero (n := x.nrow) hlen hpos (fun v hv => by
    obtain ⟨c, hc, hcv⟩ := hvs v hv
    exact r_vector.init_empty (hs c hc) (h0 c hc) hcv)
  unfold cpp_to_index_main
  rw [hd]
  simp only [hrun]
  rfl

theorem empty_columns_give_empty_result_witness :
    (Input.VECSXP [.INTSXP [], .REALSXP [], .STRSXP [], .FACTOR [] 3]).columns ≠ [] ∧
    (∀ c ∈ (Input.VECSXP [.INTSXP [], .REALSXP [], .STRSXP [], .FACTOR [] 3]).columns,
      Rf_length c = 0) ∧
    (∀ c ∈ (Input.VECSXP [.INTSXP [], .REALSXP [], .STRSXP [], .FACTOR [] 3]).columns,
      c.supported) ∧
    cpp_to_index_main (.VECSXP [.INTSXP [], .REALSXP [], .STRSXP [], .FACTOR [] 3]) =
      .ok ([], []) :=
  ⟨by simp [Input.columns], by simp [Input.columns, Rf_length],
   by simp [Input.columns, SEXP.supported],
   empty_columns_give_empty_result (.VECSXP [.INTSXP [], .REALSXP [], .STRSXP [], .FACTOR [] 3])
     (by simp [Input.columns]) (by simp [Input.columns, Rf_length])
     (by simp [Input.columns, SEXP.supported])⟩

/-! ## A column in which every row is missing -/

theorem List.replicate_succ_snoc (n : Nat) (a : Nat) :
    List.replicate n a ++ [a] = List.replicate (n + 1) a := by
  induction n with
  | zero => rfl
  | succ n ih => simp [List.replicate_succ, ih]

/-- A direct-address loop in which every row has the same key `c`: one group. -/
theorem direct_index_const {lookup_size c : Int} {id : Nat → Int} {n : Nat} {is_final : Bool}
    {init : List Nat} (hc0 : 0 ≤ c) (hc1 : c < lookup_size) (hn : 1 ≤ n)
    (hid : ∀ i, i < n → id i = c) :
    ∃ st, direct_index lookup_size id n is_final init = .ok st ∧
      st.p_index = List.replicate n 1 ∧
      st.vec_first_obs = (if is_final then init ++ [1] else init) := by
  unfold direct_index
  rw [if_neg (by omega)]
  obtain ⟨st, h1, h2⟩ := foldlM_range_total
    (fun st i => update_index_intarray_g_obs lookup_size (id i) i st is_final)
    (fun i st => st.p_index = List.replicate i 1 ∧
      st.g = (if i = 0 then 0 else 1) ∧ st.lookup c.toNat = (if i = 0 then 0 else 1) ∧
      st.vec_first_obs = (if is_final = true ∧ i ≠ 0 then init ++ [1] else init))
    n (Scratch.start init) (by simp [Scratch.start])
    (by
      intro i a hi ⟨ha1, ha2, ha3, ha4⟩
      beta_reduce
      unfold update_index_intarray_g_obs
      rw [hid i hi, if_neg (by omega)]
      by_cases hi0 : i = 0
      · subst hi0
        simp only [if_true] at ha2 ha3
        rw [if_pos ha3]
        refine ⟨_, rfl, ?_⟩
        simp only [Scratch.new_group, ha1, ha2, ha4]
        cases is_final <;> simp
      · simp only [hi0, if_false] at ha2 ha3
        rw [if_neg (by rw [ha3]; omega)]
        refine ⟨_, rfl, ?_⟩
        simp only [Scratch.old_group, ha1, ha2, ha3, ha4]
        refine ⟨List.replicate_succ_snoc i 1, ?_, ?_, ?_⟩ <;> simp [hi0])
  refine ⟨st, h1, h2.1, ?_⟩
  have hn0 : n ≠ 0 := by omega
  rw [h2.2.2.2]
  cases is_final <;> simp [hn0]

theorem i_start_int_all_na {px : List Int} (h : ∀ v ∈ px, v = NA_INTEGER) :
    i_start_int px = px.length := by
  induction px with
  | nil => rfl
  | cons a t ih =>
    simp only [i_start_int, h a (List.mem_cons_self _ _), if_true, List.length_cons]
    rw [ih (fun v hv => h v (List.mem_cons_of_mem _ hv))]

theorem i_start_dbl_all_nan {px : List Dbl} (h : ∀ v ∈ px, v.isnan = true) :
    i_start_dbl px = px.length := by
  induction px with
  | nil => rfl
  | cons a t ih =>
    simp only [i_start_dbl, h a (List.mem_cons_self _ _), if_true, List.length_cons]
    rw [ih (fun v hv => h v (List.mem_cons_of_mem _ hv))]

/-- The stages of the driver on a single fast-int column whose range takes two
bits (`range = 2`) and whose rows all have the key 1. -/
theorem run_stages_single_const {x : r_vector} {n : Nat} (hn : 1 ≤ n) (hxn : x.n = n)
    (hfast : x.is_fast_int = true) (hbin : x.x_range_bin = 2) (hrange : x.x_range = 2)
    (hkey : ∀ i, i < n → UPDATE_V x i = 1) :
    ∃ st, run_stages 1 n [x] = .ok st ∧ st.p_index = List.replicate n 1 ∧
      st.vec_first_obs = [1] := by
  have hsel : id_fast_int_from 1 n [x] 0 0 = [0] := by
    simp only [id_fast_int_from, hfast, if_true, hbin]
    rw [if_pos (Or.inl (by decide))]
  obtain ⟨st, h1, h2, h3⟩ := @direct_index_const (to_int32 (x.x_range + 1))
    1 (UPDATE_V x) n true []
    (by decide) (by rw [hrange]; decide) hn hkey
  refine ⟨st, ?_, h2, by simpa using h3⟩
  unfold run_stages
  simp only [hsel]
  have hm : multiple_ints_to_index [x] [0] [] true = .ok st := by
    show direct_index (to_int32 (x.x_range + 1)) (UPDATE_V x) x.n true [] = .ok st
    rw [hxn]
    exact h1
  simp [hm]

theorem UPDATE_V_missing_int {x : r_vector} {i : Nat} (ht : x.type = VType.T_INT)
    (ha : x.any_na = true) (hi : x.px_int.getD i 0 = NA_INTEGER) :
    UPDATE_V x i = x.NA_value := by
  unfold UPDATE_V
  rw [if_pos ht, if_pos ha, if_pos hi]

theorem UPDATE_V_missing_dbl {x : r_vector} {i : Nat} (ht : x.type = VType.T_DBL_INT)
    (ha : x.any_na = true) (hi : (x.px_dbl.getD i ⟨0⟩).isnan = true) :
    UPDATE_V x i = x.NA_value := by
  unfold UPDATE_V
  rw [if_neg (by rw [ht]; intro h; cases h), if_pos ha, if_pos hi]

/-- The descriptor fields set for a range of 2 (the range of a column without
a non-missing value). -/
theorem set_fast_int_two (v : r_vector) (h : v.x_range = 2) :
    (set_fast_int v).is_fast_int = true ∧ (set_fast_int v).x_range_bin = 2 ∧
      (set_fast_int v).x_range = 2 ∧ (set_fast_int v).NA_value = 1 := by
  have h1 : power_of_two 2 = 2 := by decide
  have h2 : to_int32 (2 - 1) = 1 := by decide
  simp only [set_fast_int, h, h1, h2]
  simp

/-- C10: for a single column of `n >= 1` rows that are all missing, either
32-bit integers (all `NA_INTEGER`) or doubles (all NaN, whatever their bit
patterns; the column is then classified as integer valued), the descriptor
sets `NA_value = range - 1`, every row is normalised to `NA_value`, and the
driver returns `index = [1, ..., 1]` and `first_obs = [1]`, whether the column
is passed alone or as a list of one column. -/
theorem all_missing_single_column (c : SEXP) (hn : 1 ≤ Rf_length c)
    (hc : (∃ px, c = .INTSXP px ∧ ∀ v ∈ px, v = NA_INTEGER) ∨
      (∃ px, c = .REALSXP px ∧ ∀ v ∈ px, v.isnan = true)) :
    ∃ x, r_vector.init c = .ok x ∧
      (x.type = VType.T_INT ∨ x.type = VType.T_DBL_INT) ∧ x.is_fast_int = true ∧
      x.NA_value = x.x_range - 1 ∧
      (∀ i, i < Rf_length c → UPDATE_V x i = x.NA_value) ∧
      cpp_to_index_main (.vector c) = .ok (List.replicate (Rf_length c) 1, [1]) ∧
      cpp_to_index_main (.VECSXP [c]) = .ok (List.replicate (Rf_length c) 1, [1]) := by
  have key : ∀ x, r_vector.init c = .ok x → x.is_fast_int = true → x.x_range_bin = 2 →
      x.x_range = 2 → (∀ i, i < Rf_length c → UPDATE_V x i = 1) →
      cpp_to_index_main (.vector c) = .ok (List.replicate (Rf_length c) 1, [1]) ∧
      cpp_to_index_main (.VECSXP [c]) = .ok (List.replicate (Rf_length c) 1, [1]) := by
    intro x hx h1 h2 h3 h4
    obtain ⟨st, hst, hp, hf⟩ := run_stages_single_const hn (r_vector.init_n hx) h1 h2 h3 h4
    constructor
    · simp only [cpp_to_index_main, descriptors, hx, hst, hp, hf]
    · simp only [cpp_to_index_main, descriptors, hx, descriptors_from, List.length_nil,
        Nat.zero_add, hst, hp, hf]
  have fin : ∀ x, r_vector.init c = .ok x →
      (x.type = VType.T_INT ∨ x.type = VType.T_DBL_INT) → x.is_fast_int = true →
      x.x_range_bin = 2 → x.x_range = 2 → x.NA_value = 1 →
      (∀ i, i < Rf_length c → UPDATE_V x i = 1) →
      ∃ x, r_vector.init c = .ok x ∧
        (x.type = VType.T_INT ∨ x.type = VType.T_DBL_INT) ∧ x.is_fast_int = true ∧
        x.NA_value = x.x_range - 1 ∧
        (∀ i, i < Rf_length c → UPDATE_V x i = x.NA_value) ∧
        cpp_to_index_main (.vector c) = .ok (List.replicate (Rf_length c) 1, [1]) ∧
        cpp_to_index_main (.VECSXP [c]) = .ok (List.replicate (Rf_length c) 1, [1]) := by
    intro x hx ht h1 h2 h3 h4 h5
    refine ⟨x, hx, ht, h1, by rw [h3, h4]; rfl, ?_, key x hx h1 h2 h3 h5⟩
    intro i hi
    rw [h5 i hi, h4]
  rcases hc with ⟨px, rfl, hna⟩ | ⟨px, rfl, hna⟩
  · have hlen : 1 ≤ px.length := hn
    have hscan : scanned_int px = (0, 0, true) := by
      simp only [scanned_int, i_start_int_all_na hna, lt_irrefl, if_false]
      have : decide (px.length > 0) = true := by simpa using hlen
      rw [this]
    have h2 : to_int32 (0 - 0 + 2) = 2 := by decide
    have hinit : r_vector.init (.INTSXP px) = .ok (set_fast_int
        { n := px.length, px_int := px, type := VType.T_INT, any_na := true, x_min := 0,
          x_range := 2 }) := by
      simp only [r_vector.init, hscan, h2]
    obtain ⟨hf1, hf2, hf3, hf4⟩ := set_fast_int_two
      { n := px.length, px_int := px, type := VType.T_INT, any_na := true, x_min := 0,
        x_range := 2 } rfl
    refine fin _ hinit (Or.inl rfl) hf1 hf2 hf3 hf4 ?_
    intro i hi
    have hget : px.getD i 0 = NA_INTEGER := by
      rw [List.getD_eq_getElem _ _ hi]
      exact hna _ (List.getElem_mem _)
    rw [UPDATE_V_missing_int rfl rfl hget, hf4]
  · have hlen : 1 ≤ px.length := hn
    have hscan : scanned_dbl px = (⟨0⟩, ⟨0⟩, true, true) := by
      simp only [scanned_dbl, i_start_dbl_all_nan hna, lt_irrefl, if_false]
      have : decide (px.length > 0) = true := by simpa using hlen
      rw [this]
    have h0 : (Dbl.mk 0).to_int = 0 := by decide
    have h2 : double_to_int (0 - 0 + 2) = 2 := by decide
    have hinit : r_vector.init (.REALSXP px) = .ok (set_fast_int
        { n := px.length, px_dbl := px, any_na := true, x_min := 0, x_range := 2,
          type := VType.T_DBL_INT }) := by
      simp only [r_vector.init, hscan, h0, h2, if_true]
    obtain ⟨hf1, hf2, hf3, hf4⟩ := set_fast_int_two
      { n := px.length, px_dbl := px, any_na := true, x_min := 0, x_range := 2,
        type := VType.T_DBL_INT } rfl
    refine fin _ hinit (Or.inr rfl) hf1 hf2 hf3 hf4 ?_
    intro i hi
    have hget : (px.getD i ⟨0⟩).isnan = true := by
      rw [List.getD_eq_getElem _ _ hi]
      exact hna _ (List.getElem_mem _)
    rw [UPDATE_V_missing_dbl rfl rfl hget, hf4]

theorem all_missing_single_column_witness :
    1 ≤ Rf_length (.REALSXP [⟨0x7FF00000000007A2⟩, ⟨0x7FF8000000000000⟩, ⟨0xFFF8000000000001⟩]) ∧
    ∃ x, r_vector.init
        (.REALSXP [⟨0x7FF00000000007A2⟩, ⟨0x7FF8000000000000⟩, ⟨0xFFF8000000000001⟩]) = .ok x ∧
      (x.type = VType.T_INT ∨ x.type = VType.T_DBL_INT) ∧ x.is_fast_int = true ∧
      x.NA_value = x.x_range - 1 ∧
      (∀ i, i < Rf_length
          (.REALSXP [⟨0x7FF00000000007A2⟩, ⟨0x7FF8000000000000⟩, ⟨0xFFF8000000000001⟩]) →
        UPDATE_V x i = x.NA_value) ∧
      cpp_to_index_main
          (.vector (.REALSXP [⟨0x7FF00000000007A2⟩, ⟨0x7FF8000000000000⟩,
            ⟨0xFFF8000000000001⟩])) =
        .ok (List.replicate
          (Rf_length (.REALSXP [⟨0x7FF00000000007A2⟩, ⟨0x7FF8000000000000⟩,
            ⟨0xFFF8000000000001⟩])) 1, [1]) ∧
      cpp_to_index_main
          (.VECSXP [.REALSXP [⟨0x7FF00000000007A2⟩, ⟨0x7FF8000000000000⟩,
            ⟨0xFFF8000000000001⟩]]) =
        .ok (List.replicate
          (Rf_length (.REALSXP [⟨0x7FF00000000007A2⟩, ⟨0x7FF8000000000000⟩,
            ⟨0xFFF8000000000001⟩])) 1, [1]) :=
  ⟨by decide, all_missing_single_column
    (.REALSXP [⟨0x7FF00000000007A2⟩, ⟨0x7FF8000000000000⟩, ⟨0xFFF8000000000001⟩]) (by decide)
    (Or.inr ⟨_, rfl, by decide⟩)⟩

/-! ## Direct-address loops: rows share an id exactly when their keys agree -/

theorem Scratch.Inv.le_g {st : Scratch} {is_final : Bool} {init : List Nat} {i v : Nat}
    (h : st.Inv is_final init i) (hv : v ∈ st.p_index) : 1 ≤ v ∧ v ≤ st.g := by
  obtain ⟨_, fo, hnum, hg, _⟩ := h
  rw [hg]
  exact (hnum.mem_iff v).mp hv

theorem getElem?_snoc_lt {l : List Nat} {v a : Nat} (h : a < l.length) :
    (l ++ [v])[a]? = l[a]? :=
  List.getElem?_append_left h

/-- A direct-address loop whose keys all lie inside the table returns, and two
rows get the same id exactly when they have the same key. -/
theorem direct_index_correct {lookup_size : Int} {id : Nat → Int} {n : Nat} {is_final : Bool}
    {init : List Nat} (hs : 0 ≤ lookup_size)
    (hb : ∀ i, i < n → 0 ≤ id i ∧ id i < lookup_size) :
    ∃ st, direct_index lookup_size id n is_final init = .ok st ∧ st.Inv is_final init n ∧
      ∀ a b, a < n → b < n → (st.p_index[a]? = st.p_index[b]? ↔ id a = id b) := by
  unfold direct_index
  rw [if_neg (by omega)]
  obtain ⟨st, h1, h2, h4, h5⟩ := foldlM_range_total
    (fun st i => update_index_intarray_g_obs lookup_size (id i) i st is_final)
    (fun i st => st.DirectInv is_final init i ∧
      (∀ a, a < i → st.lookup (id a).toNat ≠ 0 ∧
        st.p_index[a]? = some (st.lookup (id a).toNat)) ∧
      (∀ k k', st.lookup k ≠ 0 → st.lookup k = st.lookup k' → k = k'))
    n (Scratch.start init)
    ⟨⟨Scratch.start_inv is_final init, by simp [Scratch.start]⟩,
      by intro a ha; omega, by simp [Scratch.start]⟩
    (by
      intro i st hi ⟨hinv, hrows, hinj⟩
      obtain ⟨hi0, hi1⟩ := hb i hi
      have hlen : st.p_index.length = i := hinv.1.1
      beta_reduce
      by_cases hz : st.lookup (id i).toNat = 0
      · have hstep : update_index_intarray_g_obs lookup_size (id i) i st is_final =
            .ok (st.new_group (id i).toNat (st.g + 1) i is_final) := by
          unfold update_index_intarray_g_obs
          rw [if_neg (by omega), if_pos hz]
        refine ⟨st.new_group (id i).toNat (st.g + 1) i is_final, hstep,
          update_index_intarray_g_obs_inv hinv hstep, ?_, ?_⟩
        · intro a ha
          simp only [Scratch.new_group]
          by_cases hai : a = i
          · subst hai
            rw [Function.update_same]
            refine ⟨by omega, ?_⟩
            rw [← hlen]
            exact List.getElem?_concat_length _ _
          · have halt : a < i := by omega
            obtain ⟨hr1, hr2⟩ := hrows a halt
            have hne : (id a).toNat ≠ (id i).toNat := by
              intro heq; rw [heq] at hr1; exact hr1 hz
            rw [Function.update_noteq hne]
            refine ⟨hr1, ?_⟩
            rw [getElem?_snoc_lt (by omega)]
            exact hr2
        · intro k k' hk hkk
          simp only [Scratch.new_group] at hk hkk
          have hold : ∀ j, j ≠ (id i).toNat → st.lookup j ≠ 0 → st.lookup j ≠ st.g + 1 := by
            intro j _ hj heq
            have := (hinv.1.le_g (hinv.2 j hj)).2
            omega
          by_cases hk1 : k = (id i).toNat <;> by_cases hk2 : k' = (id i).toNat
          · rw [hk1, hk2]
          · rw [hk1, Function.update_same, Function.update_noteq hk2] at hkk
            exact absurd hkk.symm (hold k' hk2 (by rw [← hkk]; omega))
          · rw [hk2, Function.update_same, Function.update_noteq hk1] at hkk
            rw [Function.update_noteq hk1] at hk
            exact absurd hkk (hold k hk1 hk)
          · rw [Function.update_noteq hk1] at hk
            rw [Function.update_noteq hk1, Function.update_noteq hk2] at hkk
            exact hinj k k' hk hkk
      · have hstep : update_index_intarray_g_obs lookup_size (id i) i st is_final =
            .ok (st.old_group (st.lookup (id i).toNat)) := by
          unfold update_index_intarray_g_obs
          rw [if_neg (by omega), if_neg hz]
        refine ⟨st.old_group (st.lookup (id i).toNat), hstep,
          update_index_intarray_g_obs_inv hinv hstep, ?_, ?_⟩
        · intro a ha
          simp only [Scratch.old_group]
          by_cases hai : a = i
          · subst hai
            refine ⟨hz, ?_⟩
            rw [← hlen]
            exact List.getElem?_concat_length _ _
          · have halt : a < i := by omega
            obtain ⟨hr1, hr2⟩ := hrows a halt
            refine ⟨hr1, ?_⟩
            rw [getElem?_snoc_lt (by omega)]
            exact hr2
        · exact hinj)
  refine ⟨st, h1, h2.1, ?_⟩
  intro a b ha hb'
  obtain ⟨ha1, ha2⟩ := h4 a ha
  obtain ⟨hb1, hb2⟩ := h4 b hb'
  rw [ha2, hb2]
  constructor
  · intro heq
    have h6 := h5 _ _ ha1 (Option.some.inj heq)
    have := (hb a ha).1
    have := (hb b hb').1
    omega
  · intro heq; rw [heq]

/-! ## Hashing loops: the probe -/

/-- The advance of the probe on a table of at most `2^32 - 2` slots: one slot
further, and from the last slot `larger_n` to slot 1. -/
theorem next_id_eq {L id : Nat} (hL : 2 ≤ L) (hL2 : L + 1 < 2 ^ 32) (hid : id ≤ L) :
    next_id L id = if id < L then id + 1 else 1 := by
  unfold next_id
  have h1 : (id + 1) % 2 ^ 32 = id + 1 := Nat.mod_eq_of_lt (by omega)
  simp only [h1]
  by_cases h : id < L
  · rw [if_neg (by omega), if_pos h]
  · have : id = L := by omega
    subst this
    rw [if_pos (by omega), if_neg h, Nat.add_mod_left]
    exact Nat.mod_eq_of_lt (by omega)

theorem next_id_le {L id : Nat} (hL : 2 ≤ L) (hL2 : L + 1 < 2 ^ 32) (hid : id ≤ L) :
    next_id L id ≤ L := by
  rw [next_id_eq hL hL2 hid]
  split_ifs <;> omega

/-- The slots visited by a probe that starts in slot `h`. -/
theorem iterate_next_id {L h : Nat} (hL : 2 ≤ L) (hL2 : L + 1 < 2 ^ 32) (hh : h ≤ L) (d : Nat)
    (hd : d ≤ L) : (next_id L)^[d] h = if h + d ≤ L then h + d else h + d - L := by
  induction d with
  | zero => simp [hh]
  | succ d ih =>
    rw [Function.iterate_succ_apply', ih (by omega)]
    by_cases h1 : h + d ≤ L
    · rw [if_pos h1, next_id_eq hL hL2 h1]
      by_cases h2 : h + d < L
      · rw [if_pos h2, if_pos (by omega)]; omega
      · rw [if_neg h2, if_neg (by omega)]; omega
    · rw [if_neg h1, next_id_eq hL hL2 (by omega), if_pos (by omega), if_neg (by omega)]
      omega

/-- What a probe that returns has done: it walked `d` occupied slots whose
rows did not match and stopped in the next slot, which is empty or holds a
matching row. -/
theorem probe_spec {L : Nat} {lookup : Nat → Nat} {f : Nat → Bool} {fuel id s : Nat}
    {r : Option Nat} (h : probe L lookup f fuel id = .ok (s, r)) :
    ∃ d, d < fuel ∧ s = (next_id L)^[d] id ∧
      (∀ e, e < d → lookup ((next_id L)^[e] id) ≠ 0 ∧
        f (lookup ((next_id L)^[e] id) - 1) = false) ∧
      ((r = none ∧ lookup s = 0) ∨ (r = some (lookup s - 1) ∧ lookup s ≠ 0 ∧
        f (lookup s - 1) = true)) := by
  induction fuel generalizing id with
  | zero => unfold probe at h; cases h
  | succ fuel ih =>
    unfold probe at h
    simp only at h
    split_ifs at h with h1 h2 h3
    · cases h
      exact ⟨0, by omega, rfl, by intro e he; omega, Or.inl ⟨rfl, h2⟩⟩
    · cases h
      exact ⟨0, by omega, rfl, by intro e he; omega, Or.inr ⟨rfl, h2, h3⟩⟩
    · obtain ⟨d, hd, hs, hpath, hend⟩ := ih h
      refine ⟨d + 1, by omega, ?_, ?_, hend⟩
      · rw [Function.iterate_succ_apply]; exact hs
      · intro e he
        cases e with
        | zero => exact ⟨h2, by simpa using h3⟩
        | succ e =>
          rw [Function.iterate_succ_apply]
          exact hpath e (by omega)

/-- A probe returns when an empty slot lies on its way within the budget. -/
theorem probe_total {L : Nat} {lookup : Nat → Nat} {f : Nat → Bool} (hL : 2 ≤ L)
    (hL2 : L + 1 < 2 ^ 32) {fuel id : Nat} (hid : id ≤ L)
    (h : ∃ d, d < fuel ∧ lookup ((next_id L)^[d] id) = 0) :
    ∃ s r, probe L lookup f fuel id = .ok (s, r) := by
  induction fuel generalizing id with
  | zero => obtain ⟨d, hd, _⟩ := h; omega
  | succ fuel ih =>
    unfold probe
    simp only
    rw [if_neg (by omega)]
    by_cases h2 : lookup id = 0
    · rw [if_pos h2]; exact ⟨_, _, rfl⟩
    · rw [if_neg h2]
      by_cases h3 : f (lookup id - 1) = true
      · rw [if_pos h3]; exact ⟨_, _, rfl⟩
      · rw [if_neg h3]
        apply ih (next_id_le hL hL2 hid)
        obtain ⟨d, hd, hz⟩ := h
        cases d with
        | zero => exact absurd hz h2
        | succ d =>
          rw [Function.iterate_succ_apply] at hz
          exact ⟨d, by omega, hz⟩

/-- With fewer rows stored than the table has slots, an empty slot lies on the
way of every probe, within `larger_n + 1` steps. -/
theorem exists_empty_slot {L i h : Nat} {lookup : Nat → Nat} (hL : 2 ≤ L) (hL2 : L + 1 < 2 ^ 32)
    (hi : i < L) (hh : h ≤ L) (hle : ∀ s, lookup s ≠ 0 → lookup s ≤ i)
    (hinj : ∀ s s', lookup s ≠ 0 → lookup s = lookup s' → s = s') :
    ∃ d, d < L + 1 ∧ lookup ((next_id L)^[d] h) = 0 := by
  by_contra hcon
  have hall : ∀ d, d < L + 1 → lookup ((next_id L)^[d] h) ≠ 0 := by
    intro d hd hz
    exact hcon ⟨d, hd, hz⟩
  have hocc : ∀ k, 1 ≤ k → k ≤ L → lookup k ≠ 0 := by
    intro k hk1 hk2
    by_cases hkh : h ≤ k
    · have := hall (k - h) (by omega)
      rw [iterate_next_id hL hL2 hh _ (by omega), if_pos (by omega)] at this
      have e : h + (k - h) = k := by omega
      rw [e] at this; exact this
    · have := hall (k + L - h) (by omega)
      rw [iterate_next_id hL hL2 hh _ (by omega), if_neg (by omega)] at this
      have e : h + (k + L - h) - L = k := by omega
      rw [e] at this; exact this
  have hcard := Finset.card_le_card_of_injOn (s := Finset.Icc 1 L) (t := Finset.Icc 1 i) lookup
    (by
      intro k hk
      rw [Finset.mem_Icc] at hk ⊢
      have h1 := hocc k hk.1 hk.2
      exact ⟨by omega, hle k h1⟩)
    (by
      intro k hk k' _ heq
      rw [Finset.mem_coe, Finset.mem_Icc] at hk
      exact hinj k k' (hocc k hk.1 hk.2) heq)
  rw [Nat.card_Icc, Nat.card_Icc] at hcard
  omega

/-! ## Hashing loops: rows share an id exactly when they are equal -/

theorem Scratch.HashInv.start (L : Nat) (hash : Nat → Nat) (same : Nat → Nat → Bool)
    (is_final : Bool) (init : List Nat) :
    Scratch.HashInv L hash same is_final init (Scratch.start init) 0 where
  inv := Scratch.start_inv is_final init
  stored_le := by intro s h; exact absurd rfl h
  inj := by intro s s' h; exact absurd rfl h
  reach := by intro s h; exact absurd rfl h
  rep := by intro a ha; omega
  rep_same := by intro s s' h; exact absurd rfl h
  rep_id := by intro s s' h; exact absurd rfl h

theorem Scratch.HashInv.row_lt {L : Nat} {hash : Nat → Nat} {same : Nat → Nat → Bool}
    {is_final : Bool} {init : List Nat} {st : Scratch} {i s : Nat}
    (h : Scratch.HashInv L hash same is_final init st i) (hs : st.lookup s ≠ 0) :
    st.lookup s - 1 < i := by
  have := h.stored_le s hs
  omega

/-- A probe for row `i` that ends in an empty slot has met no stored row equal
to row `i`: such a row would sit on the way of the probe, before the empty
slot. -/
theorem Scratch.HashInv.no_match {L n : Nat} {hash : Nat → Nat} {same : Nat → Nat → Bool}
    {is_final : Bool} {init : List Nat} {st : Scratch} {i s d : Nat}
    (h : Scratch.HashInv L hash same is_final init st i) (hi : i < n)
    (hhash : ∀ a b, a < n → b < n → same a b = true → hash a = hash b)
    (hs : s = (next_id L)^[d] (hash i))
    (hpath : ∀ e, e < d → st.lookup ((next_id L)^[e] (hash i)) ≠ 0 ∧
      same (st.lookup ((next_id L)^[e] (hash i)) - 1) i = false)
    (hempty : st.lookup s = 0) :
    ∀ s', st.lookup s' ≠ 0 → same (st.lookup s' - 1) i = false := by
  intro s' hs'
  by_contra hne
  have hsame : same (st.lookup s' - 1) i = true := by simpa using hne
  have hr := h.row_lt hs'
  have hh := hhash _ _ (by omega) hi hsame
  obtain ⟨d', hd1, hd2⟩ := h.reach s' hs'
  rw [hh] at hd1 hd2
  rcases Nat.lt_trichotomy d' d with hlt | heq | hgt
  · have := (hpath d' hlt).2
    rw [← hd1, hsame] at this
    cases this
  · rw [heq, ← hs] at hd1
    rw [hd1] at hs'
    exact hs' hempty
  · have := hd2 d hgt
    rw [← hs] at this
    exact this hempty

/-- One iteration of a hashing loop whose probe returns keeps the
invariant. -/
theorem hash_row_correct_of_probe {L n : Nat} {hash : Nat → Nat} {same : Nat → Nat → Bool}
    {is_final : Bool} {init : List Nat} {st : Scratch} {i s : Nat} {r : Option Nat}
    (hi : i < n)
    (hrefl : ∀ a, a < n → same a a = true)
    (hsymm : ∀ a b, a < n → b < n → same a b = true → same b a = true)
    (hhash : ∀ a b, a < n → b < n → same a b = true → hash a = hash b)
    (h : Scratch.HashInv L hash same is_final init st i)
    (hp : probe L st.lookup (fun obs => same obs i) (L + 1) (hash i) = .ok (s, r)) :
    ∃ st1, hash_row L hash same is_final st i = .ok st1 ∧
      Scratch.HashInv L hash same is_final init st1 (i + 1) := by
  have hlen : st.p_index.length = i := h.inv.1
  obtain ⟨d, _, hs, hpath, hend⟩ := probe_spec hp
  rcases hend with ⟨rfl, hempty⟩ | ⟨rfl, hocc, hmatch⟩
  · -- a new group
    have hrow : hash_row L hash same is_final st i = .ok (st.new_group s (i + 1) i is_final) := by
      unfold hash_row; rw [hp]
    refine ⟨_, hrow, ?_⟩
    have hnm := h.no_match hi hhash hs hpath hempty
    have hne : ∀ k, st.lookup k ≠ 0 → k ≠ s := by
      intro k hk hks; rw [hks] at hk; exact hk hempty
    have hl_s : (st.new_group s (i + 1) i is_final).lookup s = i + 1 := by
      simp [Scratch.new_group]
    have hl_ne : ∀ k, k ≠ s → (st.new_group s (i + 1) i is_final).lookup k = st.lookup k := by
      intro k hk; simp [Scratch.new_group, Function.update_noteq hk]
    have hl_keep : ∀ k, st.lookup k ≠ 0 → (st.new_group s (i + 1) i is_final).lookup k ≠ 0 := by
      intro k hk; rw [hl_ne k (hne k hk)]; exact hk
    have hl_old : ∀ k, k ≠ s → (st.new_group s (i + 1) i is_final).lookup k ≠ 0 →
        st.lookup k ≠ 0 := by
      intro k hk hk2; rw [hl_ne k hk] at hk2; exact hk2
    have hp_lt : ∀ a, a < i → (st.new_group s (i + 1) i is_final).p_index[a]? =
        st.p_index[a]? := by
      intro a ha; exact getElem?_snoc_lt (by omega)
    have hp_i : (st.new_group s (i + 1) i is_final).p_index[i]? = some (st.g + 1) := by
      have := List.getElem?_concat_length st.p_index (st.g + 1)
      rw [hlen] at this; exact this
    have hp_old : ∀ k, st.lookup k ≠ 0 →
        ∃ v, st.p_index[st.lookup k - 1]? = some v ∧ v ≤ st.g := by
      intro k hk
      have hlt := h.row_lt hk
      refine ⟨_, List.getElem?_eq_getElem (by omega), ?_⟩
      exact (h.inv.le_g (List.getElem_mem _)).2
    constructor
    · exact Scratch.new_group_inv h.inv _ _
    · intro k hk
      by_cases hks : k = s
      · rw [hks, hl_s]
      · rw [hl_ne k hks]
        have := h.stored_le k (hl_old k hks hk)
        omega
    · intro k k' hk hkk
      by_cases hks : k = s <;> by_cases hks' : k' = s
      · rw [hks, hks']
      · rw [hks, hl_s, hl_ne k' hks'] at hkk
        have := h.stored_le k' (by rw [← hkk]; omega)
        omega
      · rw [hks', hl_s, hl_ne k hks] at hkk
        have := h.stored_le k (hl_old k hks hk)
        omega
      · rw [hl_ne k hks, hl_ne k' hks'] at hkk
        exact h.inj k k' (hl_old k hks hk) hkk
    · intro k hk
      by_cases hks : k = s
      · rw [hks, hl_s]
        refine ⟨d, hs, ?_⟩
        intro e he
        exact hl_keep _ (hpath e he).1
      · rw [hl_ne k hks]
        obtain ⟨d', hd1, hd2⟩ := h.reach k (hl_old k hks hk)
        exact ⟨d', hd1, fun e he => hl_keep _ (hd2 e he)⟩
    · intro a ha
      by_cases hai : a = i
      · subst hai
        refine ⟨s, by rw [hl_s]; omega, ?_, ?_⟩
        · rw [hl_s]; exact hrefl a hi
        · rw [hl_s]; rfl
      · have halt : a < i := by omega
        obtain ⟨k, hk1, hk2, hk3⟩ := h.rep a halt
        refine ⟨k, hl_keep k hk1, ?_, ?_⟩
        · rw [hl_ne k (hne k hk1)]; exact hk2
        · rw [hl_ne k (hne k hk1), hp_lt a halt, hp_lt _ (h.row_lt hk1)]
          exact hk3
    · intro k k' hk hk' hsame
      by_cases hks : k = s <;> by_cases hks' : k' = s
      · rw [hks, hks']
      · rw [hks, hl_s, hl_ne k' hks', Nat.add_sub_cancel] at hsame
        have hk'0 := hl_old k' hks' hk'
        have hlt := h.row_lt hk'0
        have := hsymm _ _ (by omega) (by omega) hsame
        rw [hnm k' hk'0] at this
        cases this
      · rw [hks', hl_s, hl_ne k hks, Nat.add_sub_cancel] at hsame
        have hk0 := hl_old k hks hk
        rw [hnm k hk0] at hsame
        cases hsame
      · rw [hl_ne k hks, hl_ne k' hks'] at hsame
        exact h.rep_same k k' (hl_old k hks hk) (hl_old k' hks' hk') hsame
    · intro k k' hk hk' hid
      by_cases hks : k = s <;> by_cases hks' : k' = s
      · rw [hks, hks']
      · rw [hks, hl_s, hl_ne k' hks'] at hid
        have hk'0 := hl_old k' hks' hk'
        obtain ⟨v, hv1, hv2⟩ := hp_old k' hk'0
        have e : i + 1 - 1 = i := by omega
        rw [e, hp_i, hp_lt _ (h.row_lt hk'0), hv1] at hid
        have := Option.some.inj hid
        omega
      · rw [hks', hl_s, hl_ne k hks] at hid
        have hk0 := hl_old k hks hk
        obtain ⟨v, hv1, hv2⟩ := hp_old k hk0
        have e : i + 1 - 1 = i := by omega
        rw [e, hp_i, hp_lt _ (h.row_lt hk0), hv1] at hid
        have := Option.some.inj hid
        omega
      · rw [hl_ne k hks, hl_ne k' hks'] at hid
        have hk0 := hl_old k hks hk
        have hk'0 := hl_old k' hks' hk'
        rw [hp_lt _ (h.row_lt hk0), hp_lt _ (h.row_lt hk'0)] at hid
        exact h.rep_id k k' hk0 hk'0 hid
  · -- the group of the matching row
    have hlt := h.row_lt hocc
    obtain ⟨w, hget⟩ : ∃ w, st.p_index[st.lookup s - 1]? = some w :=
      ⟨_, List.getElem?_eq_getElem (by omega)⟩
    have hrow : hash_row L hash same is_final st i = .ok (st.old_group w) := by
      unfold hash_row; rw [hp]; simp only [hget]
    refine ⟨_, hrow, ?_⟩
    have hp_lt : ∀ (v a : Nat), a < i → (st.old_group v).p_index[a]? = st.p_index[a]? := by
      intro v a ha; exact getElem?_snoc_lt (by omega)
    have hp_i : ∀ v : Nat, (st.old_group v).p_index[i]? = some v := by
      intro v
      have := List.getElem?_concat_length st.p_index v
      rw [hlen] at this; exact this
    constructor
    · exact Scratch.old_group_inv h.inv (List.mem_iff_getElem?.mpr ⟨_, hget⟩)
    · intro k hk
      have := h.stored_le k hk
      show st.lookup k ≤ i + 1
      omega
    · exact h.inj
    · exact h.reach
    · intro a ha
      by_cases hai : a = i
      · subst hai
        refine ⟨s, hocc, hmatch, ?_⟩
        show (st.old_group _).p_index[a]? = (st.old_group _).p_index[st.lookup s - 1]?
        rw [hp_i, hp_lt _ _ hlt, hget]
      · have halt : a < i := by omega
        obtain ⟨k, hk1, hk2, hk3⟩ := h.rep a halt
        refine ⟨k, hk1, hk2, ?_⟩
        show (st.old_group _).p_index[a]? = (st.old_group _).p_index[st.lookup k - 1]?
        rw [hp_lt _ _ halt, hp_lt _ _ (h.row_lt hk1)]
        exact hk3
    · exact h.rep_same
    · intro k k' hk hk' hid
      have hid' : (st.old_group _).p_index[st.lookup k - 1]? =
          (st.old_group _).p_index[st.lookup k' - 1]? := hid
      rw [hp_lt _ _ (h.row_lt hk), hp_lt _ _ (h.row_lt hk')] at hid'
      exact h.rep_id k k' hk hk' hid'

/-- One iteration of a hashing loop returns and keeps the invariant. -/
theorem hash_row_correct {L n : Nat} {hash : Nat → Nat} {same : Nat → Nat → Bool}
    {is_final : Bool} {init : List Nat} {st : Scratch} {i : Nat}
    (hL : 2 ≤ L) (hL2 : L + 1 < 2 ^ 32) (hn : n ≤ L) (hi : i < n)
    (hhb : ∀ a, a < n → hash a ≤ L)
    (hrefl : ∀ a, a < n → same a a = true)
    (hsymm : ∀ a b, a < n → b < n → same a b = true → same b a = true)
    (hhash : ∀ a b, a < n → b < n → same a b = true → hash a = hash b)
    (h : Scratch.HashInv L hash same is_final init st i) :
    ∃ st1, hash_row L hash same is_final st i = .ok st1 ∧
      Scratch.HashInv L hash same is_final init st1 (i + 1) := by
  obtain ⟨d0, hd0, hz⟩ := exists_empty_slot (h := hash i) hL hL2 (by omega) (hhb i hi)
    h.stored_le h.inj
  obtain ⟨s, r, hp⟩ := probe_total (f := fun obs => same obs i) hL hL2 (hhb i hi)
    ⟨d0, hd0, hz⟩
  exact hash_row_correct_of_probe hi hrefl hsymm hhash h hp

/-- A hashing loop returns when the table has more slots than there are rows,
and two rows get the same id exactly when the equality test holds for them,
provided the test is an equivalence on the rows and equal rows have equal
hashes. -/
theorem hash_index_correct {L n : Nat} {hash : Nat → Nat} {same : Nat → Nat → Bool}
    {is_final : Bool} {init : List Nat}
    (hL : 2 ≤ L) (hL2 : L + 1 < 2 ^ 32) (hn : n ≤ L)
    (hhb : ∀ a, a < n → hash a ≤ L)
    (hrefl : ∀ a, a < n → same a a = true)
    (hsymm : ∀ a b, a < n → b < n → same a b = true → same b a = true)
    (htrans : ∀ a b c, a < n → b < n → c < n → same a b = true → same b c = true →
      same a c = true)
    (hhash : ∀ a b, a < n → b < n → same a b = true → hash a = hash b) :
    ∃ st, hash_index L hash same n is_final init = .ok st ∧ st.Inv is_final init n ∧
      ∀ a b, a < n → b < n → (st.p_index[a]? = st.p_index[b]? ↔ same a b = true) := by
  obtain ⟨st, h1, h2⟩ := foldlM_range_total (hash_row L hash same is_final)
    (fun i st => Scratch.HashInv L hash same is_final init st i) n (Scratch.start init)
    (Scratch.HashInv.start L hash same is_final init)
    (fun i st hi hinv => hash_row_correct hL hL2 hn hi hhb hrefl hsymm hhash hinv)
  refine ⟨st, h1, h2.inv, ?_⟩
  intro a b ha hb
  obtain ⟨sa, ha1, ha2, ha3⟩ := h2.rep a ha
  obtain ⟨sb, hb1, hb2, hb3⟩ := h2.rep b hb
  have hra := h2.row_lt ha1
  have hrb := h2.row_lt hb1
  constructor
  · intro heq
    rw [ha3, hb3] at heq
    have hss := h2.rep_id sa sb ha1 hb1 heq
    rw [← hss] at hb2
    exact htrans _ _ _ ha (by omega) hb (hsymm _ _ (by omega) ha ha2) hb2
  · intro hab
    have h3 := htrans _ _ _ (by omega) ha hb ha2 hab
    have h4 := htrans _ _ _ (by omega) hb (by omega) h3 (hsymm _ _ (by omega) hb hb2)
    have hss := h2.rep_same sa sb ha1 hb1 h4
    rw [ha3, hb3, hss]

/-! ## The size of the hash table -/

theorem ceil_log2_from_spec (fuel k m : Nat) (hlt : ∀ j, j < k → ¬ m ≤ 2 ^ j)
    (hle : m ≤ 2 ^ (k + fuel)) :
    m ≤ 2 ^ ceil_log2_from fuel k m ∧ ∀ j, j < ceil_log2_from fuel k m → ¬ m ≤ 2 ^ j := by
  induction fuel generalizing k with
  | zero => exact ⟨by simpa [ceil_log2_from] using hle, by simpa [ceil_log2_from] using hlt⟩
  | succ fuel ih =>
    unfold ceil_log2_from
    split_ifs with h
    · exact ⟨h, hlt⟩
    · apply ih
      · intro j hj
        by_cases hjk : j = k
        · rw [hjk]; exact h
        · exact hlt j (by omega)
      · have : k + 1 + fuel = k + (fuel + 1) := by omega
        rw [this]; exact hle

/-- The function `ceil_log2 m` is the least `k` with `m <= 2^k`. -/
theorem ceil_log2_spec (m : Nat) :
    m ≤ 2 ^ ceil_log2 m ∧ ∀ k, m ≤ 2 ^ k → ceil_log2 m ≤ k := by
  have h := ceil_log2_from_spec m 0 m (by intro j hj; omega)
    (by rw [Nat.zero_add]; exact le_of_lt (Nat.lt_two_pow m))
  refine ⟨h.1, ?_⟩
  intro k hk
  by_contra hlt
  exact h.2 k (by unfold ceil_log2 at hlt; omega) hk

theorem shifter_of_eq (n : Nat) :
    shifter_of n = ((max 8 (ceil_log2 (2 * n + 2)) : Nat) : Int) := by
  unfold shifter_of power_of_two
  have h1 : ¬ (2 * (n : Int) + 1 + 1 ≤ 0) := by omega
  have h2 : (2 * (n : Int) + 1 + 1).toNat = 2 * n + 2 := by omega
  simp only [h1, if_false, h2]
  split_ifs with h <;> omega

theorem larger_n_eq (n : Nat) :
    (pow2 (shifter_of n)).toNat = 2 ^ max 8 (ceil_log2 (2 * n + 2)) := by
  rw [shifter_of_eq]
  unfold pow2
  rw [if_neg (by omega)]
  have e : ∀ k : Nat, ((2 : Int) ^ k).toNat = 2 ^ k := by
    intro k
    have : (2 : Int) ^ k = ((2 ^ k : Nat) : Int) := by push_cast; rfl
    rw [this, Int.toNat_ofNat]
  rw [Int.toNat_ofNat, e]

/-- The table of a hashing loop has at least 256 slots, more than twice the
number of rows, and fewer than `2^32 - 1` for fewer than `2^30` rows. -/
theorem larger_n_bounds (n : Nat) :
    2 ≤ (pow2 (shifter_of n)).toNat ∧ 2 * n + 2 ≤ (pow2 (shifter_of n)).toNat ∧
      (n < 2 ^ 30 → (pow2 (shifter_of n)).toNat + 1 < 2 ^ 32) := by
  rw [larger_n_eq]
  have h8 : 2 ^ 8 ≤ 2 ^ max 8 (ceil_log2 (2 * n + 2)) :=
    Nat.pow_le_pow_right (by omega) (le_max_left _ _)
  have hc : 2 ^ ceil_log2 (2 * n + 2) ≤ 2 ^ max 8 (ceil_log2 (2 * n + 2)) :=
    Nat.pow_le_pow_right (by omega) (le_max_right _ _)
  have hs := (ceil_log2_spec (2 * n + 2)).1
  refine ⟨by omega, by omega, ?_⟩
  intro hn
  have h31 : ceil_log2 (2 * n + 2) ≤ 31 := (ceil_log2_spec (2 * n + 2)).2 31 (by omega)
  have : 2 ^ max 8 (ceil_log2 (2 * n + 2)) ≤ 2 ^ 31 :=
    Nat.pow_le_pow_right (by omega) (max_le (by omega) h31)
  omega

/-- The function `hash_single` returns a slot of the table. -/
theorem hash_single_lt (v n : Nat) (hn : n < 2 ^ 30) :
    hash_single v (shifter_of n) < (pow2 (shifter_of n)).toNat := by
  rw [larger_n_eq, shifter_of_eq]
  unfold hash_single
  have h31 : ceil_log2 (2 * n + 2) ≤ 31 := (ceil_log2_spec (2 * n + 2)).2 31 (by omega)
  have hm : max 8 (ceil_log2 (2 * n + 2)) ≤ 31 := max_le (by omega) h31
  generalize max 8 (ceil_log2 (2 * n + 2)) = s at hm
  have e : (32 - (s : Int)).toNat = 32 - s := by omega
  rw [e, Nat.shiftRight_eq_div_pow]
  apply Nat.div_lt_of_lt_mul
  rw [← Nat.pow_add]
  have : 32 - s + s = 32 := by omega
  rw [this]
  exact Nat.mod_lt _ (by positivity)

/-! ## A single integer column without missing values -/

/-- The scan of integers that are all at least `lo`, above `NA_INTEGER`:
`any_na` is left as it was and the two bounds enclose every scanned value. -/
theorem scan_int_spec (l : List Int) (lo hi mn mx : Int) (na : Bool)
    (hl : ∀ v ∈ l, lo ≤ v ∧ v ≤ hi) (hlo : NA_INTEGER < lo) (h1 : lo ≤ mn) (h2 : mn ≤ mx)
    (h3 : mx ≤ hi) :
    ∃ mn1 mx1, scan_int l (mn, mx, na) = (mn1, mx1, na) ∧ lo ≤ mn1 ∧ mn1 ≤ mn ∧ mx ≤ mx1 ∧
      mx1 ≤ hi ∧ ∀ v ∈ l, mn1 ≤ v ∧ v ≤ mx1 := by
  induction l generalizing mn mx with
  | nil => exact ⟨mn, mx, rfl, h1, le_refl _, le_refl _, h3, by simp⟩
  | cons a t ih =>
    have ha := hl a (List.mem_cons_self _ _)
    have ht : ∀ v ∈ t, lo ≤ v ∧ v ≤ hi := fun v hv => hl v (List.mem_cons_of_mem _ hv)
    unfold scan_int
    by_cases hgt : a > mx
    · rw [if_pos hgt]
      obtain ⟨mn1, mx1, e, q1, q2, q3, q4, q5⟩ := ih mn a ht h1 (by omega) ha.2
      refine ⟨mn1, mx1, e, q1, q2, by omega, q4, ?_⟩
      intro v hv
      rcases List.mem_cons.mp hv with hv | hv
      · subst hv; omega
      · exact q5 v hv
    · rw [if_neg hgt]
      by_cases hlt : a < mn
      · have hna : ¬ a = NA_INTEGER := by omega
        rw [if_pos hlt, if_neg hna]
        obtain ⟨mn1, mx1, e, q1, q2, q3, q4, q5⟩ := ih a mx ht ha.1 (by omega) h3
        refine ⟨mn1, mx1, e, q1, by omega, q3, q4, ?_⟩
        intro v hv
        rcases List.mem_cons.mp hv with hv | hv
        · subst hv; omega
        · exact q5 v hv
      · rw [if_neg hlt]
        obtain ⟨mn1, mx1, e, q1, q2, q3, q4, q5⟩ := ih mn mx ht h1 h2 h3
        refine ⟨mn1, mx1, e, q1, q2, q3, q4, ?_⟩
        intro v hv
        rcases List.mem_cons.mp hv with hv | hv
        · subst hv; omega
        · exact q5 v hv

/-- The scan of an integer vector whose values lie in `[0, 2^30)`: no missing
value is seen, and the two bounds enclose the values. -/
theorem scanned_int_spec (px : List Int) (hv : ∀ v ∈ px, 0 ≤ v ∧ v < 2 ^ 30) :
    ∃ mn mx, scanned_int px = (mn, mx, false) ∧ 0 ≤ mn ∧ mn ≤ mx ∧ mx < 2 ^ 30 ∧
      ∀ v ∈ px, mn ≤ v ∧ v ≤ mx := by
  cases px with
  | nil => exact ⟨0, 0, rfl, le_refl _, le_refl _, by norm_num, by simp⟩
  | cons a t =>
    have ha := hv a (List.mem_cons_self _ _)
    have hna : ¬ a = NA_INTEGER := by
      intro h; rw [h] at ha; exact absurd ha.1 (by decide)
    have hst : i_start_int (a :: t) = 0 := by simp [i_start_int, hna]
    obtain ⟨mn1, mx1, e, q1, q2, q3, q4, q5⟩ := scan_int_spec (a :: t) 0 (2 ^ 30 - 1) a a false
      (fun v hv' => by have := hv v hv'; omega) (by decide) ha.1 (le_refl _) (by omega)
    refine ⟨mn1, mx1, ?_, q1, by omega, by omega, q5⟩
    simp only [scanned_int, hst, List.length_cons, Nat.zero_lt_succ, if_true, List.drop_zero,
      List.getD_cons_zero]
    rw [← e]
    simp

/-- With a single column the stages are one call: of the direct-address
indexer when the column was selected, of the single-column hash indexer
otherwise; the call is final. -/
theorem run_stages_one (n : Nat) (x : r_vector) :
    run_stages 1 n [x] = multiple_ints_to_index [x] [0] [] true ∨
      run_stages 1 n [x] = general_type_to_index_single x [] true := by
  have hsel : id_fast_int_from 1 n [x] 0 0 = [0] ∨ id_fast_int_from 1 n [x] 0 0 = [] := by
    simp only [id_fast_int_from]
    split_ifs <;> simp
  rcases hsel with h | h
  · left
    unfold run_stages
    simp only [h]
    split
    · have e1 : decide (1 = ([0] : List Nat).length) = true := by decide
      rw [e1]
      generalize multiple_ints_to_index [x] [0] [] true = e
      cases e <;> rfl
    · simp_all
  · right
    unfold run_stages
    simp only [h]
    have : List.filter (fun k => !([] : List Nat).contains k) (List.range 1) = [0] := by decide
    simp only [this]
    split
    · simp_all
    · have e1 : ([] : List Nat).isEmpty = true := rfl
      have e2 : [x].getD 0 default = x := rfl
      rw [e1, e2]
      generalize general_type_to_index_single x [] true = e
      cases e <;> rfl

theorem getD_eq_iff_getElem? {px : List Int} {a b : Nat} (ha : a < px.length)
    (hb : b < px.length) : px.getD a 0 = px.getD b 0 ↔ px[a]? = px[b]? := by
  rw [List.getD_eq_getElem _ _ ha, List.getD_eq_getElem _ _ hb,
    List.getElem?_eq_getElem ha, List.getElem?_eq_getElem hb]
  constructor
  · intro h; rw [h]
  · intro h; exact Option.some.inj h

/-- The stages of the driver on a single integer column without missing
values whose entries lie between the scanned bounds `mn` and `mx`: the run
returns, and two rows get the same id exactly when they hold the same
integer. -/
theorem run_stages_int_column {x : r_vector} {px : List Int} {mn mx : Int}
    (hn : px.length < 2 ^ 30) (htype : x.type = VType.T_INT) (hna : x.any_na = false)
    (hpx : x.px_int = px) (hxn : x.n = px.length) (hmin : x.x_min = mn)
    (hrange : x.x_range = mx - mn + 2) (hb : ∀ v ∈ px, mn ≤ v ∧ v ≤ mx) (h0 : 0 ≤ mn)
    (h1 : mn ≤ mx) (h2 : mx < 2 ^ 30) :
    ∃ st, run_stages 1 px.length [x] = .ok st ∧ st.Inv true [] px.length ∧
      ∀ a b, a < px.length → b < px.length →
        (st.p_index[a]? = st.p_index[b]? ↔ px[a]? = px[b]?) := by
  have hget : ∀ i, i < px.length → mn ≤ px.getD i 0 ∧ px.getD i 0 ≤ mx := by
    intro i hi
    rw [List.getD_eq_getElem _ _ hi]
    exact hb _ (List.getElem_mem _)
  rcases run_stages_one px.length x with hrun | hrun
  · -- direct-address indexer
    have hkey : ∀ i, i < px.length → UPDATE_V x i = px.getD i 0 - mn := by
      intro i hi
      have := hget i hi
      simp only [UPDATE_V, htype, if_true, hna, hpx, hmin, Bool.false_eq_true, if_false]
      exact to_int32_of_range (by omega) (by omega)
    have hsize : to_int32 (x.x_range + 1) = mx - mn + 3 := by
      rw [hrange, to_int32_of_range (by omega) (by omega)]; ring
    obtain ⟨st, hst, hinv, heq⟩ := @direct_index_correct (to_int32 (x.x_range + 1))
      (UPDATE_V x) px.length true []
      (by rw [hsize]; omega)
      (by
        intro i hi
        have := hget i hi
        rw [hkey i hi, hsize]; omega)
    refine ⟨st, ?_, hinv, ?_⟩
    · rw [hrun]
      show direct_index (to_int32 (x.x_range + 1)) (UPDATE_V x) x.n true [] = .ok st
      rw [hxn]
      exact hst
    · intro a b ha hb'
      rw [heq a b ha hb', hkey a ha, hkey b hb', ← getD_eq_iff_getElem? ha hb']
      constructor
      · intro h; omega
      · intro h; rw [h]
  · -- single-column hash indexer
    obtain ⟨hL, hL1, hL2⟩ := larger_n_bounds px.length
    have hsame : ∀ a b, same_value x a b = (px.getD a 0 == px.getD b 0) := by
      intro a b; simp only [same_value, htype, hpx]
    obtain ⟨st, hst, hinv, heq⟩ := @hash_index_correct
      (pow2 (shifter_of px.length)).toNat px.length
      (fun i => hash_single (hash_value x i) (shifter_of px.length))
      (same_value x) true []
      hL (hL2 hn) (by omega)
      (fun a _ => le_of_lt (hash_single_lt _ _ hn))
      (by intro a _; rw [hsame]; simp)
      (by intro a b _ _ h; rw [hsame] at h ⊢; simp only [beq_iff_eq] at h ⊢; exact h.symm)
      (by
        intro a b c _ _ _ hab hbc
        rw [hsame] at hab hbc ⊢
        simp only [beq_iff_eq] at hab hbc ⊢
        exact hab.trans hbc)
      (by
        intro a b _ _ h
        rw [hsame] at h
        simp only [beq_iff_eq] at h
        simp only [hash_value, htype, hpx, h])
    refine ⟨st, ?_, hinv, ?_⟩
    · rw [hrun]
      simp only [general_type_to_index_single, hxn]
      exact hst
    · intro a b ha hb'
      rw [heq a b ha hb', hsame, ← getD_eq_iff_getElem? ha hb']
      simp

/-- The driver on a single integer column whose values lie in `[0, 2^30)`,
with fewer than `2^30` rows: it returns an index numbered by first occurrence
in which two rows have the same id exactly when they hold the same integer. -/
theorem single_int_column_correct (px : List Int) (hn : px.length < 2 ^ 30)
    (hv : ∀ v ∈ px, 0 ≤ v ∧ v < 2 ^ 30) :
    ∃ index first_obs, cpp_to_index_main (.vector (.INTSXP px)) = .ok (index, first_obs) ∧
      Numbered index first_obs ∧ index.length = px.length ∧
      ∀ a b, a < px.length → b < px.length → (index[a]? = index[b]? ↔ px[a]? = px[b]?) := by
  obtain ⟨mn, mx, hscan, h0, h1, h2, hb⟩ := scanned_int_spec px hv
  have hr : to_int32 (mx - mn + 2) = mx - mn + 2 := to_int32_of_range (by omega) (by omega)
  obtain ⟨st, hst, hinv, heq⟩ := @run_stages_int_column
    (set_fast_int
      { n := px.length, px_int := px, type := VType.T_INT, any_na := false,
        x_min := mn, x_range := mx - mn + 2 })
    px mn mx hn rfl rfl rfl rfl rfl rfl hb h0 h1 h2
  refine ⟨st.p_index, st.vec_first_obs, ?_, ?_, hinv.1, heq⟩
  · simp only [cpp_to_index_main, descriptors, r_vector.init, hscan, hr, Rf_length, hst]
  · obtain ⟨_, fo, hnum, _, hfo⟩ := hinv
    have : st.vec_first_obs = fo := by simpa using hfo
    rw [this]; exact hnum

/-! ## Indexing an index again -/

/-- Two indices numbered by first occurrence that group the rows in the same
way are the same list, with the same first occurrences. -/
theorem Numbered.unique {idx fo idx' fo' : List Nat} (h : Numbered idx fo)
    (h' : Numbered idx' fo') (hlen : idx.length = idx'.length)
    (heq : ∀ a b, a < idx.length → b < idx.length →
      (idx[a]? = idx[b]? ↔ idx'[a]? = idx'[b]?)) :
    idx = idx' ∧ fo = fo' := by
  induction h generalizing idx' fo' with
  | nil =>
    cases h' with
    | nil => exact ⟨rfl, rfl⟩
    | fresh _ => simp at hlen
    | again _ _ => simp at hlen
  | @fresh idx fo h ih =>
    have hbound : ∀ (b v : Nat), idx[b]? = some v → v ≠ fo.length + 1 := by
      intro b v hv
      have := (h.mem_iff v).mp (List.mem_iff_getElem?.mpr ⟨b, hv⟩)
      omega
    cases h' with
    | nil => simp at hlen
    | @fresh idx0 fo0 h0 =>
      have hl : idx.length = idx0.length := by simpa using hlen
      obtain ⟨e1, e2⟩ := ih h0 hl (by
        intro a b ha hb
        have := heq a b (by simp; omega) (by simp; omega)
        rwa [getElem?_snoc_lt ha, getElem?_snoc_lt hb, getElem?_snoc_lt (by omega),
          getElem?_snoc_lt (by omega)] at this)
      subst e1 e2
      exact ⟨rfl, rfl⟩
    | @again idx0 _ v0 h0 hv0 =>
      exfalso
      have hl : idx.length = idx0.length := by simpa using hlen
      obtain ⟨b, hb⟩ := List.mem_iff_getElem?.mp hv0
      have hblt : b < idx0.length := (List.getElem?_eq_some.mp hb).1
      have := (heq b idx.length (by simp; omega) (by simp)).mpr (by
        rw [getElem?_snoc_lt hblt, hb, hl, List.getElem?_concat_length])
      rw [getElem?_snoc_lt (by omega), List.getElem?_concat_length] at this
      exact hbound b _ this rfl
  | @again idx fo v h hv ih =>
    obtain ⟨b, hb⟩ := List.mem_iff_getElem?.mp hv
    have hblt : b < idx.length := (List.getElem?_eq_some.mp hb).1
    cases h' with
    | nil => simp at hlen
    | @fresh idx0 fo0 h0 =>
      exfalso
      have hl : idx.length = idx0.length := by simpa using hlen
      have := (heq b idx.length (by simp; omega) (by simp)).mp (by
        rw [getElem?_snoc_lt hblt, hb, List.getElem?_concat_length])
      rw [getElem?_snoc_lt (by omega), hl, List.getElem?_concat_length] at this
      have hm := (h0.mem_iff _).mp (List.mem_iff_getElem?.mpr ⟨b, this⟩)
      omega
    | @again idx0 _ v0 h0 hv0 =>
      have hl : idx.length = idx0.length := by simpa using hlen
      obtain ⟨e1, e2⟩ := ih h0 hl (by
        intro a c ha hc
        have := heq a c (by simp; omega) (by simp; omega)
        rwa [getElem?_snoc_lt ha, getElem?_snoc_lt hc, getElem?_snoc_lt (by omega),
          getElem?_snoc_lt (by omega)] at this)
      subst e1 e2
      have := (heq b idx.length (by simp; omega) (by simp)).mp (by
        rw [getElem?_snoc_lt hblt, hb, List.getElem?_concat_length])
      rw [getElem?_snoc_lt hblt, hb, List.getElem?_concat_length] at this
      have hvv : v = v0 := Option.some.inj this
      subst hvv
      exact ⟨rfl, rfl⟩

/-- A strictly increasing list of positive numbers ends with a number that is
at least its length. -/
theorem length_le_getLast (l : List Nat) (hp : l.Pairwise (· < ·)) (h1 : ∀ p ∈ l, 1 ≤ p)
    (hne : l ≠ []) : l.length ≤ l.getLast hne := by
  induction l using List.reverseRecOn with
  | nil => exact absurd rfl hne
  | append_singleton t a ih =>
    rw [List.getLast_append_singleton]
    rw [List.pairwise_append] at hp
    by_cases ht : t = []
    · subst ht
      have := h1 a (by simp)
      simpa using this
    · have := ih hp.1 (fun p hpm => h1 p (List.mem_append_left _ hpm)) ht
      have hlt := hp.2.2 _ (List.getLast_mem ht) a (by simp)
      simp only [List.length_append, List.length_singleton]
      omega

/-- There are at most as many groups as rows. -/
theorem Numbered.length_le {idx fo : List Nat} (h : Numbered idx fo) :
    fo.length ≤ idx.length := by
  by_cases hne : fo = []
  · rw [hne]; exact Nat.zero_le _
  · have h1 := length_le_getLast fo h.fo_sorted (fun p hp => (h.fo_bound p hp).1) hne
    have h2 := (h.fo_bound _ (List.getLast_mem hne)).2
    omega

/-- The property of C6 on the runs that return: when the driver returns
`(index, first_obs)` for an argument of fewer
than `2^30` rows, the driver run on `index` as a single 32-bit integer column
returns the same `first_obs` and an index with the same groups of rows; in
fact it returns `index` itself. -/
theorem reindexing_returns_the_same (x : Input) (index first_obs : List Nat)
    (h : cpp_to_index_main x = .ok (index, first_obs)) (hn : x.nrow < 2 ^ 30) :
    ∃ index', cpp_to_index_main (.vector (.INTSXP (index.map Int.ofNat))) =
        .ok (index', first_obs) ∧
      (∀ i j, i < index.length → j < index.length →
        (index'[i]? = index'[j]? ↔ index[i]? = index[j]?)) ∧
      index' = index := by
  obtain ⟨hlen, hnum⟩ := cpp_to_index_main_numbered h
  have hvals : ∀ v ∈ index.map Int.ofNat, 0 ≤ v ∧ v < 2 ^ 30 := by
    intro v hv
    obtain ⟨w, hw, rfl⟩ := List.mem_map.mp hv
    have h1 := (hnum.mem_iff w).mp hw
    have h2 := hnum.length_le
    constructor
    · exact Int.ofNat_nonneg w
    · have : w < 2 ^ 30 := by omega
      show (w : Int) < 2 ^ 30
      exact_mod_cast this
  obtain ⟨index', fo', hrun, hnum', hlen', heq⟩ := single_int_column_correct
    (index.map Int.ofNat) (by rw [List.length_map]; omega) hvals
  rw [List.length_map] at hlen' heq
  have hpart : ∀ i j, i < index.length → j < index.length →
      (index'[i]? = index'[j]? ↔ index[i]? = index[j]?) := by
    intro i j hi hj
    rw [heq i j hi hj, List.getElem?_map, List.getElem?_map,
      List.getElem?_eq_getElem hi, List.getElem?_eq_getElem hj]
    simp only [Option.map_some', Option.some.injEq]
    constructor
    · intro hij; exact Int.ofNat.inj hij
    · intro hij; rw [hij]
  obtain ⟨e1, e2⟩ := hnum'.unique hnum hlen' (by
    intro a b ha hb
    rw [hlen'] at ha hb
    exact hpart a b ha hb)
  subst e1 e2
  exact ⟨index', hrun, hpart, rfl⟩

theorem reindexing_returns_the_same_witness :
    cpp_to_index_main (.VECSXP [.INTSXP [1, 1, 2, 1], .STRSXP [1000, 2000, 1000, 1000]]) =
        .ok ([1, 2, 3, 1], [1, 2, 3]) ∧
      (Input.VECSXP [.INTSXP [1, 1, 2, 1], .STRSXP [1000, 2000, 1000, 1000]]).nrow < 2 ^ 30 ∧
      ∃ index', cpp_to_index_main
          (.vector (.INTSXP ([1, 2, 3, 1].map Int.ofNat))) =
          .ok (index', [1, 2, 3]) ∧
        (∀ i j, i < [1, 2, 3, 1].length → j < [1, 2, 3, 1].length →
          (index'[i]? = index'[j]? ↔ [1, 2, 3, 1][i]? = [1, 2, 3, 1][j]?)) ∧
        index' = [1, 2, 3, 1] :=
  ⟨rfl, by decide, reindexing_returns_the_same
    (.VECSXP [.INTSXP [1, 1, 2, 1], .STRSXP [1000, 2000, 1000, 1000]]) _ _ rfl (by decide)⟩

/-! ## The probe never exhausts its budget -/

/-- One iteration of a hashing loop whose probe returns gives a state,
whatever the equality test and the hash are. -/
theorem hash_row_total_of_probe {L : Nat} {hash : Nat → Nat} {same : Nat → Nat → Bool}
    {is_final : Bool} {init : List Nat} {st : Scratch} {i s : Nat} {r : Option Nat}
    (h : st.Inv is_final init i ∧ (∀ s, st.lookup s ≠ 0 → st.lookup s ≤ i) ∧
      ∀ s s', st.lookup s ≠ 0 → st.lookup s = st.lookup s' → s = s')
    (hp : probe L st.lookup (fun obs => same obs i) (L + 1) (hash i) = .ok (s, r)) :
    ∃ st1, hash_row L hash same is_final st i = .ok st1 ∧
      (st1.Inv is_final init (i + 1) ∧ (∀ s, st1.lookup s ≠ 0 → st1.lookup s ≤ i + 1) ∧
        ∀ s s', st1.lookup s ≠ 0 → st1.lookup s = st1.lookup s' → s = s') := by
  obtain ⟨hinv, hle, hinj⟩ := h
  have hlen : st.p_index.length = i := hinv.1
  obtain ⟨d, _, hs, hpath, hend⟩ := probe_spec hp
  rcases hend with ⟨rfl, hempty⟩ | ⟨rfl, hocc, hmatch⟩
  · have hrow : hash_row L hash same is_final st i = .ok (st.new_group s (i + 1) i is_final) := by
      unfold hash_row; rw [hp]
    refine ⟨_, hrow, Scratch.new_group_inv hinv _ _, ?_, ?_⟩
    · intro k hk
      simp only [Scratch.new_group] at hk ⊢
      by_cases hks : k = s
      · rw [hks, Function.update_same]
      · rw [Function.update_noteq hks] at hk ⊢
        have := hle k hk
        omega
    · intro k k' hk hkk
      simp only [Scratch.new_group] at hk hkk
      by_cases hks : k = s <;> by_cases hks' : k' = s
      · rw [hks, hks']
      · rw [hks, Function.update_same, Function.update_noteq hks'] at hkk
        have := hle k' (by rw [← hkk]; omega)
        omega
      · rw [hks', Function.update_same, Function.update_noteq hks] at hkk
        rw [Function.update_noteq hks] at hk
        have := hle k hk
        omega
      · rw [Function.update_noteq hks] at hk
        rw [Function.update_noteq hks, Function.update_noteq hks'] at hkk
        exact hinj k k' hk hkk
  · have hlt : st.lookup s - 1 < i := by
      have := hle s hocc
      omega
    obtain ⟨w, hget⟩ : ∃ w, st.p_index[st.lookup s - 1]? = some w :=
      ⟨_, List.getElem?_eq_getElem (by omega)⟩
    have hrow : hash_row L hash same is_final st i = .ok (st.old_group w) := by
      unfold hash_row; rw [hp]; simp only [hget]
    refine ⟨_, hrow, Scratch.old_group_inv hinv (List.mem_iff_getElem?.mpr ⟨_, hget⟩), ?_, hinj⟩
    intro k hk
    have := hle k hk
    show st.lookup k ≤ i + 1
    omega

/-- One iteration of a hashing loop returns, whatever the equality test and
the hash are, as long as fewer rows are stored than the table has slots. -/
theorem hash_row_total {L : Nat} {hash : Nat → Nat} {same : Nat → Nat → Bool}
    {is_final : Bool} {init : List Nat} {st : Scratch} {i : Nat}
    (hL : 2 ≤ L) (hL2 : L + 1 < 2 ^ 32) (hi : i < L) (hh : hash i ≤ L)
    (h : st.Inv is_final init i ∧ (∀ s, st.lookup s ≠ 0 → st.lookup s ≤ i) ∧
      ∀ s s', st.lookup s ≠ 0 → st.lookup s = st.lookup s' → s = s') :
    ∃ st1, hash_row L hash same is_final st i = .ok st1 ∧
      (st1.Inv is_final init (i + 1) ∧ (∀ s, st1.lookup s ≠ 0 → st1.lookup s ≤ i + 1) ∧
        ∀ s s', st1.lookup s ≠ 0 → st1.lookup s = st1.lookup s' → s = s') := by
  obtain ⟨d0, hd0, hz⟩ := exists_empty_slot hL hL2 hi hh h.2.1 h.2.2
  obtain ⟨s, r, hp⟩ := @probe_total L st.lookup (fun obs => same obs i) hL hL2 (L + 1)
    (hash i) hh ⟨d0, hd0, hz⟩
  exact hash_row_total_of_probe h hp

/-- A hashing loop over fewer rows than the table has slots returns. -/
theorem hash_index_total {L n : Nat} {hash : Nat → Nat} {same : Nat → Nat → Bool}
    {is_final : Bool} {init : List Nat} (hL : 2 ≤ L) (hL2 : L + 1 < 2 ^ 32) (hn : n ≤ L)
    (hhb : ∀ a, a < n → hash a ≤ L) :
    ∃ st, hash_index L hash same n is_final init = .ok st := by
  obtain ⟨st, h1, _⟩ := foldlM_range_total (hash_row L hash same is_final)
    (fun i st => st.Inv is_final init i ∧ (∀ s, st.lookup s ≠ 0 → st.lookup s ≤ i) ∧
      ∀ s s', st.lookup s ≠ 0 → st.lookup s = st.lookup s' → s = s')
    n (Scratch.start init)
    ⟨Scratch.start_inv is_final init, by intro s h; exact absurd rfl h,
      by intro s s' h; exact absurd rfl h⟩
    (fun i st hi hinv => hash_row_total hL hL2 (by omega) (hhb i hi) hinv)
  exact ⟨st, h1⟩

/-- The function `hash_double` returns a slot of the table. -/
theorem hash_double_lt (v1 v2 n : Nat) (hn : n < 2 ^ 30) :
    hash_double v1 v2 (shifter_of n) < (pow2 (shifter_of n)).toNat := by
  rw [larger_n_eq, shifter_of_eq]
  unfold hash_double
  have h31 : ceil_log2 (2 * n + 2) ≤ 31 := (ceil_log2_spec (2 * n + 2)).2 31 (by omega)
  have hm : max 8 (ceil_log2 (2 * n + 2)) ≤ 31 := max_le (by omega) h31
  generalize max 8 (ceil_log2 (2 * n + 2)) = s at hm
  have e : (32 - (s : Int)).toNat = 32 - s := by omega
  rw [e, Nat.shiftRight_eq_div_pow]
  apply Nat.div_lt_of_lt_mul
  rw [← Nat.pow_add]
  have : 32 - s + s = 32 := by omega
  rw [this]
  exact Nat.xor_lt_two_pow (Nat.mod_lt _ (by positivity)) (Nat.mod_lt _ (by positivity))

theorem direct_index_not_diverges {lookup_size : Int} {id : Nat → Int} {n : Nat}
    {is_final : Bool} {init : List Nat} :
    direct_index lookup_size id n is_final init ≠ .error Failure.diverges := by
  intro h
  unfold direct_index at h
  split_ifs at h
  · cases h
  · have := foldlM_range_error
      (fun st i => update_index_intarray_g_obs lookup_size (id i) i st is_final)
      (fun e => e = Failure.out_of_bounds) n _ _ (by
        intro a i e1 he
        beta_reduce at he
        unfold update_index_intarray_g_obs at he
        split_ifs at he
        cases he; rfl) h
    cases this

theorem general_type_to_index_single_total {x : r_vector} {init : List Nat} {is_final : Bool}
    (hn : x.n < 2 ^ 30) : ∃ st, general_type_to_index_single x init is_final = .ok st := by
  obtain ⟨hL, hL1, hL2⟩ := larger_n_bounds x.n
  exact hash_index_total hL (hL2 hn) (by omega) (fun a _ => le_of_lt (hash_single_lt _ _ hn))

theorem general_type_to_index_double_not_diverges {x : r_vector} {p_index_in : List Nat}
    {n_groups : Nat} {init : List Nat} {is_final : Bool} (hn : x.n < 2 ^ 30) :
    general_type_to_index_double x p_index_in n_groups init is_final ≠
      .error Failure.diverges := by
  unfold general_type_to_index_double
  simp only
  split_ifs
  · exact direct_index_not_diverges
  · obtain ⟨hL, hL1, hL2⟩ := larger_n_bounds x.n
    obtain ⟨st, hst⟩ := @hash_index_total (pow2 (shifter_of x.n)).toNat x.n
      (fun i => hash_double (hash_value x i) (p_index_in.getD i 0) (shifter_of x.n))
      (fun obs i => same_value x obs i && p_index_in.getD obs 0 == p_index_in.getD i 0)
      is_final init hL (hL2 hn) (by omega) (fun a _ => le_of_lt (hash_double_lt _ _ _ hn))
    rw [hst]
    intro h; cases h

theorem multiple_ints_to_index_not_diverges {all_vecs : List r_vector} {all_k : List Nat}
    {init : List Nat} {is_final : Bool} :
    multiple_ints_to_index all_vecs all_k init is_final ≠ .error Failure.diverges := by
  unfold multiple_ints_to_index
  match all_k with
  | [] => intro h; cases h
  | [k0] => exact direct_index_not_diverges
  | [k0, k1] => exact direct_index_not_diverges
  | k0 :: k1 :: k2 :: rest => exact direct_index_not_diverges

theorem fold_left_not_diverges {vs : List r_vector} {n : Nat} {ks : List Nat} {st : Scratch}
    (hn : n < 2 ^ 30) (hk : ∀ k ∈ ks, (vs.getD k default).n = n) :
    fold_left vs ks st ≠ .error Failure.diverges := by
  induction ks generalizing st with
  | nil => intro h; cases h
  | cons k ks ih =>
    unfold fold_left
    split
    · rename_i e he
      intro h
      cases h
      exact general_type_to_index_double_not_diverges
        (by rw [hk k (List.mem_cons_self _ _)]; exact hn) he
    · exact ih (fun j hj => hk j (List.mem_cons_of_mem _ hj))

/-- The stages of the driver never end because a probe exhausted its budget:
on fewer than `2^30` rows every probe loop of the source terminates. -/
theorem run_stages_not_diverges {K n : Nat} {vs : List r_vector} (hK : vs.length = K)
    (hvs : ∀ v ∈ vs, v.n = n) (hn : n < 2 ^ 30) :
    run_stages K n vs ≠ .error Failure.diverges := by
  have hleft : ∀ k ∈ (List.range K).filter
      (fun k => !(id_fast_int_from K n vs 0 0).contains k), (vs.getD k default).n = n := by
    intro k hk
    have := (List.mem_filter.mp hk).1
    exact getD_n hvs (by rw [hK]; exact List.mem_range.mp this)
  unfold run_stages
  simp only
  split
  · split
    · rename_i e he
      intro h
      cases h
      exact multiple_ints_to_index_not_diverges he
    · split
      · intro h; cases h
      · exact fold_left_not_diverges hn hleft
  · split
    · intro h; cases h
    · rename_i k0 left hl
      have hk0 : (vs.getD k0 default).n = n := hleft k0 (by rw [hl]; exact List.mem_cons_self _ _)
      obtain ⟨st, hst⟩ := @general_type_to_index_single_total (vs.getD k0 default) []
        left.isEmpty (by rw [hk0]; exact hn)
      rw [hst]
      simp only
      split
      · intro h; cases h
      · exact fold_left_not_diverges hn
          (fun j hj => hleft j (by rw [hl]; exact List.mem_cons_of_mem _ hj))

theorem r_vector.init_error_kind {c : SEXP} {e : Failure} (h : r_vector.init c = .error e) :
    e = Failure.coercion_failed ∨ e = Failure.non_atomic := by
  cases c with
  | STRSXP p => cases h
  | REALSXP p =>
    simp only [r_vector.init] at h
    split_ifs at h
  | INTSXP p => cases h
  | LGLSXP p => cases h
  | FACTOR p l => cases h
  | OTHER p b =>
    simp only [r_vector.init] at h
    split_ifs at h
    cases h; exact Or.inl rfl
  | NON_ATOMIC l => cases h; exact Or.inr rfl

theorem descriptors_from_error_kind {n : Nat} {es : List SEXP} {e : Failure}
    (h : descriptors_from n es = .error e) : e ≠ Failure.diverges := by
  induction es with
  | nil => cases h
  | cons c t ih =>
    unfold descriptors_from at h
    split at h
    · rename_i e1 he1
      cases h
      rcases r_vector.init_error_kind he1 with h1 | h1 <;> rw [h1] <;> simp
    · split_ifs at h
      · cases h; simp
      · split at h
        · rename_i e1 he1
          cases h
          exact ih he1
        · cases h

theorem descriptors_error_kind {x : Input} {e : Failure} (h : descriptors x = .error e) :
    e ≠ Failure.diverges := by
  unfold descriptors at h
  split at h
  · cases h
  · split at h
    · rename_i e1 he1
      cases h
      rcases r_vector.init_error_kind he1 with h1 | h1 <;> rw [h1] <;> simp
    · split at h
      · rename_i e1 he1
        cases h
        exact descriptors_from_error_kind he1
      · cases h
  · split at h
    · rename_i e1 he1
      cases h
      rcases r_vector.init_error_kind he1 with h1 | h1 <;> rw [h1] <;> simp
    · cases h

/-- No run of the driver on fewer than `2^30` rows ends because a probe
exhausted its budget: a run either returns a result, raises one of the errors
of the source, or makes an access outside an array. -/
theorem cpp_to_index_main_not_diverges (x : Input) (hn : x.nrow < 2 ^ 30) :
    cpp_to_index_main x ≠ .error Failure.diverges := by
  unfold cpp_to_index_main
  split
  · rename_i e he
    intro h
    cases h
    exact descriptors_error_kind he rfl
  · rename_i K n vs hd
    obtain ⟨h1, h2, h3⟩ := descriptors_spec hd
    have hrun := run_stages_not_diverges h1 h3 (by rw [h2]; exact hn)
    split
    · rename_i e he
      intro h
      cases h
      exact hrun he
    · intro h; cases h

/-! ## The direct-address paths in terms of their table and keys -/

theorem multiple_ints_to_index_eq (all_vecs : List r_vector) (all_k : List Nat)
    (init : List Nat) (is_final : Bool) (h : all_k ≠ []) :
    multiple_ints_to_index all_vecs all_k init is_final =
      direct_index (lookup_size all_vecs all_k) (packed_key all_vecs all_k)
        (all_vecs.getD (all_k.getD 0 0) default).n is_final init := by
  match all_k with
  | [] => exact absurd rfl h
  | [k0] => rfl
  | [k0, k1] => rfl
  | k0 :: k1 :: r :: rest => rfl

theorem general_type_to_index_double_eq (x : r_vector) (p_index_in : List Nat) (n_groups : Nat)
    (init : List Nat) (is_final : Bool) :
    general_type_to_index_double x p_index_in n_groups init is_final =
      if do_fast_int x n_groups then
        direct_index (pow2 (x.x_range_bin + power_of_two n_groups + 1))
          (composed_key x p_index_in n_groups) x.n is_final init
      else
        hash_index (pow2 (shifter_of x.n)).toNat
          (fun i => hash_double (hash_value x i) (p_index_in.getD i 0) (shifter_of x.n))
          (fun obs i => same_value x obs i && p_index_in.getD obs 0 == p_index_in.getD i 0) x.n
          is_final init := rfl

/-! ## Bit fields of a packed key -/

theorem shl_eq (v : Int) (b : Nat) : shl v (b : Int) = to_int32 (v * 2 ^ b) := by
  unfold shl
  rw [Int.toNat_ofNat]

theorem pow2_eq (b : Nat) : pow2 (b : Int) = 2 ^ b := by
  unfold pow2
  rw [if_neg (by omega), Int.toNat_ofNat]

theorem two_pow_pos_int (b : Nat) : (0 : Int) < 2 ^ b := by positivity

/-- A value below `2^b` put above a field of `o` bits stays below
`2^(o+b)`. -/
theorem field_lt {a v : Int} {o b : Nat} (ha : a < 2 ^ o) (hv : v < 2 ^ b) : a + v * 2 ^ o < 2 ^ (o + b) := by
  have h1 : v + 1 ≤ 2 ^ b := hv
  have h2 : (v + 1) * 2 ^ o ≤ 2 ^ b * 2 ^ o :=
    mul_le_mul_of_nonneg_right h1 (le_of_lt (two_pow_pos_int o))
  have h3 : (2 : Int) ^ (o + b) = 2 ^ b * 2 ^ o := by rw [pow_add, mul_comm]
  rw [h3]
  linarith

/-- A value below `2^b` shifted above a field of `o` bits and added to it is
computed without overflow when the two fields have at most 31 bits. -/
theorem wrap_field {a v : Int} {o b : Nat} (ha0 : 0 ≤ a) (ha : a < 2 ^ o) (hv0 : 0 ≤ v)
    (hv : v < 2 ^ b) (hob : o + b ≤ 31) :
    to_int32 (a + shl v (o : Int)) = a + v * 2 ^ o := by
  have h31 : (2 : Int) ^ (o + b) ≤ 2147483648 := by
    have : (2 : Int) ^ (o + b) ≤ 2 ^ 31 := pow_le_pow_right₀ (by norm_num) hob
    norm_num at this
    exact this
  have hp : 0 ≤ v * 2 ^ o := mul_nonneg hv0 (le_of_lt (two_pow_pos_int o))
  have h1 : (0 : Int) + v * 2 ^ o < 2 ^ (o + b) := field_lt (two_pow_pos_int o) hv
  have h2 := field_lt ha hv
  rw [shl_eq, to_int32_of_range (v := v * 2 ^ o) (by omega) (by omega)]
  exact to_int32_of_range (by omega) (by omega)

/-- Two fields are read back from their sum. -/
theorem field_inj {a a' v v' : Int} {o : Nat} (ha0 : 0 ≤ a) (ha : a < 2 ^ o)
    (ha0' : 0 ≤ a') (ha' : a' < 2 ^ o) (h : a + v * 2 ^ o = a' + v' * 2 ^ o) :
    a = a' ∧ v = v' := by
  have e1 : (a + v * 2 ^ o) % 2 ^ o = a := by
    rw [Int.add_mul_emod_self]; exact Int.emod_eq_of_lt ha0 ha
  have e2 : (a' + v' * 2 ^ o) % 2 ^ o = a' := by
    rw [Int.add_mul_emod_self]; exact Int.emod_eq_of_lt ha0' ha'
  have haa : a = a' := by rw [← e1, ← e2, h]
  refine ⟨haa, ?_⟩
  subst haa
  have h4 : v * 2 ^ o = v' * 2 ^ o := by linarith
  exact mul_right_cancel₀ (ne_of_gt (two_pow_pos_int o)) h4

/-- The function `power_of_two` on a natural number: the least number of bits
`b` with `x + 1 <= 2^b`. -/
theorem power_of_two_nat (x : Nat) :
    power_of_two (x : Int) = ((ceil_log2 (x + 1) : Nat) : Int) ∧
      x + 1 ≤ 2 ^ ceil_log2 (x + 1) := by
  unfold power_of_two
  rw [if_neg (by omega)]
  have : ((x : Int) + 1).toNat = x + 1 := by omega
  rw [this]
  exact ⟨rfl, (ceil_log2_spec (x + 1)).1⟩

/-! ## Consequences of the descriptor invariant -/

/-- The test of `is_fast_int` keeps `x_range + 1` an `int`: the product
`2*n`, reduced to 32 bits, is even. -/
theorem r_vector.FastInt.range_lt {x : r_vector} {n : Nat} (h : x.FastInt n) :
    x.x_range < 2147483647 := by
  rcases h.fast_ok with h1 | h1
  · omega
  · unfold to_int32 at h1
    omega

theorem r_vector.FastInt.bits_eq {x : r_vector} {n : Nat} (h : x.FastInt n) :
    x.x_range_bin = (x.bits_nat : Int) ∧ x.x_range + 1 ≤ 2 ^ x.bits_nat := by
  have hp := h.range_pos
  obtain ⟨r, hr⟩ : ∃ r : Nat, x.x_range = (r : Int) := ⟨x.x_range.toNat, by omega⟩
  have h1 := power_of_two_nat r
  unfold r_vector.bits_nat
  rw [h.bits, hr, h1.1]
  have e : ((r : Int) + 1).toNat = r + 1 := by omega
  rw [e]
  refine ⟨rfl, ?_⟩
  have := h1.2
  exact_mod_cast this

/-- The normalised value of a row that is missing. -/
theorem UPDATE_V_na {x : r_vector} {n i : Nat} (h : x.FastInt n) (hi : i < n)
    (hna : x.is_na i = true) : UPDATE_V x i = x.x_range - 1 := by
  have hany := h.any_missing i hi hna
  unfold r_vector.is_na at hna
  unfold UPDATE_V
  by_cases ht : x.type = VType.T_INT
  · rw [if_pos ht] at hna
    rw [if_pos ht, if_pos hany, if_pos (of_decide_eq_true hna), h.missing_id]
  · rw [if_neg ht] at hna
    rw [if_neg ht, if_pos hany, if_pos hna, h.missing_id]

/-- The normalised value of a row that is not missing. -/
theorem UPDATE_V_value {x : r_vector} {n i : Nat} (h : x.FastInt n)
    (hi : i < n) (hna : x.is_na i = false) : UPDATE_V x i = x.int_value i - x.x_min := by
  have hr := h.in_range i hi hna
  have hlt := h.range_lt
  have e : to_int32 (x.int_value i - x.x_min) = x.int_value i - x.x_min :=
    to_int32_of_range (by omega) (by omega)
  unfold r_vector.is_na at hna
  unfold r_vector.int_value at e hr ⊢
  unfold UPDATE_V
  by_cases ht : x.type = VType.T_INT
  · rw [if_pos ht] at hna e hr ⊢
    have hne : ¬ x.px_int.getD i 0 = NA_INTEGER := of_decide_eq_false hna
    rw [if_pos ht, if_neg hne, e]
    split_ifs <;> rfl
  · rw [if_neg ht] at hna e hr ⊢
    have hne : ¬ (x.px_dbl.getD i ⟨0⟩).isnan = true := by rw [hna]; simp
    rw [if_neg ht, if_neg hne, e]
    split_ifs <;> rfl

/-- The normalised values lie in `0 .. x_range - 1`. -/
theorem UPDATE_V_bounds {x : r_vector} {n i : Nat} (h : x.FastInt n)
    (hi : i < n) : 0 ≤ UPDATE_V x i ∧ UPDATE_V x i ≤ x.x_range - 1 := by
  cases hna : x.is_na i with
  | true => rw [UPDATE_V_na h hi hna]; have := h.range_pos; omega
  | false =>
    rw [UPDATE_V_value h hi hna]
    have := h.in_range i hi hna
    omega

theorem UPDATE_V_lt {x : r_vector} {n i : Nat} (h : x.FastInt n)
    (hi : i < n) : UPDATE_V x i < 2 ^ x.bits_nat := by
  have h1 := (UPDATE_V_bounds h hi).2
  have h2 := h.bits_eq.2
  omega

/-- Two rows have the same normalised value exactly when both are missing or
both hold the same integer. -/
theorem UPDATE_V_eq_iff {x : r_vector} {n i j : Nat} (h : x.FastInt n)
    (hi : i < n) (hj : j < n) :
    UPDATE_V x i = UPDATE_V x j ↔
      x.is_na i = x.is_na j ∧ (x.is_na i = false → x.int_value i = x.int_value j) := by
  cases hi1 : x.is_na i <;> cases hj1 : x.is_na j
  · rw [UPDATE_V_value h hi hi1, UPDATE_V_value h hj hj1]
    constructor
    · intro he; exact ⟨rfl, fun _ => by omega⟩
    · intro he; rw [he.2 rfl]
  · rw [UPDATE_V_value h hi hi1, UPDATE_V_na h hj hj1]
    have := h.in_range i hi hi1
    constructor
    · intro he; omega
    · intro he; cases he.1
  · rw [UPDATE_V_na h hi hi1, UPDATE_V_value h hj hj1]
    have := h.in_range j hj hj1
    constructor
    · intro he; omega
    · intro he; cases he.1
  · rw [UPDATE_V_na h hi hi1, UPDATE_V_na h hj hj1]
    exact ⟨fun _ => ⟨rfl, fun h => by cases h⟩, fun _ => rfl⟩

/-! ## The packed key -/

/-- The sum of the numbers of bits of the columns `ks`. -/
theorem bits_sum_eq {vs : List r_vector} {n : Nat} (ks : List Nat)
    (h : ∀ k, k ∈ ks → (vs.getD k default).FastInt n) :
    (ks.map (fun k => (vs.getD k default).x_range_bin)).sum =
      (((ks.map (fun k => (vs.getD k default).bits_nat)).sum : Nat) : Int) := by
  induction ks with
  | nil => rfl
  | cons k ks ih =>
    rw [List.map_cons, List.sum_cons, List.map_cons, List.sum_cons,
      ih (fun k hk => h k (List.mem_cons_of_mem _ hk)),
      (h k (List.mem_cons_self _ _)).bits_eq.1]
    push_cast
    rfl

theorem pack_cons (vs : List r_vector) (k : Nat) (ks : List Nat) (i : Nat) :
    pack vs (k :: ks) i =
      UPDATE_V (vs.getD k default) i + pack vs ks i * 2 ^ (vs.getD k default).bits_nat := rfl

theorem pack_bounds {vs : List r_vector} {n i : Nat} (hi : i < n)
    (ks : List Nat) (h : ∀ k, k ∈ ks → (vs.getD k default).FastInt n) :
    0 ≤ pack vs ks i ∧
      pack vs ks i < 2 ^ (ks.map (fun k => (vs.getD k default).bits_nat)).sum := by
  induction ks with
  | nil => simp [pack]
  | cons k ks ih =>
    have hk := h k (List.mem_cons_self _ _)
    obtain ⟨i1, i2⟩ := ih (fun k hk => h k (List.mem_cons_of_mem _ hk))
    have b1 := (UPDATE_V_bounds hk hi).1
    have b2 := UPDATE_V_lt hk hi
    rw [List.map_cons, List.sum_cons, pack_cons]
    refine ⟨add_nonneg b1 (mul_nonneg i1 (le_of_lt (two_pow_pos_int _))), ?_⟩
    exact field_lt b2 i2

/-- The packed key is injective: two rows have the same key exactly when
their normalised values agree in every column. -/
theorem pack_inj {vs : List r_vector} {n i j : Nat} (hi : i < n) (hj : j < n)
    (ks : List Nat) (h : ∀ k, k ∈ ks → (vs.getD k default).FastInt n) :
    pack vs ks i = pack vs ks j ↔
      ∀ k, k ∈ ks → UPDATE_V (vs.getD k default) i = UPDATE_V (vs.getD k default) j := by
  induction ks with
  | nil => simp [pack]
  | cons k ks ih =>
    have hk := h k (List.mem_cons_self _ _)
    have ih1 := ih (fun k hk => h k (List.mem_cons_of_mem _ hk))
    rw [pack_cons, pack_cons]
    constructor
    · intro he
      obtain ⟨e1, e2⟩ := field_inj (UPDATE_V_bounds hk hi).1 (UPDATE_V_lt hk hi)
        (UPDATE_V_bounds hk hj).1 (UPDATE_V_lt hk hj) he
      intro k1 hk1
      rcases List.mem_cons.mp hk1 with hk1 | hk1
      · subst hk1; exact e1
      · exact ih1.mp e2 k1 hk1
    · intro he
      rw [he k (List.mem_cons_self _ _), ih1.mpr (fun k1 hk1 => he k1 (List.mem_cons_of_mem _ hk1))]

theorem pack_append (vs : List r_vector) (ks : List Nat) (k i : Nat) :
    pack vs (ks ++ [k]) i =
      pack vs ks i + UPDATE_V (vs.getD k default) i *
        2 ^ (ks.map (fun k => (vs.getD k default).bits_nat)).sum := by
  induction ks with
  | nil => simp [pack]
  | cons k1 ks ih =>
    rw [List.cons_append, List.map_cons, List.sum_cons, pack_cons, pack_cons, ih, pow_add]
    ring

theorem add_middle_snd {vs : List r_vector} {n : Nat} (ks : List Nat)
    (h : ∀ k, k ∈ ks → (vs.getD k default).FastInt n) (S : Nat → Int) (o : Nat) :
    (add_middle vs ks (S, (o : Int))).2 =
      ((o + (ks.map (fun k => (vs.getD k default).bits_nat)).sum : Nat) : Int) := by
  induction ks generalizing S o with
  | nil => simp [add_middle]
  | cons k ks ih =>
    have hk := h k (List.mem_cons_self _ _)
    unfold add_middle
    simp only
    rw [hk.bits_eq.1]
    have e : (o : Int) + ((vs.getD k default).bits_nat : Int) =
        ((o + (vs.getD k default).bits_nat : Nat) : Int) := by push_cast; rfl
    rw [e, ih (fun k hk => h k (List.mem_cons_of_mem _ hk)), List.map_cons, List.sum_cons]
    push_cast
    ring

/-- The loop over the intermediate columns adds their fields to `sum_vec`,
without overflow when all the fields together have at most 31 bits. -/
theorem add_middle_fst {vs : List r_vector} {n i : Nat} (hi : i < n)
    (ks : List Nat) (h : ∀ k, k ∈ ks → (vs.getD k default).FastInt n) (S : Nat → Int) (o : Nat)
    (hS0 : 0 ≤ S i) (hS : S i < 2 ^ o)
    (hfit : o + (ks.map (fun k => (vs.getD k default).bits_nat)).sum ≤ 31) :
    (add_middle vs ks (S, (o : Int))).1 i = S i + pack vs ks i * 2 ^ o := by
  induction ks generalizing S o with
  | nil => simp [add_middle, pack]
  | cons k ks ih =>
    have hk := h k (List.mem_cons_self _ _)
    rw [List.map_cons, List.sum_cons] at hfit
    have b1 := (UPDATE_V_bounds hk hi).1
    have b2 := UPDATE_V_lt hk hi
    have hw := wrap_field hS0 hS b1 b2 (by omega)
    unfold add_middle
    simp only
    rw [hk.bits_eq.1]
    have e : (o : Int) + ((vs.getD k default).bits_nat : Int) =
        ((o + (vs.getD k default).bits_nat : Nat) : Int) := by push_cast; rfl
    rw [e, ih (fun k hk => h k (List.mem_cons_of_mem _ hk)) _ _
      (by rw [hw]; exact add_nonneg hS0 (mul_nonneg b1 (le_of_lt (two_pow_pos_int _))))
      (by rw [hw]; exact field_lt hS b2) (by omega)]
    rw [hw, pack_cons, pow_add]
    ring

/-- The key computed by `multiple_ints_to_index` is the packed key, on each of
its three paths, when the fields of the columns have at most 31 bits
together. -/
theorem packed_key_eq_pack {vs : List r_vector} {n i : Nat} (hi : i < n)
    (ks : List Nat) (h : ∀ k, k ∈ ks → (vs.getD k default).FastInt n)
    (hfit : (ks.map (fun k => (vs.getD k default).bits_nat)).sum ≤ 31) :
    packed_key vs ks i = pack vs ks i := by
  match ks with
  | [] => rfl
  | [k0] => simp [packed_key, pack]
  | [k0, k1] =>
    have h0 := h k0 (by simp)
    have h1 := h k1 (by simp)
    simp only [List.map_cons, List.sum_cons, List.map_nil, List.sum_nil, add_zero] at hfit
    simp only [packed_key]
    rw [h0.bits_eq.1, wrap_field (UPDATE_V_bounds h0 hi).1 (UPDATE_V_lt h0 hi)
      (UPDATE_V_bounds h1 hi).1 (UPDATE_V_lt h1 hi) hfit, pack_cons, pack_cons]
    simp [pack]
  | k0 :: k1 :: r :: rest =>
    have h0 := h k0 (by simp)
    have h1 := h k1 (by simp)
    have hne : r :: rest ≠ [] := by simp
    have hl : (r :: rest).getLastD 0 = (r :: rest).getLast hne := by
      rw [List.getLastD_eq_getLast?, List.getLast?_eq_getLast _ hne]; rfl
    have hsplit := List.dropLast_append_getLast hne
    have hlast : (vs.getD ((r :: rest).getLast hne) default).FastInt n :=
      h _ (List.mem_cons_of_mem _ (List.mem_cons_of_mem _ (List.getLast_mem hne)))
    have hmid : ∀ k, k ∈ (r :: rest).dropLast → (vs.getD k default).FastInt n := by
      intro k hk
      exact h k (List.mem_cons_of_mem _ (List.mem_cons_of_mem _ (List.mem_of_mem_dropLast hk)))
    have hp : pack vs (r :: rest) i =
        pack vs ((r :: rest).dropLast ++ [(r :: rest).getLast hne]) i := by rw [hsplit]
    have hsum : ((r :: rest).map (fun k => (vs.getD k default).bits_nat)).sum =
        ((r :: rest).dropLast.map (fun k => (vs.getD k default).bits_nat)).sum +
          (vs.getD ((r :: rest).getLast hne) default).bits_nat := by
      conv_lhs => rw [← hsplit]
      rw [List.map_append, List.sum_append]
      simp
    rw [List.map_cons, List.sum_cons, List.map_cons, List.sum_cons, hsum] at hfit
    have a0 := (UPDATE_V_bounds h0 hi).1
    have a1 := UPDATE_V_lt h0 hi
    have c0 := (UPDATE_V_bounds h1 hi).1
    have c1 := UPDATE_V_lt h1 hi
    have hw := wrap_field a0 a1 c0 c1 (by omega)
    have hmb := pack_bounds hi _ hmid
    simp only [packed_key]
    rw [hl, h0.bits_eq.1, h1.bits_eq.1]
    have e : ((vs.getD k0 default).bits_nat : Int) + ((vs.getD k1 default).bits_nat : Int) =
        (((vs.getD k0 default).bits_nat + (vs.getD k1 default).bits_nat : Nat) : Int) := by
      push_cast; rfl
    rw [e, add_middle_snd _ hmid, add_middle_fst hi _ hmid _ _
      (by rw [hw]; exact add_nonneg a0 (mul_nonneg c0 (le_of_lt (two_pow_pos_int _))))
      (by rw [hw]; exact field_lt a1 c1) (by omega)]
    rw [hw]
    have hS0 : 0 ≤ UPDATE_V (vs.getD k0 default) i +
        UPDATE_V (vs.getD k1 default) i * 2 ^ (vs.getD k0 default).bits_nat +
        pack vs (r :: rest).dropLast i *
          2 ^ ((vs.getD k0 default).bits_nat + (vs.getD k1 default).bits_nat) :=
      add_nonneg (add_nonneg a0 (mul_nonneg c0 (le_of_lt (two_pow_pos_int _))))
        (mul_nonneg hmb.1 (le_of_lt (two_pow_pos_int _)))
    have hS1 := field_lt (field_lt a1 c1) hmb.2
    rw [wrap_field hS0 hS1 (UPDATE_V_bounds hlast hi).1 (UPDATE_V_lt hlast hi) (by omega),
      pack_cons, pack_cons, hp, pack_append, pow_add, pow_add]
    ring

/-! ## The table of the direct-address indexer holds every key -/

theorem bits_fit {vs : List r_vector} {n : Nat} (ks : List Nat)
    (h : ∀ k, k ∈ ks → (vs.getD k default).FastInt n)
    (hbits : (ks.map (fun k => (vs.getD k default).x_range_bin)).sum ≤ 31) :
    (ks.map (fun k => (vs.getD k default).bits_nat)).sum ≤ 31 := by
  rw [bits_sum_eq ks h] at hbits
  exact_mod_cast hbits

theorem lookup_size_one {vs : List r_vector} {n k0 : Nat}
    (h : (vs.getD k0 default).FastInt n) :
    lookup_size vs [k0] = (vs.getD k0 default).x_range + 1 := by
  have h1 := h.range_lt
  have h2 := h.range_pos
  unfold lookup_size
  simp only [List.length_singleton, Nat.cast_one, if_true, List.getD_cons_zero]
  exact to_int32_of_range (by omega) (by omega)

/-- A fast-int column has at least one bit. -/
theorem length_le_bits_sum {vs : List r_vector} {n : Nat} (ks : List Nat)
    (h : ∀ k, k ∈ ks → (vs.getD k default).FastInt n) :
    ks.length ≤ (ks.map (fun k => (vs.getD k default).bits_nat)).sum := by
  induction ks with
  | nil => simp
  | cons k ks ih =>
    have hk := h k (List.mem_cons_self _ _)
    have h1 : 1 ≤ (vs.getD k default).bits_nat := by
      by_contra h0
      have hz : (vs.getD k default).bits_nat = 0 := by omega
      have := hk.bits_eq.2
      rw [hz] at this
      have := hk.range_pos
      omega
    have := ih (fun k hk => h k (List.mem_cons_of_mem _ hk))
    simp only [List.length_cons, List.map_cons, List.sum_cons]
    omega

theorem sum_bin_ranges_from {vs : List r_vector} {n : Nat} (ks : List Nat) (s : Nat)
    (h : ∀ k, k ∈ ks → (vs.getD k default).FastInt n)
    (hfit : s + (ks.map (fun k => (vs.getD k default).bits_nat)).sum ≤ 31) :
    ks.foldl (fun s k => to_int32 (s + (vs.getD k default).x_range_bin)) (s : Int) =
      ((s + (ks.map (fun k => (vs.getD k default).bits_nat)).sum : Nat) : Int) := by
  induction ks generalizing s with
  | nil => simp
  | cons k ks ih =>
    simp only [List.map_cons, List.sum_cons] at hfit
    have e : to_int32 ((s : Int) + (vs.getD k default).x_range_bin) =
        ((s + (vs.getD k default).bits_nat : Nat) : Int) := by
      rw [(h k (List.mem_cons_self _ _)).bits_eq.1]
      push_cast
      exact to_int32_of_range (by omega) (by omega)
    rw [List.foldl_cons, e, ih _ (fun k hk => h k (List.mem_cons_of_mem _ hk)) (by omega)]
    simp only [List.map_cons, List.sum_cons]
    congr 1
    omega

/-- The `int` sum of the bits of fast-int columns does not wrap when the bits
are at most 31 together. -/
theorem sum_bin_ranges_eq {vs : List r_vector} {n : Nat} (ks : List Nat)
    (h : ∀ k, k ∈ ks → (vs.getD k default).FastInt n)
    (hfit : (ks.map (fun k => (vs.getD k default).bits_nat)).sum ≤ 31) :
    sum_bin_ranges vs ks =
      (((ks.map (fun k => (vs.getD k default).bits_nat)).sum : Nat) : Int) := by
  have := sum_bin_ranges_from ks 0 h (by omega)
  simp only [Nat.cast_zero, zero_add] at this
  exact this

theorem lookup_size_many {vs : List r_vector} {n : Nat} (ks : List Nat) (hK : 2 ≤ ks.length)
    (h : ∀ k, k ∈ ks → (vs.getD k default).FastInt n)
    (hfit : (ks.map (fun k => (vs.getD k default).bits_nat)).sum ≤ 31) :
    lookup_size vs ks =
      2 ^ ((ks.map (fun k => (vs.getD k default).bits_nat)).sum + ks.length - 1) := by
  have hlen := length_le_bits_sum ks h
  unfold lookup_size
  simp only
  rw [if_neg (by omega), sum_bin_ranges_eq ks h hfit]
  have e : (((ks.map (fun k => (vs.getD k default).bits_nat)).sum : Nat) : Int) +
      (ks.length : Int) - 1 =
      (((ks.map (fun k => (vs.getD k default).bits_nat)).sum + ks.length - 1 : Nat) : Int) := by
    omega
  rw [e, to_int32_of_range (by omega) (by omega), pow2_eq]

/-- Every key of `multiple_ints_to_index` is an entry of its table, when the
fields of the columns have at most 31 bits together. -/
theorem packed_key_lt_lookup_size {vs : List r_vector} {n i : Nat} (ks : List Nat)
    (hne : ks ≠ []) (hi : i < n)
    (h : ∀ k, k ∈ ks → (vs.getD k default).FastInt n)
    (hfit : (ks.map (fun k => (vs.getD k default).bits_nat)).sum ≤ 31) :
    0 ≤ packed_key vs ks i ∧ packed_key vs ks i < lookup_size vs ks := by
  rw [packed_key_eq_pack hi ks h hfit]
  have hb := pack_bounds hi ks h
  refine ⟨hb.1, ?_⟩
  match ks with
  | [] => exact absurd rfl hne
  | [k0] =>
    have h0 := h k0 (by simp)
    rw [lookup_size_one h0, pack_cons]
    have := (UPDATE_V_bounds h0 hi).2
    simp only [pack, zero_mul, add_zero]
    omega
  | k0 :: k1 :: rest =>
    rw [lookup_size_many _ (by simp) h hfit]
    refine lt_of_lt_of_le hb.2 ?_
    exact pow_le_pow_right₀ (by norm_num) (by simp only [List.length_cons]; omega)

theorem first_column_rows {vs : List r_vector} {n : Nat} (ks : List Nat) (hne : ks ≠ [])
    (h : ∀ k, k ∈ ks → (vs.getD k default).FastInt n) :
    (vs.getD (ks.getD 0 0) default).n = n := by
  match ks with
  | [] => exact absurd rfl hne
  | k0 :: rest => exact (h k0 (by simp)).rows

/-- C12 (as amended): the direct-address indexer. For every non-empty list
`all_k` of fast-int columns of `n` rows whose descriptors
satisfy the descriptor invariant and whose `x_range_bin` sum to at most 31,
`multiple_ints_to_index` returns an index in which two rows have the same id
exactly when their normalised values agree in every listed column. The packed
key, on the `K = 1`, `K = 2` and `K >= 3` paths alike, is an injective
function of the tuple of normalised values, and the normalised values of a
column agree exactly when both rows are missing or hold the same integer. -/
theorem direct_address_index_correct (all_vecs : List r_vector) (all_k : List Nat) (n : Nat)
    (init : List Nat) (is_final : Bool) (hne : all_k ≠ [])
    (h : ∀ k, k ∈ all_k → (all_vecs.getD k default).FastInt n)
    (hbits : (all_k.map (fun k => (all_vecs.getD k default).x_range_bin)).sum ≤ 31) :
    (∃ st, multiple_ints_to_index all_vecs all_k init is_final = .ok st ∧
      st.p_index.length = n ∧
      ∀ i j, i < n → j < n → (st.p_index[i]? = st.p_index[j]? ↔
        ∀ k, k ∈ all_k →
          UPDATE_V (all_vecs.getD k default) i = UPDATE_V (all_vecs.getD k default) j)) ∧
    (∀ i j, i < n → j < n →
      (packed_key all_vecs all_k i = packed_key all_vecs all_k j ↔
        ∀ k, k ∈ all_k →
          UPDATE_V (all_vecs.getD k default) i = UPDATE_V (all_vecs.getD k default) j)) ∧
    (∀ k, k ∈ all_k → ∀ i j, i < n → j < n →
      (UPDATE_V (all_vecs.getD k default) i = UPDATE_V (all_vecs.getD k default) j ↔
        (all_vecs.getD k default).is_na i = (all_vecs.getD k default).is_na j ∧
          ((all_vecs.getD k default).is_na i = false →
            (all_vecs.getD k default).int_value i = (all_vecs.getD k default).int_value j))) := by
  have hfit := bits_fit all_k h hbits
  have hinj : ∀ i j, i < n → j < n →
      (packed_key all_vecs all_k i = packed_key all_vecs all_k j ↔
        ∀ k, k ∈ all_k →
          UPDATE_V (all_vecs.getD k default) i = UPDATE_V (all_vecs.getD k default) j) := by
    intro i j hi hj
    rw [packed_key_eq_pack hi all_k h hfit, packed_key_eq_pack hj all_k h hfit]
    exact pack_inj hi hj all_k h
  refine ⟨?_, hinj, fun k hk i j hi hj => UPDATE_V_eq_iff (h k hk) hi hj⟩
  rw [multiple_ints_to_index_eq _ _ _ _ hne, first_column_rows all_k hne h]
  have hs : 0 ≤ lookup_size all_vecs all_k := by
    match all_k with
    | [] => exact absurd rfl hne
    | [k0] =>
      rw [lookup_size_one (h k0 (by simp))]
      have := (h k0 (by simp)).range_pos
      omega
    | k0 :: k1 :: rest =>
      rw [lookup_size_many _ (by simp) h hfit]
      positivity
  obtain ⟨st, h1, h2, h3⟩ := @direct_index_correct (lookup_size all_vecs all_k)
    (packed_key all_vecs all_k) n is_final init hs
    (fun i hi => packed_key_lt_lookup_size all_k hne hi h hfit)
  refine ⟨st, h1, h2.1, ?_⟩
  intro i j hi hj
  rw [h3 i j hi hj]
  exact hinj i j hi hj

theorem example_columns_built :
    descriptors (.VECSXP [.INTSXP [1, 1, 2, 2, 1], .INTSXP [10, 20, 10, 10, 10],
      .INTSXP [NA_INTEGER, NA_INTEGER, 5, 5, NA_INTEGER]]) = .ok (3, 5, example_columns) := rfl

theorem example_columns_fast_int (k : Nat) (hk : k ∈ [0, 1, 2]) :
    (example_columns.getD k default).FastInt 5 := by
  simp only [List.mem_cons, List.mem_singleton, List.not_mem_nil, or_false] at hk
  rcases hk with rfl | rfl | rfl
  · exact ⟨rfl, Or.inl rfl, by decide, by decide, by decide, by decide, by decide, by decide⟩
  · exact ⟨rfl, Or.inl rfl, by decide, by decide, by decide, by decide, by decide, by decide⟩
  · exact ⟨rfl, Or.inl rfl, by decide, by decide, by decide, by decide, by decide, by decide⟩

theorem direct_address_index_correct_witness :
    ([0, 1, 2] ≠ [] ∧ (∀ k, k ∈ [0, 1, 2] → (example_columns.getD k default).FastInt 5) ∧
      ([0, 1, 2].map (fun k => (example_columns.getD k default).x_range_bin)).sum ≤ 31 ∧
      (multiple_ints_to_index example_columns [0, 1, 2] [] true).map
        (fun st => (st.p_index, st.g, st.vec_first_obs)) = .ok ([1, 2, 3, 3, 1], 3, [1, 2, 3])) ∧
    ((∃ st, multiple_ints_to_index example_columns [0, 1, 2] [] true = .ok st ∧
      st.p_index.length = 5 ∧
      ∀ i j, i < 5 → j < 5 → (st.p_index[i]? = st.p_index[j]? ↔
        ∀ k, k ∈ [0, 1, 2] →
          UPDATE_V (example_columns.getD k default) i =
            UPDATE_V (example_columns.getD k default) j)) ∧
    (∀ i j, i < 5 → j < 5 →
      (packed_key example_columns [0, 1, 2] i = packed_key example_columns [0, 1, 2] j ↔
        ∀ k, k ∈ [0, 1, 2] →
          UPDATE_V (example_columns.getD k default) i =
            UPDATE_V (example_columns.getD k default) j)) ∧
    (∀ k, k ∈ [0, 1, 2] → ∀ i j, i < 5 → j < 5 →
      (UPDATE_V (example_columns.getD k default) i =
          UPDATE_V (example_columns.getD k default) j ↔
        (example_columns.getD k default).is_na i = (example_columns.getD k default).is_na j ∧
          ((example_columns.getD k default).is_na i = false →
            (example_columns.getD k default).int_value i =
              (example_columns.getD k default).int_value j)))) :=
  ⟨⟨by decide, example_columns_fast_int, by decide, rfl⟩,
    direct_address_index_correct example_columns [0, 1, 2] 5 [] true (by decide)
      example_columns_fast_int (by decide)⟩

theorem example_columns_33_bits_fast_int (k : Nat) (hk : k ∈ [0, 1]) :
    (example_columns_33_bits.getD k default).FastInt 3 := by
  simp only [List.mem_cons, List.mem_singleton, List.not_mem_nil, or_false] at hk
  rcases hk with rfl | rfl
  · exact ⟨rfl, Or.inl rfl, by decide, by decide, by decide, by decide, by decide, by decide⟩
  · exact ⟨rfl, Or.inl rfl, by decide, by decide, by decide, by decide, by decide, by decide⟩

/-- Counterexample to C12 as stated: the two integer columns `[0, 0, 70000]`
and `[0, 32768, 40000]` are fast-int and their descriptors, built by the
constructor, satisfy the descriptor invariant; their `x_range_bin` are 17 and
16. For row 1 the key is `0 + (32768 << 17)`, and `32768 << 17 = 2^32` does
not fit the `int`: reduced to 32 bits the key is 0, the key of row 0. The
indexer returns `[1, 1, 2]`: rows 0 and 1 share an id although their
normalised values differ in the second column. -/
theorem overflowing_key_merges_rows :
    descriptors (.VECSXP [.INTSXP [0, 0, 70000], .INTSXP [0, 32768, 40000]]) =
      .ok (2, 3, example_columns_33_bits) ∧
    (∀ k, k ∈ [0, 1] → (example_columns_33_bits.getD k default).FastInt 3) ∧
    example_columns_33_bits.map (fun x => x.x_range_bin) = [17, 16] ∧
    (List.range 3).map (packed_key example_columns_33_bits [0, 1]) = [0, 0, 947982704] ∧
    (multiple_ints_to_index example_columns_33_bits [0, 1] [] true).map
      (fun st => (st.p_index, st.g, st.vec_first_obs)) = .ok ([1, 1, 2], 2, [1, 3]) ∧
    UPDATE_V (example_columns_33_bits.getD 1 default) 0 = 0 ∧
    UPDATE_V (example_columns_33_bits.getD 1 default) 1 = 32768 :=
  ⟨rfl, example_columns_33_bits_fast_int, rfl, rfl, rfl, rfl, rfl⟩

/-! ## Size of the table and bounds of the keys -/

theorem pow2_bits_sum {vs : List r_vector} {n : Nat} (ks : List Nat)
    (h : ∀ k, k ∈ ks → (vs.getD k default).FastInt n) :
    pow2 (ks.map (fun k => (vs.getD k default).x_range_bin)).sum =
      2 ^ (ks.map (fun k => (vs.getD k default).bits_nat)).sum := by
  rw [bits_sum_eq ks h, pow2_eq]

theorem composed_table_eq {x : r_vector} {n : Nat} (h : x.FastInt n) (G : Nat) :
    pow2 (x.x_range_bin + power_of_two (G : Int) + 1) =
      2 ^ (x.bits_nat + ceil_log2 (G + 1) + 1) := by
  rw [h.bits_eq.1, (power_of_two_nat G).1]
  have e : (x.bits_nat : Int) + ((ceil_log2 (G + 1) : Nat) : Int) + 1 =
      ((x.bits_nat + ceil_log2 (G + 1) + 1 : Nat) : Int) := by push_cast; rfl
  rw [e, pow2_eq]

theorem composed_bits_fit {x : r_vector} {n : Nat} (h : x.FastInt n) {G : Nat}
    (hbits : x.x_range_bin + power_of_two (G : Int) ≤ 31) :
    ceil_log2 (G + 1) + x.bits_nat ≤ 31 := by
  rw [h.bits_eq.1, (power_of_two_nat G).1] at hbits
  omega

/-- The key of the direct-address branch of `general_type_to_index_double` is
computed without overflow when the two fields have at most 31 bits. -/
theorem composed_key_eq {x : r_vector} {n i G : Nat} {prev : List Nat} (h : x.FastInt n)
    (hi : i < n) (hp : prev.getD i 0 ≤ G)
    (hfit : ceil_log2 (G + 1) + x.bits_nat ≤ 31) :
    composed_key x prev G i =
      (prev.getD i 0 : Int) + UPDATE_V x i * 2 ^ ceil_log2 (G + 1) := by
  unfold composed_key
  rw [(power_of_two_nat G).1]
  have hG : ((prev.getD i 0 : Nat) : Int) < 2 ^ ceil_log2 (G + 1) := by
    have := (power_of_two_nat G).2
    have h2 : prev.getD i 0 < 2 ^ ceil_log2 (G + 1) := by omega
    exact_mod_cast h2
  exact wrap_field (by omega) hG (UPDATE_V_bounds h hi).1 (UPDATE_V_lt h hi) hfit

/-- Every key of the direct-address branch of `general_type_to_index_double`
is an entry of its table. -/
theorem composed_key_bounds {x : r_vector} {n i G : Nat} {prev : List Nat} (h : x.FastInt n)
    (hi : i < n) (hp : prev.getD i 0 ≤ G)
    (hfit : ceil_log2 (G + 1) + x.bits_nat ≤ 31) :
    0 ≤ composed_key x prev G i ∧
      composed_key x prev G i < 2 ^ (x.bits_nat + ceil_log2 (G + 1) + 1) := by
  rw [composed_key_eq h hi hp hfit]
  have b1 := (UPDATE_V_bounds h hi).1
  have b2 := UPDATE_V_lt h hi
  have hG : ((prev.getD i 0 : Nat) : Int) < 2 ^ ceil_log2 (G + 1) := by
    have := (power_of_two_nat G).2
    have h2 : prev.getD i 0 < 2 ^ ceil_log2 (G + 1) := by omega
    exact_mod_cast h2
  refine ⟨add_nonneg (by omega) (mul_nonneg b1 (le_of_lt (two_pow_pos_int _))), ?_⟩
  have h3 := @field_lt _ _ (ceil_log2 (G + 1)) x.bits_nat hG b2
  refine lt_of_lt_of_le h3 ?_
  exact pow_le_pow_right₀ (by norm_num) (by omega)

/-- Two rows have the same key in the direct-address branch of
`general_type_to_index_double` exactly when they have the same previous id
and the same normalised value. -/
theorem composed_key_inj {x : r_vector} {n i j G : Nat} {prev : List Nat} (h : x.FastInt n)
    (hi : i < n) (hj : j < n)
    (hpi : prev.getD i 0 ≤ G) (hpj : prev.getD j 0 ≤ G)
    (hfit : ceil_log2 (G + 1) + x.bits_nat ≤ 31) :
    composed_key x prev G i = composed_key x prev G j ↔
      prev.getD i 0 = prev.getD j 0 ∧ UPDATE_V x i = UPDATE_V x j := by
  rw [composed_key_eq h hi hpi hfit, composed_key_eq h hj hpj hfit]
  have hG := (power_of_two_nat G).2
  have hi : ((prev.getD i 0 : Nat) : Int) < 2 ^ ceil_log2 (G + 1) := by
    have h2 : prev.getD i 0 < 2 ^ ceil_log2 (G + 1) := by omega
    exact_mod_cast h2
  have hj : ((prev.getD j 0 : Nat) : Int) < 2 ^ ceil_log2 (G + 1) := by
    have h2 : prev.getD j 0 < 2 ^ ceil_log2 (G + 1) := by omega
    exact_mod_cast h2
  constructor
  · intro he
    obtain ⟨e1, e2⟩ := field_inj (by omega) hi (by omega) hj he
    exact ⟨by exact_mod_cast e1, e2⟩
  · rintro ⟨e1, e2⟩
    rw [e1, e2]

/-- When `general_type_to_index_double` takes its direct-address branch on a
column of at most 429496729 rows, the two fields of the key have at most 31
bits. -/
theorem do_fast_int_bits {x : r_vector} {G : Nat} (hd : do_fast_int x G = true)
    (hn5 : 5 * x.n < 2 ^ 31) : x.x_range_bin + power_of_two (G : Int) ≤ 31 := by
  unfold do_fast_int at hd
  simp only [Bool.and_eq_true, Bool.or_eq_true, decide_eq_true_eq] at hd
  rcases hd.2 with h | h
  · omega
  · have e : 5 * (x.n : Int) = ((5 * x.n : Nat) : Int) := by push_cast; rfl
    rw [e, (power_of_two_nat (5 * x.n)).1] at h
    have h31 : ceil_log2 (5 * x.n + 1) ≤ 31 := (ceil_log2_spec (5 * x.n + 1)).2 31 (by omega)
    omega

/-- C18 (as amended): the table accesses of the direct-address paths are in
bounds when the fields of a key have at most 31 bits together. For a non-empty
list of fast-int columns of `n` rows that satisfy the
descriptor invariant and whose `x_range_bin` sum to at most 31,
`multiple_ints_to_index` is the direct-address loop over the table of
`lookup_size` entries with the keys `packed_key`, and every key satisfies
`0 <= key < lookup_size`: for `K = 1` the key is at most `x_range - 1` and the
table has `x_range + 1` entries, for `K >= 2` the key is below
`2^(sum of the x_range_bin)`. In the direct-address branch of
`general_type_to_index_double`, every key
`p_index_in[i] + (v << power_of_two(G))` with `p_index_in[i]` in `1..G` lies
in `0 .. 2^(x_range_bin + power_of_two(G) + 1) - 1`, the size of its table,
when `x_range_bin + power_of_two(G) <= 31`, which holds whenever the branch is
taken on a column of at most 429496729 rows. And `2^power_of_two(x) >= x + 1`
for every non-negative `int` `x` (the ranges and the numbers of groups are of
type `int`; the source computes `power_of_two` on a `double`, which is exact
there). -/
theorem direct_address_keys_in_bounds (all_vecs : List r_vector) (all_k : List Nat) (n : Nat)
    (hne : all_k ≠ [])
    (h : ∀ k, k ∈ all_k → (all_vecs.getD k default).FastInt n)
    (hbits : (all_k.map (fun k => (all_vecs.getD k default).x_range_bin)).sum ≤ 31) :
    (∀ init is_final, multiple_ints_to_index all_vecs all_k init is_final =
      direct_index (lookup_size all_vecs all_k) (packed_key all_vecs all_k) n is_final init) ∧
    (∀ i, i < n →
      0 ≤ packed_key all_vecs all_k i ∧ packed_key all_vecs all_k i < lookup_size all_vecs all_k) ∧
    (all_k.length = 1 → ∀ i, i < n →
      packed_key all_vecs all_k i ≤ (all_vecs.getD (all_k.getD 0 0) default).x_range - 1 ∧
      lookup_size all_vecs all_k = (all_vecs.getD (all_k.getD 0 0) default).x_range + 1) ∧
    (2 ≤ all_k.length → ∀ i, i < n →
      packed_key all_vecs all_k i <
        pow2 (all_k.map (fun k => (all_vecs.getD k default).x_range_bin)).sum) ∧
    (∀ (x : r_vector) (p_index_in : List Nat) (G : Nat), x.FastInt n →
      (∀ i, i < n → 1 ≤ p_index_in.getD i 0 ∧ p_index_in.getD i 0 ≤ G) →
      (∀ init is_final, do_fast_int x G = true →
        general_type_to_index_double x p_index_in G init is_final =
          direct_index (pow2 (x.x_range_bin + power_of_two G + 1))
            (composed_key x p_index_in G) n is_final init) ∧
      (do_fast_int x G = true → 5 * n < 2 ^ 31 → x.x_range_bin + power_of_two G ≤ 31) ∧
      (x.x_range_bin + power_of_two G ≤ 31 →
        ∀ i, i < n → 0 ≤ composed_key x p_index_in G i ∧
          composed_key x p_index_in G i < pow2 (x.x_range_bin + power_of_two G + 1))) ∧
    (∀ x : Nat, x < 2 ^ 31 → (x : Int) + 1 ≤ pow2 (power_of_two x)) := by
  have hfit := bits_fit all_k h hbits
  refine ⟨?_, fun i hi => packed_key_lt_lookup_size all_k hne hi h hfit, ?_, ?_, ?_, ?_⟩
  · intro init is_final
    rw [multiple_ints_to_index_eq _ _ _ _ hne, first_column_rows all_k hne h]
  · intro hK i hi
    match all_k with
    | [k0] =>
      have h0 := h k0 (by simp)
      exact ⟨(UPDATE_V_bounds h0 hi).2, lookup_size_one h0⟩
    | [] => exact absurd rfl hne
    | _ :: _ :: _ => simp at hK
  · intro _ i hi
    rw [pow2_bits_sum all_k h, packed_key_eq_pack hi all_k h hfit]
    exact (pack_bounds hi all_k h).2
  · intro x p_index_in G hx hp
    refine ⟨?_, ?_, ?_⟩
    · intro init is_final hd
      rw [general_type_to_index_double_eq, if_pos hd, hx.rows]
    · intro hd h5
      exact do_fast_int_bits hd (by rw [hx.rows]; exact h5)
    · intro hb i hi
      rw [composed_table_eq hx]
      exact composed_key_bounds hx hi (hp i hi).2 (composed_bits_fit hx hb)
  · intro x _
    rw [(power_of_two_nat x).1, pow2_eq]
    have := (power_of_two_nat x).2
    exact_mod_cast this

theorem direct_address_keys_in_bounds_witness :
    ([0, 1, 2] ≠ [] ∧ (∀ k, k ∈ [0, 1, 2] → (example_columns.getD k default).FastInt 5) ∧
      ([0, 1, 2].map (fun k => (example_columns.getD k default).x_range_bin)).sum ≤ 31) ∧
    ((∀ init is_final, multiple_ints_to_index example_columns [0, 1, 2] init is_final =
      direct_index (lookup_size example_columns [0, 1, 2]) (packed_key example_columns [0, 1, 2])
        5 is_final init) ∧
    (∀ i, i < 5 →
      0 ≤ packed_key example_columns [0, 1, 2] i ∧
        packed_key example_columns [0, 1, 2] i < lookup_size example_columns [0, 1, 2]) ∧
    ([0, 1, 2].length = 1 → ∀ i, i < 5 →
      packed_key example_columns [0, 1, 2] i ≤
        (example_columns.getD ([0, 1, 2].getD 0 0) default).x_range - 1 ∧
      lookup_size example_columns [0, 1, 2] =
        (example_columns.getD ([0, 1, 2].getD 0 0) default).x_range + 1) ∧
    (2 ≤ [0, 1, 2].length → ∀ i, i < 5 →
      packed_key example_columns [0, 1, 2] i <
        pow2 ([0, 1, 2].map (fun k => (example_columns.getD k default).x_range_bin)).sum) ∧
    (∀ (x : r_vector) (p_index_in : List Nat) (G : Nat), x.FastInt 5 →
      (∀ i, i < 5 → 1 ≤ p_index_in.getD i 0 ∧ p_index_in.getD i 0 ≤ G) →
      (∀ init is_final, do_fast_int x G = true →
        general_type_to_index_double x p_index_in G init is_final =
          direct_index (pow2 (x.x_range_bin + power_of_two G + 1))
            (composed_key x p_index_in G) 5 is_final init) ∧
      (do_fast_int x G = true → 5 * 5 < 2 ^ 31 → x.x_range_bin + power_of_two G ≤ 31) ∧
      (x.x_range_bin + power_of_two G ≤ 31 →
        ∀ i, i < 5 → 0 ≤ composed_key x p_index_in G i ∧
          composed_key x p_index_in G i < pow2 (x.x_range_bin + power_of_two G + 1))) ∧
    (∀ x : Nat, x < 2 ^ 31 → (x : Int) + 1 ≤ pow2 (power_of_two x))) :=
  ⟨⟨by decide, example_columns_fast_int, by decide⟩,
    direct_address_keys_in_bounds example_columns [0, 1, 2] 5 (by decide)
      example_columns_fast_int (by decide)⟩

theorem example_columns_32_bits_fast_int (k : Nat) (hk : k ∈ [0, 1]) :
    (example_columns_32_bits.getD k default).FastInt 3 := by
  simp only [List.mem_cons, List.mem_singleton, List.not_mem_nil, or_false] at hk
  rcases hk with rfl | rfl
  · exact ⟨rfl, Or.inl rfl, by decide, by decide, by decide, by decide, by decide, by decide⟩
  · exact ⟨rfl, Or.inl rfl, by decide, by decide, by decide, by decide, by decide, by decide⟩

/-- Counterexample to C18 as stated: the two integer columns `[0, 0, 40000]`
and `[0, 32768, 40000]` are fast-int and their descriptors, built by the
constructor, satisfy the descriptor invariant; their `x_range_bin` are 16 and
16, and the table has `2^33` entries. For row 1 the key is
`0 + (32768 << 16)`, and `32768 << 16 = 2^31` does not fit the `int`: reduced
to 32 bits the key is `-2147483648`, which is not in `0 .. lookup_size - 1`,
and the access `int_array[id]` leaves the table. -/
theorem overflowing_key_is_negative :
    descriptors (.VECSXP [.INTSXP [0, 0, 40000], .INTSXP [0, 32768, 40000]]) =
      .ok (2, 3, example_columns_32_bits) ∧
    (∀ k, k ∈ [0, 1] → (example_columns_32_bits.getD k default).FastInt 3) ∧
    example_columns_32_bits.map (fun x => x.x_range_bin) = [16, 16] ∧
    lookup_size example_columns_32_bits [0, 1] = 2 ^ 33 ∧
    packed_key example_columns_32_bits [0, 1] 1 = -2147483648 ∧
    ¬ (0 ≤ packed_key example_columns_32_bits [0, 1] 1) ∧
    (∀ init is_final, multiple_ints_to_index example_columns_32_bits [0, 1] init is_final =
      .error Failure.out_of_bounds) :=
  ⟨rfl, example_columns_32_bits_fast_int, rfl, rfl, rfl, by decide, fun _ _ => rfl⟩

/-! ## An empty list of columns -/

/-- C11: the driver does not reject an empty list of columns. With `K = 0`
the descriptor loop builds no descriptor and raises no error, no column is
selected for the direct-address indexer, `all_k_left` is empty, and the run
goes on to read `all_k_left[0]`, the first element of an empty vector: the
failure `out_of_bounds` of the embedding, which is a failure of the run-time
and not an error raised by the source. -/
theorem empty_list_is_not_rejected :
    descriptors (.VECSXP []) = .ok (0, 0, []) ∧
    id_fast_int_from 0 0 [] 0 0 = [] ∧
    (List.range 0).filter (fun k => !(id_fast_int_from 0 0 [] 0 0).contains k) = [] ∧
    run_stages 0 0 [] = .error Failure.out_of_bounds ∧
    cpp_to_index_main (.VECSXP []) = .error Failure.out_of_bounds ∧
    Failure.runtime Failure.out_of_bounds ∧
    ∀ e, descriptors (.VECSXP []) ≠ .error e :=
  ⟨rfl, rfl, rfl, rfl, rfl, Or.inl rfl, fun _ h => by cases h⟩

/-! ## An integer column wider than an `int` -/

/-- C15: the descriptor of the integer column `[-2147483647, 2147483647]`.
Its largest minus its smallest value plus 2 is `4294967296`, which the `int`
field `x_range` cannot hold: the constructor stores `x_range = 0` and
`NA_value = -1`, the value `v = 2147483647` has `v - x_min = 4294967294`, which
is not below `x_range - 1`, and `is_fast_int` is set although `4294967296` is
neither below 100000 nor at most `2 * n = 4`. The driver then sends the column
to the direct-address indexer, which leaves its table. -/
theorem wide_int_column_range_overflows :
    r_vector.init (.INTSXP [-2147483647, 2147483647]) =
      .ok
        { n := 2, is_fast_int := true, x_range := 0, x_range_bin := 0, x_min := -2147483647,
          type := VType.T_INT, any_na := false, NA_value := -1,
          px_int := [-2147483647, 2147483647] } ∧
    (2147483647 : Int) - (-2147483647) + 2 = 4294967296 ∧
    ¬ ((2147483647 : Int) - (-2147483647) < 0 - 1) ∧
    ¬ ((4294967296 : Int) < 100000 ∨ (4294967296 : Int) ≤ 2 * 2) ∧
    cpp_to_index_main (.vector (.INTSXP [-2147483647, 2147483647])) =
      .error Failure.out_of_bounds :=
  ⟨rfl, by decide, by decide, by decide, rfl⟩

/-! ## The selection of the fast-int columns -/

theorem fits_iff (K n : Nat) (S : Int) :
    fits K n S = true ↔ (S < 17 ∨ (K ≥ 2 ∧ S ≤ power_of_two (5 * (n : Int)))) := by
  unfold fits
  simp only [Bool.or_eq_true, Bool.and_eq_true, decide_eq_true_eq]

/-- The selection keeps the leading fast-int columns that fit; the columns
that are not fast-int play no part in it. -/
theorem id_fast_int_from_eq (K n : Nat) (vs : List r_vector) (k : Nat) (S : Int) :
    id_fast_int_from K n vs k S =
      (fast_columns vs k).take (fit_count K n (vs.filter (fun x => x.is_fast_int)) S) := by
  induction vs generalizing k S with
  | nil => rfl
  | cons x rest ih =>
    unfold id_fast_int_from fast_columns
    by_cases hx : x.is_fast_int = true
    · rw [if_pos hx, if_pos hx, List.filter_cons_of_pos hx]
      unfold fit_count
      simp only
      by_cases hf : fits K n (to_int32 (S + x.x_range_bin)) = true
      · rw [if_pos ((fits_iff _ _ _).mp hf), if_pos hf, List.take_succ_cons, ih]
      · rw [if_neg (fun h => hf ((fits_iff _ _ _).mpr h)), if_neg hf, List.take_zero]
    · rw [if_neg hx, if_neg hx, List.filter_cons_of_neg hx, ih]

theorem mem_fast_columns (vs : List r_vector) (k j : Nat) :
    j ∈ fast_columns vs k ↔
      k ≤ j ∧ j - k < vs.length ∧ (vs.getD (j - k) default).is_fast_int = true := by
  induction vs generalizing k with
  | nil => simp [fast_columns]
  | cons x rest ih =>
    unfold fast_columns
    have hrec : j ∈ fast_columns rest (k + 1) ↔
        k + 1 ≤ j ∧ j - (k + 1) < rest.length ∧
          (rest.getD (j - (k + 1)) default).is_fast_int = true := ih (k + 1)
    by_cases hjk : j = k
    · subst hjk
      have hno : ¬ j ∈ fast_columns rest (j + 1) := by rw [hrec]; omega
      by_cases hx : x.is_fast_int = true
      · rw [if_pos hx]
        simp [hx]
      · rw [if_neg hx]
        simp [hx, hno]
    · have hcore : j ∈ fast_columns rest (k + 1) ↔
          k ≤ j ∧ j - k < (x :: rest).length ∧
            ((x :: rest).getD (j - k) default).is_fast_int = true := by
        rw [hrec]
        by_cases hlt : k < j
        · obtain ⟨d, hd⟩ : ∃ d, j - k = d + 1 := ⟨j - k - 1, by omega⟩
          have hd2 : j - (k + 1) = d := by omega
          rw [hd, hd2, List.getD_cons_succ, List.length_cons]
          constructor
          · rintro ⟨_, h2, h3⟩; exact ⟨by omega, by omega, h3⟩
          · rintro ⟨_, h2, h3⟩; exact ⟨by omega, by omega, h3⟩
        · constructor
          · rintro ⟨h1, _⟩; omega
          · rintro ⟨h1, _⟩; omega
      by_cases hx : x.is_fast_int = true
      · rw [if_pos hx, List.mem_cons, hcore]
        constructor
        · rintro (h | h)
          · exact absurd h hjk
          · exact h
        · intro h; exact Or.inr h
      · rw [if_neg hx, hcore]

/-- C16 (as amended): the columns that the driver sends to the direct-address
indexer are a prefix of the list of the fast-int columns taken in input
order, not of the input columns. Scanning from column 0, a column that is not
`is_fast_int` is passed over and the scan goes on; a fast-int column is
selected as long as the running sum `S` of the `x_range_bin` of the selected
columns satisfies `S < 17` or (`K >= 2` and `S <= power_of_two(5n)`); the scan
stops at the first fast-int column that violates the rule. -/
theorem fast_int_selection (K n : Nat) (all_vecs : List r_vector) :
    id_fast_int_from K n all_vecs 0 0 =
      (fast_columns all_vecs 0).take
        (fit_count K n (all_vecs.filter (fun x => x.is_fast_int)) 0) ∧
    (∀ k, k ∈ fast_columns all_vecs 0 ↔
      k < all_vecs.length ∧ (all_vecs.getD k default).is_fast_int = true) ∧
    (∀ x rest k S, x.is_fast_int = false →
      id_fast_int_from K n (x :: rest) k S = id_fast_int_from K n rest (k + 1) S) ∧
    (∀ x rest k S, x.is_fast_int = true → fits K n (to_int32 (S + x.x_range_bin)) = false →
      id_fast_int_from K n (x :: rest) k S = []) := by
  refine ⟨id_fast_int_from_eq K n all_vecs 0 0, ?_, ?_, ?_⟩
  · intro k
    rw [mem_fast_columns]
    simp
  · intro x rest k S hx
    rw [id_fast_int_from.eq_2, if_neg (by rw [hx]; simp)]
  · intro x rest k S hx hf
    rw [id_fast_int_from.eq_2, if_pos hx]
    simp only
    rw [if_neg (fun h => by rw [(fits_iff _ _ _).mpr h] at hf; cases hf)]

/-- Counterexample to C16 as stated: of the two columns `["a", "b", "a"]`
(strings) and `[1, 1, 2]` (integers) the first is not fast-int and the second
is; the driver selects column 1 alone, which is not a prefix of the columns,
and column 1 is located after column 0, which is not selected. -/
theorem selection_is_not_a_prefix :
    ∃ vs, descriptors (.VECSXP [.STRSXP [5, 6, 5], .INTSXP [1, 1, 2]]) = .ok (2, 3, vs) ∧
      (vs.getD 0 default).is_fast_int = false ∧
      (vs.getD 1 default).is_fast_int = true ∧
      id_fast_int_from 2 3 vs 0 0 = [1] ∧
      cpp_to_index_main (.VECSXP [.STRSXP [5, 6, 5], .INTSXP [1, 1, 2]]) =
        .ok ([1, 2, 3], [1, 2, 3]) :=
  ⟨_, rfl, rfl, rfl, rfl, rfl⟩

/-! ## Tables of up to `2^32` slots -/

theorem next_id_le_of_pos {L : Nat} (hL : 1 ≤ L) (id : Nat) : next_id L id ≤ L := by
  unfold next_id
  simp only
  split_ifs with h
  · exact le_of_lt (Nat.mod_lt _ (by omega))
  · omega

/-- A probe returns when an empty slot lies on its way within the budget,
whatever the size of the table. -/
theorem probe_total_of_pos {L : Nat} {lookup : Nat → Nat} {f : Nat → Bool} (hL : 1 ≤ L)
    {fuel id : Nat} (hid : id ≤ L) (h : ∃ d, d < fuel ∧ lookup ((next_id L)^[d] id) = 0) :
    ∃ s r, probe L lookup f fuel id = .ok (s, r) := by
  induction fuel generalizing id with
  | zero => obtain ⟨d, hd, _⟩ := h; omega
  | succ fuel ih =>
    unfold probe
    simp only
    rw [if_neg (by omega)]
    by_cases h2 : lookup id = 0
    · rw [if_pos h2]; exact ⟨_, _, rfl⟩
    · rw [if_neg h2]
      by_cases h3 : f (lookup id - 1) = true
      · rw [if_pos h3]; exact ⟨_, _, rfl⟩
      · rw [if_neg h3]
        apply ih (next_id_le_of_pos hL id)
        obtain ⟨d, hd, hz⟩ := h
        cases d with
        | zero => exact absurd hz h2
        | succ d =>
          rw [Function.iterate_succ_apply] at hz
          exact ⟨d, by omega, hz⟩

/-- On a table of `2^32` slots the probe goes one slot further modulo
`2^32`: the slot is a `uint32_t` and never exceeds `larger_n`. -/
theorem next_id_full (id : Nat) : next_id (2 ^ 32) id = (id + 1) % 2 ^ 32 := by
  unfold next_id
  simp only
  have := Nat.mod_lt (id + 1) (by norm_num : 0 < 2 ^ 32)
  rw [if_neg (by omega)]

theorem iterate_next_id_full {h : Nat} (hh : h < 2 ^ 32) (d : Nat) :
    (next_id (2 ^ 32))^[d] h = (h + d) % 2 ^ 32 := by
  induction d with
  | zero => rw [Function.iterate_zero, id_eq, Nat.add_zero, Nat.mod_eq_of_lt hh]
  | succ d ih =>
    rw [Function.iterate_succ_apply', ih, next_id_full]
    have e : (2 : Nat) ^ 32 = 4294967296 := by norm_num
    rw [e]
    omega

/-- With fewer rows stored than `2^32`, an empty slot lies on the way of every
probe of a table of `2^32` slots. -/
theorem exists_empty_slot_full {i h : Nat} {lookup : Nat → Nat} (hi : i < 2 ^ 32)
    (hh : h < 2 ^ 32) (hle : ∀ s, lookup s ≠ 0 → lookup s ≤ i)
    (hinj : ∀ s s', lookup s ≠ 0 → lookup s = lookup s' → s = s') :
    ∃ d, d < 2 ^ 32 + 1 ∧ lookup ((next_id (2 ^ 32))^[d] h) = 0 := by
  by_contra hcon
  have e : (2 : Nat) ^ 32 = 4294967296 := by norm_num
  have hocc : ∀ k, k < 2 ^ 32 → lookup k ≠ 0 := by
    intro k hk hz
    apply hcon
    refine ⟨(k + 2 ^ 32 - h) % 2 ^ 32, ?_, ?_⟩
    · have := Nat.mod_lt (k + 2 ^ 32 - h) (by norm_num : 0 < 2 ^ 32)
      omega
    · rw [iterate_next_id_full hh]
      have : (h + (k + 2 ^ 32 - h) % 2 ^ 32) % 2 ^ 32 = k := by
        rw [e] at hk hh ⊢
        omega
      rw [this]
      exact hz
  have hcard := Finset.card_le_card_of_injOn (s := Finset.range (2 ^ 32)) (t := Finset.Icc 1 i)
    lookup
    (by
      intro k hk
      rw [Finset.mem_range] at hk
      rw [Finset.mem_Icc]
      have h1 := hocc k hk
      exact ⟨by omega, hle k h1⟩)
    (by
      intro k hk k' _ heq
      rw [Finset.mem_coe, Finset.mem_range] at hk
      exact hinj k k' (hocc k hk) heq)
  rw [Finset.card_range, Nat.card_Icc] at hcard
  omega

/-- The probe of a row returns when fewer rows are stored than the table has
slots, for the table sizes of the hashing loops: fewer than `2^32 - 1` slots,
or `2^32`. -/
theorem probe_returns {L i h : Nat} {lookup : Nat → Nat} {f : Nat → Bool} (hL : 2 ≤ L)
    (hL2 : L + 1 < 2 ^ 32 ∨ L = 2 ^ 32) (hi : i < L) (hh : h < L)
    (hle : ∀ s, lookup s ≠ 0 → lookup s ≤ i)
    (hinj : ∀ s s', lookup s ≠ 0 → lookup s = lookup s' → s = s') :
    ∃ s r, probe L lookup f (L + 1) h = .ok (s, r) := by
  apply probe_total_of_pos (by omega) (le_of_lt hh)
  rcases hL2 with h1 | h1
  · exact exists_empty_slot hL h1 hi (le_of_lt hh) hle hinj
  · subst h1
    exact exists_empty_slot_full hi hh hle hinj

/-- A hashing loop returns when the table has more slots than there are rows,
and two rows get the same id exactly when the equality test holds for them;
the table may have `2^32` slots. -/
theorem hash_index_correct_wide {L n : Nat} {hash : Nat → Nat} {same : Nat → Nat → Bool}
    {is_final : Bool} {init : List Nat}
    (hL : 2 ≤ L) (hL2 : L + 1 < 2 ^ 32 ∨ L = 2 ^ 32) (hn : n ≤ L)
    (hhb : ∀ a, a < n → hash a < L)
    (hrefl : ∀ a, a < n → same a a = true)
    (hsymm : ∀ a b, a < n → b < n → same a b = true → same b a = true)
    (htrans : ∀ a b c, a < n → b < n → c < n → same a b = true → same b c = true →
      same a c = true)
    (hhash : ∀ a b, a < n → b < n → same a b = true → hash a = hash b) :
    ∃ st, hash_index L hash same n is_final init = .ok st ∧ st.Inv is_final init n ∧
      ∀ a b, a < n → b < n → (st.p_index[a]? = st.p_index[b]? ↔ same a b = true) := by
  obtain ⟨st, h1, h2⟩ := foldlM_range_total (hash_row L hash same is_final)
    (fun i st => Scratch.HashInv L hash same is_final init st i) n (Scratch.start init)
    (Scratch.HashInv.start L hash same is_final init)
    (fun i st hi hinv => by
      obtain ⟨s, r, hp⟩ := @probe_returns L i (hash i) st.lookup (fun obs => same obs i) hL hL2
        (by omega) (hhb i hi) hinv.stored_le hinv.inj
      exact hash_row_correct_of_probe hi hrefl hsymm hhash hinv hp)
  refine ⟨st, h1, h2.inv, ?_⟩
  intro a b ha hb
  obtain ⟨sa, ha1, ha2, ha3⟩ := h2.rep a ha
  obtain ⟨sb, hb1, hb2, hb3⟩ := h2.rep b hb
  have hra := h2.row_lt ha1
  have hrb := h2.row_lt hb1
  constructor
  · intro heq
    rw [ha3, hb3] at heq
    have hss := h2.rep_id sa sb ha1 hb1 heq
    rw [← hss] at hb2
    exact htrans _ _ _ ha (by omega) hb (hsymm _ _ (by omega) ha ha2) hb2
  · intro hab
    have h3 := htrans _ _ _ (by omega) ha hb ha2 hab
    have h4 := htrans _ _ _ (by omega) hb (by omega) h3 (hsymm _ _ (by omega) hb hb2)
    have hss := h2.rep_same sa sb ha1 hb1 h4
    rw [ha3, hb3, hss]

/-- The table of a hashing loop over fewer than `2^31` rows, the largest
number of rows of a vector: at least 256 slots, more than twice the number of
rows, and at most `2^32`. -/
theorem larger_n_wide (n : Nat) (hn : n < 2 ^ 31) :
    2 ≤ (pow2 (shifter_of n)).toNat ∧ 2 * n + 2 ≤ (pow2 (shifter_of n)).toNat ∧
      ((pow2 (shifter_of n)).toNat + 1 < 2 ^ 32 ∨ (pow2 (shifter_of n)).toNat = 2 ^ 32) := by
  obtain ⟨h1, h2, _⟩ := larger_n_bounds n
  refine ⟨h1, h2, ?_⟩
  rw [larger_n_eq]
  have h32 : ceil_log2 (2 * n + 2) ≤ 32 := (ceil_log2_spec (2 * n + 2)).2 32 (by omega)
  have hm : max 8 (ceil_log2 (2 * n + 2)) ≤ 32 := max_le (by omega) h32
  generalize max 8 (ceil_log2 (2 * n + 2)) = s at hm
  by_cases hs : s = 32
  · right; rw [hs]
  · left
    have : 2 ^ s ≤ 2 ^ 31 := Nat.pow_le_pow_right (by omega) (by omega)
    omega

/-- The function `hash_single` returns a slot of the table, for every number
of rows of a vector. -/
theorem hash_single_lt_wide (v n : Nat) (hn : n < 2 ^ 31) :
    hash_single v (shifter_of n) < (pow2 (shifter_of n)).toNat := by
  rw [larger_n_eq, shifter_of_eq]
  unfold hash_single
  have h32 : ceil_log2 (2 * n + 2) ≤ 32 := (ceil_log2_spec (2 * n + 2)).2 32 (by omega)
  have hm : max 8 (ceil_log2 (2 * n + 2)) ≤ 32 := max_le (by omega) h32
  generalize max 8 (ceil_log2 (2 * n + 2)) = s at hm
  have e : (32 - (s : Int)).toNat = 32 - s := by omega
  rw [e, Nat.shiftRight_eq_div_pow]
  apply Nat.div_lt_of_lt_mul
  rw [← Nat.pow_add]
  have : 32 - s + s = 32 := by omega
  rw [this]
  exact Nat.mod_lt _ (by positivity)

/-! ## The probe step -/

theorem iterate_next_id_le {L h : Nat} (hL : 2 ≤ L) (hL2 : L + 1 < 2 ^ 32) (hh : h ≤ L)
    (d : Nat) : (next_id L)^[d] h ≤ L := by
  induction d with
  | zero => exact hh
  | succ d ih =>
    rw [Function.iterate_succ_apply']
    exact next_id_le hL hL2 ih

/-- From any slot the probe reaches each of the slots `1..L`. -/
theorem probe_cycle {L h s : Nat} (hL : 2 ≤ L) (hL2 : L + 1 < 2 ^ 32) (hh : h ≤ L)
    (hs1 : 1 ≤ s) (hs : s ≤ L) : ∃ d, d ≤ L ∧ (next_id L)^[d] h = s := by
  by_cases hle : h ≤ s
  · refine ⟨s - h, by omega, ?_⟩
    rw [iterate_next_id hL hL2 hh _ (by omega), if_pos (by omega)]
    omega
  · refine ⟨s + L - h, by omega, ?_⟩
    rw [iterate_next_id hL hL2 hh _ (by omega), if_neg (by omega)]
    omega

/-- C19 (as amended): the probe step of the hash indexers. With
`slots = 2^bits` and `bits = max(8, ceil(log2(2n + 2)))`, for fewer than `2^30`
rows, a probe that finds a non-matching occupant in slot `slot` advances to
`slot + 1` when `slot < slots`, and from slot `slots`, the last entry of the
table of `slots + 1` entries, to slot 1. The probe sequence therefore visits
slots in `[0, slots]`, the slot visited after `slots - 1` is slot `slots`, and
slot 0 is never visited after another slot. -/
theorem probe_step (n slot : Nat) (hn : n < 2 ^ 30)
    (hs : slot ≤ (pow2 (shifter_of n)).toNat) :
    (pow2 (shifter_of n)).toNat = 2 ^ max 8 (ceil_log2 (2 * n + 2)) ∧
    next_id (pow2 (shifter_of n)).toNat slot =
      (if slot < (pow2 (shifter_of n)).toNat then slot + 1 else 1) ∧
    1 ≤ next_id (pow2 (shifter_of n)).toNat slot ∧
    next_id (pow2 (shifter_of n)).toNat slot ≤ (pow2 (shifter_of n)).toNat ∧
    ∀ d, (next_id (pow2 (shifter_of n)).toNat)^[d] slot ≤ (pow2 (shifter_of n)).toNat := by
  obtain ⟨hL, _, hL2⟩ := larger_n_bounds n
  have he := next_id_eq hL (hL2 hn) hs
  refine ⟨larger_n_eq n, he, ?_, next_id_le hL (hL2 hn) hs,
    fun d => iterate_next_id_le hL (hL2 hn) hs d⟩
  rw [he]
  split_ifs <;> omega

theorem probe_step_witness :
    ((3 : Nat) < 2 ^ 30 ∧ 256 ≤ (pow2 (shifter_of 3)).toNat) ∧
    ((pow2 (shifter_of 3)).toNat = 2 ^ max 8 (ceil_log2 (2 * 3 + 2)) ∧
    next_id (pow2 (shifter_of 3)).toNat 256 =
      (if 256 < (pow2 (shifter_of 3)).toNat then 256 + 1 else 1) ∧
    1 ≤ next_id (pow2 (shifter_of 3)).toNat 256 ∧
    next_id (pow2 (shifter_of 3)).toNat 256 ≤ (pow2 (shifter_of 3)).toNat ∧
    ∀ d, (next_id (pow2 (shifter_of 3)).toNat)^[d] 256 ≤ (pow2 (shifter_of 3)).toNat) :=
  ⟨⟨by decide, by decide⟩, probe_step 3 256 (by decide) (by decide)⟩

/-- Counterexample to C19 as stated: the integer column `[108, 499, 200111]`
is not fast-int, so the driver indexes it with
`general_type_to_index_single`; it has `bits = 8` and `slots = 256`, and the
three values hash to slot 255. The step from slot 255 leads to slot 256, which
is not `(255 + 1) mod 256 = 0` and not in `[0, slots)`, and the step from slot
256 leads to slot 1: after the run, row 1 is stored in slot 255, row 2 in slot
256, row 3 in slot 1, and slot 0 is empty. -/
theorem probe_visits_slot_256 :
    ∃ x, r_vector.init (.INTSXP [108, 499, 200111]) = .ok x ∧ x.is_fast_int = false ∧
      (pow2 (shifter_of x.n)).toNat = 256 ∧
      (List.range 3).map (fun i => hash_single (hash_value x i) (shifter_of x.n)) =
        [255, 255, 255] ∧
      next_id 256 255 = 256 ∧ (255 + 1) % 256 = 0 ∧ next_id 256 256 = 1 ∧
      (general_type_to_index_single x [] true).map
        (fun st => (st.lookup 255, st.lookup 256, st.lookup 1, st.lookup 0, st.p_index)) =
          .ok (1, 2, 3, 0, [1, 2, 3]) ∧
      cpp_to_index_main (.vector (.INTSXP [108, 499, 200111])) = .ok ([1, 2, 3], [1, 2, 3]) :=
  ⟨_, rfl, rfl, rfl, rfl, rfl, rfl, rfl, rfl, rfl⟩

/-! ## The probe loops return -/

/-- A hashing loop returns with at most one stored row per row seen. -/
theorem hash_index_total_inv {L n : Nat} {hash : Nat → Nat} {same : Nat → Nat → Bool}
    {is_final : Bool} {init : List Nat} (hL : 2 ≤ L) (hL2 : L + 1 < 2 ^ 32) (hn : n ≤ L)
    (hhb : ∀ a, a < n → hash a ≤ L) :
    ∃ st, hash_index L hash same n is_final init = .ok st ∧
      (∀ s, st.lookup s ≠ 0 → st.lookup s ≤ n) ∧
      ∀ s s', st.lookup s ≠ 0 → st.lookup s = st.lookup s' → s = s' := by
  obtain ⟨st, h1, h2⟩ := foldlM_range_total (hash_row L hash same is_final)
    (fun i st => st.Inv is_final init i ∧ (∀ s, st.lookup s ≠ 0 → st.lookup s ≤ i) ∧
      ∀ s s', st.lookup s ≠ 0 → st.lookup s = st.lookup s' → s = s')
    n (Scratch.start init)
    ⟨Scratch.start_inv is_final init, by intro s h; exact absurd rfl h,
      by intro s s' h; exact absurd rfl h⟩
    (fun i st hi hinv => hash_row_total hL hL2 (by omega) (hhb i hi) hinv)
  exact ⟨st, h1, h2.2.1, h2.2.2⟩

/-- The probe of row `i`, started after the rows before `i`, stops in a slot
of the table, which is empty or holds a matching row. -/
theorem probe_of_row {L n i : Nat} {hash : Nat → Nat} {same : Nat → Nat → Bool}
    {is_final : Bool} {init : List Nat} (hL : 2 ≤ L) (hL2 : L + 1 < 2 ^ 32) (hn : n < L)
    (hhb : ∀ a, a < n → hash a ≤ L) (hi : i < n) :
    ∃ st s r, hash_index L hash same i is_final init = .ok st ∧
      probe L st.lookup (fun obs => same obs i) (L + 1) (hash i) = .ok (s, r) ∧ s ≤ L ∧
      ((r = none ∧ st.lookup s = 0) ∨
        (r = some (st.lookup s - 1) ∧ st.lookup s ≠ 0 ∧ same (st.lookup s - 1) i = true)) := by
  obtain ⟨st, h1, hle, hinj⟩ := @hash_index_total_inv L i hash same is_final init hL hL2
    (by omega) (fun a ha => hhb a (by omega))
  obtain ⟨d0, hd0, hz⟩ := exists_empty_slot hL hL2 (by omega) (hhb i hi) hle hinj
  obtain ⟨s, r, hp⟩ := @probe_total L st.lookup (fun obs => same obs i) hL hL2 (L + 1)
    (hash i) (hhb i hi) ⟨d0, hd0, hz⟩
  obtain ⟨d, _, hs, _, hend⟩ := probe_spec hp
  refine ⟨st, s, r, h1, hp, ?_, hend⟩
  rw [hs]
  exact iterate_next_id_le hL hL2 (hhb i hi) d

/-- C20: the probe loops terminate and stay in bounds. For every column `x`
of fewer than `2^30` rows, `general_type_to_index_single` returns, and so does
`general_type_to_index_double` when it takes its hash branch, whatever the
previous index is: no probe runs for ever and no slot outside the table of
`slots + 1` entries is read or written. For every row `i`, the probe started
after the rows before `i` stops, within `slots + 1` steps, in a slot of
`0..slots` that is empty or holds a matching row. The reasons: the table has
more than `2n` slots and at most one slot is occupied per row seen, and from
any slot the probe reaches each of the slots `1..slots`. -/
theorem probe_loops_terminate (x : r_vector) (init : List Nat) (is_final : Bool)
    (hn : x.n < 2 ^ 30) :
    (∃ st, general_type_to_index_single x init is_final = .ok st) ∧
    (∀ p_index_in n_groups, do_fast_int x n_groups = false →
      ∃ st, general_type_to_index_double x p_index_in n_groups init is_final = .ok st) ∧
    (∀ i, i < x.n → ∃ st s r,
      hash_index (pow2 (shifter_of x.n)).toNat
        (fun i => hash_single (hash_value x i) (shifter_of x.n)) (same_value x) i is_final init =
          .ok st ∧
      probe (pow2 (shifter_of x.n)).toNat st.lookup (fun obs => same_value x obs i)
        ((pow2 (shifter_of x.n)).toNat + 1)
        (hash_single (hash_value x i) (shifter_of x.n)) = .ok (s, r) ∧
      s ≤ (pow2 (shifter_of x.n)).toNat ∧
      ((r = none ∧ st.lookup s = 0) ∨
        (r = some (st.lookup s - 1) ∧ st.lookup s ≠ 0 ∧
          same_value x (st.lookup s - 1) i = true))) ∧
    (∀ (p_index_in : List Nat) i, i < x.n → ∃ st s r,
      hash_index (pow2 (shifter_of x.n)).toNat
        (fun i => hash_double (hash_value x i) (p_index_in.getD i 0) (shifter_of x.n))
        (fun obs i => same_value x obs i && p_index_in.getD obs 0 == p_index_in.getD i 0)
        i is_final init = .ok st ∧
      probe (pow2 (shifter_of x.n)).toNat st.lookup
        (fun obs => same_value x obs i && p_index_in.getD obs 0 == p_index_in.getD i 0)
        ((pow2 (shifter_of x.n)).toNat + 1)
        (hash_double (hash_value x i) (p_index_in.getD i 0) (shifter_of x.n)) = .ok (s, r) ∧
      s ≤ (pow2 (shifter_of x.n)).toNat ∧
      ((r = none ∧ st.lookup s = 0) ∨
        (r = some (st.lookup s - 1) ∧ st.lookup s ≠ 0 ∧
          (same_value x (st.lookup s - 1) i &&
            p_index_in.getD (st.lookup s - 1) 0 == p_index_in.getD i 0) = true))) ∧
    2 * x.n < (pow2 (shifter_of x.n)).toNat ∧
    (∀ h s, h ≤ (pow2 (shifter_of x.n)).toNat → 1 ≤ s → s ≤ (pow2 (shifter_of x.n)).toNat →
      ∃ d, d ≤ (pow2 (shifter_of x.n)).toNat ∧ (next_id (pow2 (shifter_of x.n)).toNat)^[d] h = s) := by
  obtain ⟨hL, hL1, hL2⟩ := larger_n_bounds x.n
  have hL3 := hL2 hn
  refine ⟨general_type_to_index_single_total hn, ?_, ?_, ?_, by omega, ?_⟩
  · intro p_index_in n_groups hd
    rw [general_type_to_index_double_eq, if_neg (by rw [hd]; simp)]
    exact hash_index_total hL hL3 (by omega) (fun a _ => le_of_lt (hash_double_lt _ _ _ hn))
  · intro i hi
    exact probe_of_row hL hL3 (by omega) (fun a _ => le_of_lt (hash_single_lt _ _ hn)) hi
  · intro p_index_in i hi
    exact @probe_of_row (pow2 (shifter_of x.n)).toNat x.n i
      (fun i => hash_double (hash_value x i) (p_index_in.getD i 0) (shifter_of x.n))
      (fun obs i => same_value x obs i && p_index_in.getD obs 0 == p_index_in.getD i 0)
      is_final init hL hL3 (by omega) (fun a _ => le_of_lt (hash_double_lt _ _ _ hn)) hi
  · intro h s hh hs1 hs
    exact probe_cycle hL hL3 hh hs1 hs

theorem example_wide_column_built :
    r_vector.init (.INTSXP [108, 499, 200111]) = .ok example_wide_column := rfl

theorem probe_loops_terminate_witness :
    example_wide_column.n < 2 ^ 30 ∧
    ((∃ st, general_type_to_index_single example_wide_column [] true = .ok st) ∧
    (∀ p_index_in n_groups, do_fast_int example_wide_column n_groups = false →
      ∃ st, general_type_to_index_double example_wide_column p_index_in n_groups [] true =
        .ok st) ∧
    (∀ i, i < 3 → ∃ st s r,
      hash_index 256 (fun i => hash_single (hash_value example_wide_column i) 8)
        (same_value example_wide_column) i true [] = .ok st ∧
      probe 256 st.lookup (fun obs => same_value example_wide_column obs i) (256 + 1)
        (hash_single (hash_value example_wide_column i) 8) = .ok (s, r) ∧
      s ≤ 256 ∧
      ((r = none ∧ st.lookup s = 0) ∨
        (r = some (st.lookup s - 1) ∧ st.lookup s ≠ 0 ∧
          same_value example_wide_column (st.lookup s - 1) i = true))) ∧
    (∀ (p_index_in : List Nat) i, i < 3 → ∃ st s r,
      hash_index 256
        (fun i => hash_double (hash_value example_wide_column i) (p_index_in.getD i 0) 8)
        (fun obs i =>
          same_value example_wide_column obs i && p_index_in.getD obs 0 == p_index_in.getD i 0)
        i true [] = .ok st ∧
      probe 256 st.lookup
        (fun obs =>
          same_value example_wide_column obs i && p_index_in.getD obs 0 == p_index_in.getD i 0)
        (256 + 1) (hash_double (hash_value example_wide_column i) (p_index_in.getD i 0) 8) =
          .ok (s, r) ∧
      s ≤ 256 ∧
      ((r = none ∧ st.lookup s = 0) ∨
        (r = some (st.lookup s - 1) ∧ st.lookup s ≠ 0 ∧
          (same_value example_wide_column (st.lookup s - 1) i &&
            p_index_in.getD (st.lookup s - 1) 0 == p_index_in.getD i 0) = true))) ∧
    2 * 3 < 256 ∧
    (∀ h s, h ≤ 256 → 1 ≤ s → s ≤ 256 → ∃ d, d ≤ 256 ∧ (next_id 256)^[d] h = s)) :=
  ⟨by decide, probe_loops_terminate example_wide_column [] true (by decide)⟩

/-! ## The number of groups -/

/-- Two functions that identify the same elements of a finite set have
images of the same size. -/
theorem card_image_eq_of_iff {α β : Type} [DecidableEq α] [DecidableEq β] (s : Finset Nat)
    (f : Nat → α) (g : Nat → β)
    (h : ∀ a b, a ∈ s → b ∈ s → (f a = f b ↔ g a = g b)) :
    (s.image f).card = (s.image g).card := by
  have key : ∀ {γ δ : Type} [DecidableEq γ] [DecidableEq δ] (u : Nat → γ) (v : Nat → δ),
      (∀ a b, a ∈ s → b ∈ s → u a = u b → v a = v b) →
      (s.image fun a => (u a, v a)).card = (s.image u).card := by
    intro γ δ _ _ u v huv
    have himg : (s.image fun a => (u a, v a)).image Prod.fst = s.image u := by
      rw [Finset.image_image]; rfl
    rw [← himg]
    symm
    apply Finset.card_image_of_injOn
    intro p hp q hq hpq
    simp only [Finset.coe_image, Set.mem_image, Finset.mem_coe] at hp hq
    obtain ⟨a, ha, rfl⟩ := hp
    obtain ⟨b, hb, rfl⟩ := hq
    simp only at hpq
    exact Prod.ext hpq (huv a b ha hb hpq)
  have h1 := key f g (fun a b ha hb => (h a b ha hb).mp)
  have h2 := key g f (fun a b ha hb => (h a b ha hb).mpr)
  have h3 : (s.image fun a => (f a, g a)).card = (s.image fun a => (g a, f a)).card := by
    have : (s.image fun a => (g a, f a)) = (s.image fun a => (f a, g a)).image Prod.swap := by
      rw [Finset.image_image]; rfl
    rw [this, Finset.card_image_of_injective _ Prod.swap_injective]
  rw [← h1, h3, h2]

/-- The ids of a numbered index of `n` rows are `1..G`. -/
theorem Numbered.image_ids {idx fo : List Nat} (h : Numbered idx fo) :
    (Finset.range idx.length).image (fun a => idx.getD a 0) = Finset.Icc 1 fo.length := by
  ext v
  rw [Finset.mem_Icc, ← h.mem_iff v, Finset.mem_image]
  constructor
  · rintro ⟨a, ha, rfl⟩
    rw [Finset.mem_range] at ha
    rw [List.getD_eq_getElem _ _ ha]
    exact List.getElem_mem ha
  · intro hv
    obtain ⟨a, ha, rfl⟩ := List.getElem_of_mem hv
    exact ⟨a, Finset.mem_range.mpr ha, List.getD_eq_getElem _ _ ha⟩

/-- When two rows share an id exactly when they hold the same value, the
number of groups is the number of distinct values. -/
theorem groups_count {α : Type} [DecidableEq α] {st : Scratch} {is_final : Bool}
    {init : List Nat} {n : Nat} (val : Nat → α) (hinv : st.Inv is_final init n)
    (h : ∀ a b, a < n → b < n → (st.p_index[a]? = st.p_index[b]? ↔ val a = val b)) :
    st.g = ((List.range n).map val).toFinset.card := by
  obtain ⟨hlen, fo, hnum, hg, _⟩ := hinv
  have e1 : ((List.range n).map val).toFinset = (Finset.range n).image val := by
    ext v
    simp only [List.mem_toFinset, List.mem_map, List.mem_range, Finset.mem_image,
      Finset.mem_range]
  have e2 := hnum.image_ids
  rw [hlen] at e2
  have e3 := card_image_eq_of_iff (Finset.range n) (fun a => st.p_index.getD a 0) val (by
    intro a b ha hb
    rw [Finset.mem_range] at ha hb
    beta_reduce
    rw [← h a b ha hb, List.getElem?_eq_getElem (by omega), List.getElem?_eq_getElem (by omega),
      List.getD_eq_getElem _ _ (by omega), List.getD_eq_getElem _ _ (by omega)]
    simp)
  rw [e1, ← e3, e2, Nat.card_Icc, hg]
  omega

/-! ## Hashing an integer or a string column -/

theorem same_value_int {x : r_vector} (ht : x.type = VType.T_INT) (a b : Nat) :
    same_value x a b = true ↔ x.px_int.getD a 0 = x.px_int.getD b 0 := by
  unfold same_value
  rw [ht]
  simp

theorem same_value_str {x : r_vector} (ht : x.type = VType.T_STR) (a b : Nat) :
    same_value x a b = true ↔ x.px_intptr.getD a 0 = x.px_intptr.getD b 0 := by
  unfold same_value
  rw [ht]
  simp

theorem hash_value_int {x : r_vector} (ht : x.type = VType.T_INT) (a : Nat) :
    hash_value x a = to_uint32 (x.px_int.getD a 0) := by
  unfold hash_value
  rw [ht]

theorem hash_value_str {x : r_vector} (ht : x.type = VType.T_STR) (a : Nat) :
    hash_value x a = x.px_intptr.getD a 0 % 2 ^ 32 := by
  unfold hash_value
  rw [ht]

/-- On an integer or a string column the equality test of the probe is an
equivalence, and rows that are equal contribute the same value to the
hash. -/
theorem same_value_equiv {x : r_vector} (ht : x.type = VType.T_INT ∨ x.type = VType.T_STR) :
    (∀ a, same_value x a a = true) ∧
    (∀ a b, same_value x a b = true → same_value x b a = true) ∧
    (∀ a b c, same_value x a b = true → same_value x b c = true → same_value x a c = true) ∧
    (∀ a b, same_value x a b = true → hash_value x a = hash_value x b) := by
  rcases ht with ht | ht
  · refine ⟨fun a => (same_value_int ht a a).mpr rfl,
      fun a b h => (same_value_int ht b a).mpr ((same_value_int ht a b).mp h).symm,
      fun a b c h1 h2 => (same_value_int ht a c).mpr
        (((same_value_int ht a b).mp h1).trans ((same_value_int ht b c).mp h2)),
      fun a b h => ?_⟩
    rw [hash_value_int ht, hash_value_int ht, (same_value_int ht a b).mp h]
  · refine ⟨fun a => (same_value_str ht a a).mpr rfl,
      fun a b h => (same_value_str ht b a).mpr ((same_value_str ht a b).mp h).symm,
      fun a b c h1 h2 => (same_value_str ht a c).mpr
        (((same_value_str ht a b).mp h1).trans ((same_value_str ht b c).mp h2)),
      fun a b h => ?_⟩
    rw [hash_value_str ht, hash_value_str ht, (same_value_str ht a b).mp h]

/-- C13: the single-column hash indexer. For every integer or string column
`x` of `n` rows, `n` being an `int` (`0 <= n < 2^31`),
`general_type_to_index_single` returns an index of `n` rows in which two rows
have the same id exactly when they hold the same value (the same `int`, the
same string handle), and `n_groups` is the number of distinct values of the
column. The statement holds for all columns, hence however the hash values of
the rows collide. -/
theorem single_column_hash_index (x : r_vector) (init : List Nat) (is_final : Bool)
    (ht : x.type = VType.T_INT ∨ x.type = VType.T_STR) (hn : x.n < 2 ^ 31) :
    ∃ st, general_type_to_index_single x init is_final = .ok st ∧
      st.p_index.length = x.n ∧
      (x.type = VType.T_INT →
        (∀ i j, i < x.n → j < x.n →
          (st.p_index[i]? = st.p_index[j]? ↔ x.px_int.getD i 0 = x.px_int.getD j 0)) ∧
        st.g = ((List.range x.n).map (fun i => x.px_int.getD i 0)).toFinset.card) ∧
      (x.type = VType.T_STR →
        (∀ i j, i < x.n → j < x.n →
          (st.p_index[i]? = st.p_index[j]? ↔ x.px_intptr.getD i 0 = x.px_intptr.getD j 0)) ∧
        st.g = ((List.range x.n).map (fun i => x.px_intptr.getD i 0)).toFinset.card) := by
  obtain ⟨hL, hL1, hL2⟩ := larger_n_wide x.n hn
  obtain ⟨e1, e2, e3, e4⟩ := same_value_equiv ht
  obtain ⟨st, h1, h2, h3⟩ := @hash_index_correct_wide (pow2 (shifter_of x.n)).toNat x.n
    (fun i => hash_single (hash_value x i) (shifter_of x.n)) (same_value x) is_final init
    hL hL2 (by omega) (fun a _ => hash_single_lt_wide _ _ hn)
    (fun a _ => e1 a) (fun a b _ _ => e2 a b) (fun a b c _ _ _ => e3 a b c)
    (fun a b _ _ h => by beta_reduce; rw [e4 a b h])
  refine ⟨st, h1, h2.1, ?_, ?_⟩
  · intro hx
    have h4 : ∀ i j, i < x.n → j < x.n →
        (st.p_index[i]? = st.p_index[j]? ↔ x.px_int.getD i 0 = x.px_int.getD j 0) := by
      intro i j hi hj
      rw [h3 i j hi hj, same_value_int hx]
    exact ⟨h4, groups_count _ h2 h4⟩
  · intro hx
    have h4 : ∀ i j, i < x.n → j < x.n →
        (st.p_index[i]? = st.p_index[j]? ↔ x.px_intptr.getD i 0 = x.px_intptr.getD j 0) := by
      intro i j hi hj
      rw [h3 i j hi hj, same_value_str hx]
    exact ⟨h4, groups_count _ h2 h4⟩

theorem example_string_column_built :
    r_vector.init (.STRSXP [1000, 2000, 1000, 3000, 2000]) = .ok example_string_column := rfl

theorem single_column_hash_index_witness :
    ((example_string_column.type = VType.T_INT ∨ example_string_column.type = VType.T_STR) ∧
      example_string_column.n < 2 ^ 31 ∧
      (general_type_to_index_single example_string_column [] true).map
        (fun st => (st.p_index, st.g, st.vec_first_obs)) = .ok ([1, 2, 1, 3, 2], 3, [1, 2, 4])) ∧
    ∃ st, general_type_to_index_single example_string_column [] true = .ok st ∧
      st.p_index.length = example_string_column.n ∧
      (example_string_column.type = VType.T_INT →
        (∀ i j, i < example_string_column.n → j < example_string_column.n →
          (st.p_index[i]? = st.p_index[j]? ↔
            example_string_column.px_int.getD i 0 = example_string_column.px_int.getD j 0)) ∧
        st.g = ((List.range example_string_column.n).map
          (fun i => example_string_column.px_int.getD i 0)).toFinset.card) ∧
      (example_string_column.type = VType.T_STR →
        (∀ i j, i < example_string_column.n → j < example_string_column.n →
          (st.p_index[i]? = st.p_index[j]? ↔
            example_string_column.px_intptr.getD i 0 =
              example_string_column.px_intptr.getD j 0)) ∧
        st.g = ((List.range example_string_column.n).map
          (fun i => example_string_column.px_intptr.getD i 0)).toFinset.card) :=
  ⟨⟨Or.inr rfl, by decide, rfl⟩,
    single_column_hash_index example_string_column [] true (Or.inr rfl) (by decide)⟩

/-! ## Composing a column with a previous index -/

/-- On a fast-int column of type `T_INT`, two rows have the same normalised
value exactly when they hold the same `int`. -/
theorem UPDATE_V_int_eq_iff {x : r_vector} {n i j : Nat} (h : x.FastInt n)
    (ht : x.type = VType.T_INT) (hi : i < n) (hj : j < n) :
    UPDATE_V x i = UPDATE_V x j ↔ x.px_int.getD i 0 = x.px_int.getD j 0 := by
  rw [UPDATE_V_eq_iff h hi hj]
  unfold r_vector.is_na r_vector.int_value
  rw [if_pos ht, if_pos ht, if_pos ht, if_pos ht]
  generalize x.px_int.getD i 0 = a
  generalize x.px_int.getD j 0 = b
  by_cases h1 : a = NA_INTEGER <;> by_cases h2 : b = NA_INTEGER
  · rw [decide_eq_true h1, decide_eq_true h2, h1, h2]
    exact ⟨fun _ => rfl, fun _ => ⟨rfl, fun h3 => by cases h3⟩⟩
  · rw [decide_eq_true h1, decide_eq_false h2]
    constructor
    · rintro ⟨h3, _⟩; cases h3
    · intro h3; rw [h1] at h3; exact absurd h3.symm h2
  · rw [decide_eq_false h1, decide_eq_true h2]
    constructor
    · rintro ⟨h3, _⟩; cases h3
    · intro h3; rw [h2] at h3; exact absurd h3 h1
  · rw [decide_eq_false h1, decide_eq_false h2]
    exact ⟨fun h3 => h3.2 rfl, fun h3 => ⟨rfl, fun _ => h3⟩⟩

/-- The index written by `general_type_to_index_double` for an integer or a
string column: two rows share an id exactly when the equality test of the
column holds and they have the same previous id. -/
theorem general_type_to_index_double_correct {x : r_vector} {p_index_in : List Nat}
    {n_groups : Nat} {init : List Nat} {is_final : Bool}
    (ht : x.type = VType.T_INT ∨ x.type = VType.T_STR) (hn5 : 5 * x.n < 2 ^ 31)
    (hfast : x.is_fast_int = true → x.FastInt x.n)
    (hprev : ∀ i, i < x.n → p_index_in.getD i 0 ≤ n_groups) :
    ∃ st, general_type_to_index_double x p_index_in n_groups init is_final = .ok st ∧
      st.Inv is_final init x.n ∧
      ∀ i j, i < x.n → j < x.n → (st.p_index[i]? = st.p_index[j]? ↔
        (same_value x i j = true ∧ p_index_in.getD i 0 = p_index_in.getD j 0)) := by
  have hn : x.n < 2 ^ 30 := by omega
  rw [general_type_to_index_double_eq]
  by_cases hd : do_fast_int x n_groups = true
  · rw [if_pos hd]
    have hf : x.is_fast_int = true := by
      unfold do_fast_int at hd
      rw [Bool.and_eq_true] at hd
      exact hd.1
    have hx := hfast hf
    have hti : x.type = VType.T_INT := by
      rcases ht with ht | ht
      · exact ht
      · rcases hx.kind with h | h <;> rw [ht] at h <;> cases h
    have hsize := composed_table_eq hx n_groups
    have hfit := composed_bits_fit hx (do_fast_int_bits hd hn5)
    obtain ⟨st, h1, h2, h3⟩ := @direct_index_correct
      (pow2 (x.x_range_bin + power_of_two n_groups + 1)) (composed_key x p_index_in n_groups)
      x.n is_final init (by rw [hsize]; positivity)
      (fun i hi => by rw [hsize]; exact composed_key_bounds hx hi (hprev i hi) hfit)
    refine ⟨st, h1, h2, ?_⟩
    intro i j hi hj
    rw [h3 i j hi hj, composed_key_inj hx hi hj (hprev i hi) (hprev j hj) hfit,
      UPDATE_V_int_eq_iff hx hti hi hj, same_value_int hti]
    exact and_comm
  · rw [if_neg hd]
    obtain ⟨hL, hL1, hL2⟩ := larger_n_bounds x.n
    obtain ⟨e1, e2, e3, e4⟩ := same_value_equiv ht
    obtain ⟨st, h1, h2, h3⟩ := @hash_index_correct (pow2 (shifter_of x.n)).toNat x.n
      (fun i => hash_double (hash_value x i) (p_index_in.getD i 0) (shifter_of x.n))
      (fun obs i => same_value x obs i && p_index_in.getD obs 0 == p_index_in.getD i 0)
      is_final init hL (hL2 hn) (by omega) (fun a _ => le_of_lt (hash_double_lt _ _ _ hn))
      (fun a _ => by simp [e1 a])
      (fun a b _ _ h => by
        simp only [Bool.and_eq_true, beq_iff_eq] at h ⊢
        exact ⟨e2 a b h.1, h.2.symm⟩)
      (fun a b c _ _ _ h1 h2 => by
        simp only [Bool.and_eq_true, beq_iff_eq] at h1 h2 ⊢
        exact ⟨e3 a b c h1.1 h2.1, h1.2.trans h2.2⟩)
      (fun a b _ _ h => by
        simp only [Bool.and_eq_true, beq_iff_eq] at h
        beta_reduce
        rw [e4 a b h.1, h.2])
    refine ⟨st, h1, h2, ?_⟩
    intro i j hi hj
    rw [h3 i j hi hj]
    simp only [Bool.and_eq_true, beq_iff_eq]

/-- The output of a composition has at least as many groups as the previous
index. -/
theorem card_le_of_pairs {α : Type} [DecidableEq α] (n : Nat) (val : Nat → α)
    (prev : Nat → Nat) :
    ((List.range n).map prev).toFinset.card ≤
      ((List.range n).map (fun i => (val i, prev i))).toFinset.card := by
  have e : ((List.range n).map prev).toFinset =
      (((List.range n).map (fun i => (val i, prev i))).toFinset).image Prod.snd := by
    ext v
    simp only [List.mem_toFinset, List.mem_map, List.mem_range, Finset.mem_image, Prod.exists,
      Prod.mk.injEq, exists_eq_right]
    constructor
    · rintro ⟨a, ha, rfl⟩; exact ⟨val a, a, ha, rfl, rfl⟩
    · rintro ⟨_, a, ha, _, rfl⟩; exact ⟨a, ha, rfl⟩
  rw [e]
  exact Finset.card_image_le

/-- The composed indexer on a column with a valid descriptor. Let `x` be an
integer or a string column of at most 429496729 rows (`5n < 2^31`), whose
descriptor satisfies the descriptor invariant if it is fast-int, and let
`p_index_in` hold ids in `1..n_groups`. Then
`general_type_to_index_double` returns an index `out` of `n` rows with
`out[i] = out[j]` exactly when rows `i` and `j` hold the same value and have
the same previous id; the ids of `out` are exactly `1..G_out` with `G_out` the
returned `n_groups`, they are numbered in order of first appearance, `G_out`
is the number of distinct pairs (value, previous id), and it is at least the
number of groups of the previous index, which is `n_groups` on entry. The
function receives the one column and the previous index only: no earlier
column is read. -/
theorem composed_index_correct (x : r_vector) (p_index_in : List Nat) (n_groups : Nat)
    (init : List Nat) (is_final : Bool)
    (ht : x.type = VType.T_INT ∨ x.type = VType.T_STR) (hn : 5 * x.n < 2 ^ 31)
    (hfast : x.is_fast_int = true → x.FastInt x.n)
    (hprev : ∀ i, i < x.n → 1 ≤ p_index_in.getD i 0 ∧ p_index_in.getD i 0 ≤ n_groups) :
    ∃ st, general_type_to_index_double x p_index_in n_groups init is_final = .ok st ∧
      st.p_index.length = x.n ∧
      (x.type = VType.T_INT →
        (∀ i j, i < x.n → j < x.n → (st.p_index[i]? = st.p_index[j]? ↔
          (x.px_int.getD i 0 = x.px_int.getD j 0 ∧
            p_index_in.getD i 0 = p_index_in.getD j 0))) ∧
        st.g = ((List.range x.n).map
          (fun i => (x.px_int.getD i 0, p_index_in.getD i 0))).toFinset.card) ∧
      (x.type = VType.T_STR →
        (∀ i j, i < x.n → j < x.n → (st.p_index[i]? = st.p_index[j]? ↔
          (x.px_intptr.getD i 0 = x.px_intptr.getD j 0 ∧
            p_index_in.getD i 0 = p_index_in.getD j 0))) ∧
        st.g = ((List.range x.n).map
          (fun i => (x.px_intptr.getD i 0, p_index_in.getD i 0))).toFinset.card) ∧
      (∀ v, v ∈ st.p_index ↔ 1 ≤ v ∧ v ≤ st.g) ∧
      (∀ i v, st.p_index[i]? = some v → v ≤ 1 + max_id (st.p_index.take i)) ∧
      (∀ i j vi vj : Nat, i < j → st.p_index[i]? = some vi → st.p_index[j]? = some vj →
        (∀ k, k < j → st.p_index[k]? ≠ some vj) → vi < vj) ∧
      ((List.range x.n).map (fun i => p_index_in.getD i 0)).toFinset.card ≤ st.g ∧
      (((List.range x.n).map (fun i => p_index_in.getD i 0)).toFinset.card = n_groups →
        n_groups ≤ st.g) := by
  obtain ⟨st, h1, h2, h3⟩ := @general_type_to_index_double_correct x p_index_in n_groups init
    is_final ht hn hfast (fun i hi => (hprev i hi).2)
  obtain ⟨hlen, fo, hnum, hg, _⟩ := id h2
  have hint : x.type = VType.T_INT →
      (∀ i j, i < x.n → j < x.n → (st.p_index[i]? = st.p_index[j]? ↔
        (x.px_int.getD i 0 = x.px_int.getD j 0 ∧
          p_index_in.getD i 0 = p_index_in.getD j 0))) ∧
      st.g = ((List.range x.n).map
        (fun i => (x.px_int.getD i 0, p_index_in.getD i 0))).toFinset.card := by
    intro hx
    have h4 : ∀ i j, i < x.n → j < x.n → (st.p_index[i]? = st.p_index[j]? ↔
        (x.px_int.getD i 0 = x.px_int.getD j 0 ∧
          p_index_in.getD i 0 = p_index_in.getD j 0)) := by
      intro i j hi hj
      rw [h3 i j hi hj, same_value_int hx]
    refine ⟨h4, groups_count _ h2 ?_⟩
    intro i j hi hj
    rw [h4 i j hi hj, Prod.mk.injEq]
  have hstr : x.type = VType.T_STR →
      (∀ i j, i < x.n → j < x.n → (st.p_index[i]? = st.p_index[j]? ↔
        (x.px_intptr.getD i 0 = x.px_intptr.getD j 0 ∧
          p_index_in.getD i 0 = p_index_in.getD j 0))) ∧
      st.g = ((List.range x.n).map
        (fun i => (x.px_intptr.getD i 0, p_index_in.getD i 0))).toFinset.card := by
    intro hx
    have h4 : ∀ i j, i < x.n → j < x.n → (st.p_index[i]? = st.p_index[j]? ↔
        (x.px_intptr.getD i 0 = x.px_intptr.getD j 0 ∧
          p_index_in.getD i 0 = p_index_in.getD j 0)) := by
      intro i j hi hj
      rw [h3 i j hi hj, same_value_str hx]
    refine ⟨h4, groups_count _ h2 ?_⟩
    intro i j hi hj
    rw [h4 i j hi hj, Prod.mk.injEq]
  have hcard : ((List.range x.n).map (fun i => p_index_in.getD i 0)).toFinset.card ≤ st.g := by
    rcases ht with hx | hx
    · rw [(hint hx).2]
      exact card_le_of_pairs x.n _ _
    · rw [(hstr hx).2]
      exact card_le_of_pairs x.n _ _
  refine ⟨st, h1, hlen, hint, hstr, ?_, fun i v hv => hnum.le_succ_max i v hv, ?_, hcard, ?_⟩
  · intro v
    rw [hg]
    exact hnum.mem_iff v
  · intro i j vi vj hij hi hj hfj
    exact hnum.first_lt hij hi hj hfj
  · intro he
    rw [← he]
    exact hcard

theorem example_int_column_built :
    r_vector.init (.INTSXP [10, 20, 10, 10, 10]) = .ok example_int_column := rfl

theorem example_int_column_fast_int : example_int_column.FastInt example_int_column.n :=
  ⟨rfl, Or.inl rfl, by decide, by decide, by decide, by decide, by decide, by decide⟩

theorem composed_index_correct_witness :
    ((example_int_column.type = VType.T_INT ∨ example_int_column.type = VType.T_STR) ∧
      5 * example_int_column.n < 2 ^ 31 ∧
      (example_int_column.is_fast_int = true →
        example_int_column.FastInt example_int_column.n) ∧
      (∀ i, i < example_int_column.n →
        1 ≤ [1, 1, 2, 2, 1].getD i 0 ∧ [1, 1, 2, 2, 1].getD i 0 ≤ 2) ∧
      do_fast_int example_int_column 2 = true ∧
      (general_type_to_index_double example_int_column [1, 1, 2, 2, 1] 2 [] true).map
        (fun st => (st.p_index, st.g, st.vec_first_obs)) =
          .ok ([1, 2, 3, 3, 1], 3, [1, 2, 3])) ∧
    ∃ st, general_type_to_index_double example_int_column [1, 1, 2, 2, 1] 2 [] true =
        .ok st ∧
      st.p_index.length = example_int_column.n ∧
      (example_int_column.type = VType.T_INT →
        (∀ i j, i < example_int_column.n → j < example_int_column.n →
          (st.p_index[i]? = st.p_index[j]? ↔
            (example_int_column.px_int.getD i 0 = example_int_column.px_int.getD j 0 ∧
              [1, 1, 2, 2, 1].getD i 0 = [1, 1, 2, 2, 1].getD j 0))) ∧
        st.g = ((List.range example_int_column.n).map
          (fun i => (example_int_column.px_int.getD i 0,
            [1, 1, 2, 2, 1].getD i 0))).toFinset.card) ∧
      (example_int_column.type = VType.T_STR →
        (∀ i j, i < example_int_column.n → j < example_int_column.n →
          (st.p_index[i]? = st.p_index[j]? ↔
            (example_int_column.px_intptr.getD i 0 =
                example_int_column.px_intptr.getD j 0 ∧
              [1, 1, 2, 2, 1].getD i 0 = [1, 1, 2, 2, 1].getD j 0))) ∧
        st.g = ((List.range example_int_column.n).map
          (fun i => (example_int_column.px_intptr.getD i 0,
            [1, 1, 2, 2, 1].getD i 0))).toFinset.card) ∧
      (∀ v, v ∈ st.p_index ↔ 1 ≤ v ∧ v ≤ st.g) ∧
      (∀ i v, st.p_index[i]? = some v → v ≤ 1 + max_id (st.p_index.take i)) ∧
      (∀ i j vi vj : Nat, i < j → st.p_index[i]? = some vi → st.p_index[j]? = some vj →
        (∀ k, k < j → st.p_index[k]? ≠ some vj) → vi < vj) ∧
      ((List.range example_int_column.n).map
        (fun i => [1, 1, 2, 2, 1].getD i 0)).toFinset.card ≤ st.g ∧
      (((List.range example_int_column.n).map
          (fun i => [1, 1, 2, 2, 1].getD i 0)).toFinset.card = 2 → 2 ≤ st.g) :=
  ⟨⟨Or.inl rfl, by decide, fun _ => example_int_column_fast_int, by decide, by decide, rfl⟩,
    composed_index_correct example_int_column [1, 1, 2, 2, 1] 2 [] true (Or.inl rfl)
      (by decide) (fun _ => example_int_column_fast_int) (by decide)⟩

/-- C14: the composed indexer leaves its table on an integer column whose
range is wider than an `int`. For the column `[-2147483647, 2147483647, 0]`
the constructor stores `x_range = 0` and sets `is_fast_int`; with the previous
index `[1, 1, 2]` of 2 groups, `general_type_to_index_double` takes its
direct-address branch with a table of `2^3 = 8` entries, and the key of row 1,
`1 + ((2147483647 - (-2147483647)) << 2)`, is `-7` once the difference has
overflowed: the access `int_array[id]` is outside the table, where three rows
that differ in their values are to get three ids. The driver makes this call
on the two columns `[0, 0, 70000]` and `[-2147483647, 2147483647, 0]`: the
first has 17 bits and is not selected for the direct-address indexer, it is
indexed by `general_type_to_index_single` as `[1, 1, 2]`, and the second is
composed with that index. -/
theorem composed_index_fails_on_wide_column :
    ∃ x, r_vector.init (.INTSXP [-2147483647, 2147483647, 0]) = .ok x ∧
      x.type = VType.T_INT ∧ x.x_range = 0 ∧ x.is_fast_int = true ∧
      do_fast_int x 2 = true ∧
      pow2 (x.x_range_bin + power_of_two 2 + 1) = 8 ∧
      (List.range 3).map (composed_key x [1, 1, 2] 2) = [1, -7, -2] ∧
      (∀ init is_final, general_type_to_index_double x [1, 1, 2] 2 init is_final =
        .error Failure.out_of_bounds) ∧
      (∃ x0, r_vector.init (.INTSXP [0, 0, 70000]) = .ok x0 ∧
        id_fast_int_from 2 3 [x0, x] 0 0 = [] ∧
        (general_type_to_index_single x0 [] false).map (fun st => (st.p_index, st.g)) =
          .ok ([1, 1, 2], 2)) ∧
      cpp_to_index_main
          (.VECSXP [.INTSXP [0, 0, 70000], .INTSXP [-2147483647, 2147483647, 0]]) =
        .error Failure.out_of_bounds :=
  ⟨_, rfl, rfl, rfl, rfl, rfl, rfl, rfl, fun _ _ => rfl, ⟨_, rfl, rfl, rfl⟩, rfl⟩

/-! ## The descriptor of an integer column whose range is an `int` -/

/-- The scan of an integer vector, missing values included: the bounds
enclose the values that are not missing and are values of the vector or the
initial bounds, and `any_na` is set exactly when a missing value is met. -/
theorem scan_int_general (l : List Int) (mn mx : Int) (na : Bool)
    (hl : ∀ v, v ∈ l → NA_INTEGER ≤ v) (h1 : NA_INTEGER < mn) (h2 : mn ≤ mx) :
    ∃ mn1 mx1, scan_int l (mn, mx, na) = (mn1, mx1, na || decide (NA_INTEGER ∈ l)) ∧
      NA_INTEGER < mn1 ∧ mn1 ≤ mn ∧ mx ≤ mx1 ∧
      (∀ v, v ∈ l → v ≠ NA_INTEGER → mn1 ≤ v ∧ v ≤ mx1) ∧
      (mn1 = mn ∨ mn1 ∈ l) ∧ (mx1 = mx ∨ mx1 ∈ l) := by
  induction l generalizing mn mx na with
  | nil => exact ⟨mn, mx, by simp [scan_int], h1, le_refl _, le_refl _, by simp, Or.inl rfl,
      Or.inl rfl⟩
  | cons a t ih =>
    have ha := hl a (List.mem_cons_self _ _)
    have ht : ∀ v, v ∈ t → NA_INTEGER ≤ v := fun v hv => hl v (List.mem_cons_of_mem _ hv)
    unfold scan_int
    by_cases hgt : a > mx
    · rw [if_pos hgt]
      have hna : ¬ NA_INTEGER = a := by omega
      obtain ⟨mn1, mx1, e, q0, q1, q2, q3, q4, q5⟩ := ih mn a na ht h1 (by omega)
      refine ⟨mn1, mx1, ?_, q0, q1, by omega, ?_, ?_, ?_⟩
      · rw [e]; simp [hna]
      · intro v hv hvna
        rcases List.mem_cons.mp hv with hv | hv
        · subst hv; omega
        · exact q3 v hv hvna
      · rcases q4 with q | q
        · exact Or.inl q
        · exact Or.inr (List.mem_cons_of_mem _ q)
      · rcases q5 with q | q
        · exact Or.inr (by rw [q]; exact List.mem_cons_self _ _)
        · exact Or.inr (List.mem_cons_of_mem _ q)
    · rw [if_neg hgt]
      by_cases hlt : a < mn
      · rw [if_pos hlt]
        by_cases hna : a = NA_INTEGER
        · rw [if_pos hna]
          obtain ⟨mn1, mx1, e, q0, q1, q2, q3, q4, q5⟩ := ih mn mx true ht h1 h2
          refine ⟨mn1, mx1, ?_, q0, q1, q2, ?_, ?_, ?_⟩
          · rw [e]; simp [hna]
          · intro v hv hvna
            rcases List.mem_cons.mp hv with hv | hv
            · subst hv; exact absurd hna hvna
            · exact q3 v hv hvna
          · rcases q4 with q | q
            · exact Or.inl q
            · exact Or.inr (List.mem_cons_of_mem _ q)
          · rcases q5 with q | q
            · exact Or.inl q
            · exact Or.inr (List.mem_cons_of_mem _ q)
        · rw [if_neg hna]
          have hna2 : ¬ NA_INTEGER = a := fun h => hna h.symm
          obtain ⟨mn1, mx1, e, q0, q1, q2, q3, q4, q5⟩ := ih a mx na ht (by omega) (by omega)
          refine ⟨mn1, mx1, ?_, q0, by omega, q2, ?_, ?_, ?_⟩
          · rw [e]; simp [hna2]
          · intro v hv hvna
            rcases List.mem_cons.mp hv with hv | hv
            · subst hv; omega
            · exact q3 v hv hvna
          · rcases q4 with q | q
            · exact Or.inr (by rw [q]; exact List.mem_cons_self _ _)
            · exact Or.inr (List.mem_cons_of_mem _ q)
          · rcases q5 with q | q
            · exact Or.inl q
            · exact Or.inr (List.mem_cons_of_mem _ q)
      · rw [if_neg hlt]
        have hna2 : ¬ NA_INTEGER = a := by omega
        obtain ⟨mn1, mx1, e, q0, q1, q2, q3, q4, q5⟩ := ih mn mx na ht h1 h2
        refine ⟨mn1, mx1, ?_, q0, q1, q2, ?_, ?_, ?_⟩
        · rw [e]; simp [hna2]
        · intro v hv hvna
          rcases List.mem_cons.mp hv with hv | hv
          · subst hv; omega
          · exact q3 v hv hvna
        · rcases q4 with q | q
          · exact Or.inl q
          · exact Or.inr (List.mem_cons_of_mem _ q)
        · rcases q5 with q | q
          · exact Or.inl q
          · exact Or.inr (List.mem_cons_of_mem _ q)

/-- The rows before `i_start` are missing, and row `i_start`, if there is
one, is not. -/
theorem i_start_int_spec (px : List Int) :
    i_start_int px ≤ px.length ∧
    (∀ v, v ∈ px.take (i_start_int px) → v = NA_INTEGER) ∧
    (i_start_int px < px.length →
      px.getD (i_start_int px) 0 ≠ NA_INTEGER ∧
      px.getD (i_start_int px) 0 ∈ px.drop (i_start_int px)) := by
  induction px with
  | nil => simp [i_start_int]
  | cons a t ih =>
    unfold i_start_int
    by_cases ha : a = NA_INTEGER
    · rw [if_pos ha]
      obtain ⟨i1, i2, i3⟩ := ih
      refine ⟨by simp only [List.length_cons]; omega, ?_, ?_⟩
      · intro v hv
        rw [List.take_succ_cons] at hv
        rcases List.mem_cons.mp hv with hv | hv
        · rw [hv]; exact ha
        · exact i2 v hv
      · intro hlt
        rw [List.getD_cons_succ, List.drop_succ_cons]
        exact i3 (by simp only [List.length_cons] at hlt; omega)
    · rw [if_neg ha]
      refine ⟨by omega, by simp, ?_⟩
      intro _
      rw [List.getD_cons_zero, List.drop_zero]
      exact ⟨ha, List.mem_cons_self _ _⟩

/-- The scan of an `INTSXP`: `any_na` is set exactly when the vector holds a
missing value; when some value is not missing, `x_min` and `x_max` are the
smallest and the largest of these values; otherwise both are 0. -/
theorem scanned_int_general (px : List Int) (hv : ∀ v, v ∈ px → NA_INTEGER ≤ v) :
    ∃ mn mx, scanned_int px = (mn, mx, decide (NA_INTEGER ∈ px)) ∧ mn ≤ mx ∧
      (∀ v, v ∈ px → v ≠ NA_INTEGER → mn ≤ v ∧ v ≤ mx) ∧
      ((∃ v, v ∈ px ∧ v ≠ NA_INTEGER) → (mn ∈ px ∧ mn ≠ NA_INTEGER) ∧ mx ∈ px ∧
        mx ≠ NA_INTEGER) ∧
      ((∀ v, v ∈ px → v = NA_INTEGER) → mn = 0 ∧ mx = 0) := by
  obtain ⟨i1, i2, i3⟩ := i_start_int_spec px
  have hsplit : px.take (i_start_int px) ++ px.drop (i_start_int px) = px :=
    List.take_append_drop _ _
  unfold scanned_int
  simp only
  by_cases hlt : i_start_int px < px.length
  · rw [if_pos hlt]
    obtain ⟨hne, hmem⟩ := i3 hlt
    have hin : px.getD (i_start_int px) 0 ∈ px := List.mem_of_mem_drop hmem
    have hlow := hv _ hin
    obtain ⟨mn1, mx1, e, q0, q1, q2, q3, q4, q5⟩ := scan_int_general (px.drop (i_start_int px))
      (px.getD (i_start_int px) 0) (px.getD (i_start_int px) 0) (decide (i_start_int px > 0))
      (fun v hv' => hv v (List.mem_of_mem_drop hv'))
      (lt_of_le_of_ne hlow (fun h => hne h.symm)) (le_refl _)
    have hmn : mn1 ∈ px := by
      rcases q4 with q | q
      · rw [q]; exact hin
      · exact List.mem_of_mem_drop q
    have hmx : mx1 ∈ px := by
      rcases q5 with q | q
      · rw [q]; exact hin
      · exact List.mem_of_mem_drop q
    refine ⟨mn1, mx1, ?_, by omega, ?_, ?_, ?_⟩
    · rw [e]
      congr 2
      have hiff : NA_INTEGER ∈ px ↔
          (i_start_int px > 0 ∨ NA_INTEGER ∈ px.drop (i_start_int px)) := by
        constructor
        · intro h
          rw [← hsplit] at h
          rcases List.mem_append.mp h with h | h
          · left
            by_contra h0
            have : i_start_int px = 0 := by omega
            rw [this, List.take_zero] at h
            cases h
          · exact Or.inr h
        · rintro (h | h)
          · have h0 : 0 < (px.take (i_start_int px)).length := by
              rw [List.length_take]; omega
            obtain ⟨w, hw⟩ := List.exists_mem_of_length_pos h0
            have := i2 w hw
            rw [← this]
            exact List.mem_of_mem_take hw
          · exact List.mem_of_mem_drop h
      by_cases hna : NA_INTEGER ∈ px
      · rw [decide_eq_true hna]
        rcases hiff.mp hna with h | h
        · rw [decide_eq_true h]; rfl
        · rw [decide_eq_true h]; simp
      · rw [decide_eq_false hna]
        have h1 : ¬ i_start_int px > 0 := fun h => hna (hiff.mpr (Or.inl h))
        have h2 : ¬ NA_INTEGER ∈ px.drop (i_start_int px) := fun h => hna (hiff.mpr (Or.inr h))
        rw [decide_eq_false h1, decide_eq_false h2]; rfl
    · intro v hvm hvna
      rw [← hsplit] at hvm
      rcases List.mem_append.mp hvm with h | h
      · exact absurd (i2 v h) hvna
      · exact q3 v h hvna
    · intro _
      refine ⟨⟨hmn, by omega⟩, hmx, ?_⟩
      have := hv _ hin
      omega
    · intro hall
      exact absurd (hall _ hin) hne
  · rw [if_neg hlt]
    have hi : i_start_int px = px.length := by omega
    have hall : ∀ v, v ∈ px → v = NA_INTEGER := by
      intro v hvm
      apply i2
      rw [hi, List.take_length]
      exact hvm
    refine ⟨0, 0, ?_, le_refl _, ?_, ?_, fun _ => ⟨rfl, rfl⟩⟩
    · congr 2
      by_cases h0 : px.length = 0
      · have : px = [] := List.length_eq_zero.mp h0
        subst this
        rfl
      · have hpos : i_start_int px > 0 := by omega
        obtain ⟨w, hw⟩ := List.exists_mem_of_length_pos (Nat.pos_of_ne_zero h0)
        have hna : NA_INTEGER ∈ px := by rw [← hall w hw]; exact hw
        rw [decide_eq_true hpos, decide_eq_true hna]
    · intro v hvm hvna
      exact absurd (hall v hvm) hvna
    · rintro ⟨v, hvm, hvna⟩
      exact absurd (hall v hvm) hvna

/-- The descriptor that the constructor builds for an integer column whose
largest minus smallest value plus 2 is an `int`:
`x_min` is the smallest value that is not missing, `x_range` is the largest
minus the smallest plus 2, `NA_value = x_range - 1`, `any_na` tells whether a
value is missing, every other value `v` has `0 <= v - x_min < x_range - 1`,
`is_fast_int` is the test `x_range < 100000 || x_range <= 2n` (the product
being an `int`), and the descriptor satisfies the invariant of a fast-int
column when the test holds. -/
theorem r_vector.init_int_invariant (px : List Int)
    (hv : ∀ v, v ∈ px → NA_INTEGER ≤ v)
    (hw : ∀ a b, a ∈ px → b ∈ px → a ≠ NA_INTEGER → b ≠ NA_INTEGER →
      b - a + 2 ≤ 2147483647) :
    ∃ x, r_vector.init (.INTSXP px) = .ok x ∧ x.n = px.length ∧ x.type = VType.T_INT ∧
      x.px_int = px ∧ x.any_na = decide (NA_INTEGER ∈ px) ∧ 2 ≤ x.x_range ∧
      (∀ v, v ∈ px → v ≠ NA_INTEGER → 0 ≤ v - x.x_min ∧ v - x.x_min < x.x_range - 1) ∧
      ((∃ v, v ∈ px ∧ v ≠ NA_INTEGER) →
        (x.x_min ∈ px ∧ x.x_min ≠ NA_INTEGER) ∧ x.x_min + (x.x_range - 2) ∈ px) ∧
      x.NA_value = x.x_range - 1 ∧ x.x_range_bin = power_of_two x.x_range ∧
      (x.is_fast_int = true ↔
        (x.x_range < 100000 ∨ x.x_range ≤ to_int32 (2 * (px.length : Int)))) ∧
      (x.is_fast_int = true → x.FastInt px.length) := by
  obtain ⟨mn, mx, e, q1, q2, q3, q4⟩ := scanned_int_general px hv
  have hrange : 2 ≤ mx - mn + 2 ∧ mx - mn + 2 ≤ 2147483647 := by
    refine ⟨by omega, ?_⟩
    by_cases hex : ∃ v, v ∈ px ∧ v ≠ NA_INTEGER
    · obtain ⟨⟨m1, m2⟩, m3, m4⟩ := q3 hex
      exact hw mn mx m1 m3 m2 m4
    · have hall : ∀ v, v ∈ px → v = NA_INTEGER := by
        intro v hvm
        by_contra hne
        exact hex ⟨v, hvm, hne⟩
      obtain ⟨z1, z2⟩ := q4 hall
      rw [z1, z2]; norm_num
  have er : to_int32 (mx - mn + 2) = mx - mn + 2 := to_int32_of_range (by omega) (by omega)
  have en : to_int32 (mx - mn + 2 - 1) = mx - mn + 2 - 1 := to_int32_of_range (by omega) (by omega)
  have hfast : (decide (mx - mn + 2 < 100000) ||
      decide (mx - mn + 2 ≤ to_int32 (2 * (px.length : Int)))) = true ↔
      (mx - mn + 2 < 100000 ∨ mx - mn + 2 ≤ to_int32 (2 * (px.length : Int))) := by
    simp only [Bool.or_eq_true, decide_eq_true_eq]
  have hin : ∀ v, v ∈ px → v ≠ NA_INTEGER → 0 ≤ v - mn ∧ v - mn < mx - mn + 2 - 1 := by
    intro v hvm hvna
    have := q2 v hvm hvna
    omega
  refine ⟨_, rfl, ?_⟩
  simp only [set_fast_int, e, er, en]
  refine ⟨trivial, trivial, trivial, trivial, hrange.1, hin, ?_, trivial, trivial, hfast, ?_⟩
  · intro hex
    obtain ⟨m12, m3, _⟩ := q3 hex
    refine ⟨m12, ?_⟩
    have : mn + (mx - mn + 2 - 2) = mx := by ring
    rw [this]
    exact m3
  · intro hf
    refine ⟨rfl, Or.inl rfl, by show 1 ≤ mx - mn + 2; omega, hfast.mp hf, rfl, rfl, ?_, ?_⟩
    · intro i hi hna
      simp only [r_vector.is_na, if_true, decide_eq_true_eq] at hna
      show decide (NA_INTEGER ∈ px) = true
      rw [decide_eq_true_eq, ← hna, List.getD_eq_getElem _ _ hi]
      exact List.getElem_mem hi
    · intro i hi hna
      simp only [r_vector.is_na, if_true, decide_eq_false_iff_not] at hna
      simp only [r_vector.int_value, if_true]
      apply hin _ _ hna
      rw [List.getD_eq_getElem _ _ hi]
      exact List.getElem_mem hi

/-! ## The hash primitives -/

/-- C26: for unsigned 32-bit values `v`, `v2` and `1 ≤ bits ≤ 32`, `hash_single v bits`
is `((3141592653 * v) mod 2^32) div 2^(32 - bits)`, `hash_double v v2 bits` is
`(((3141592653 * v) mod 2^32) xor ((3141592653 * v2) mod 2^32)) div 2^(32 - bits)`, and
both lie in `[0, 2^bits)`. -/
theorem hash_primitives_in_range (v v2 bits : Nat) (hv : v < 2 ^ 32) (hv2 : v2 < 2 ^ 32)
    (h1 : 1 ≤ bits) (h32 : bits ≤ 32) :
    hash_single v bits = ((3141592653 * v) % 2 ^ 32) / 2 ^ (32 - bits) ∧
    hash_double v v2 bits =
      (((3141592653 * v) % 2 ^ 32) ^^^ ((3141592653 * v2) % 2 ^ 32)) / 2 ^ (32 - bits) ∧
    hash_single v bits < 2 ^ bits ∧ hash_double v v2 bits < 2 ^ bits := by
  have e : (32 - (bits : Int)).toNat = 32 - bits := by omega
  have hs : hash_single v bits = ((3141592653 * v) % 2 ^ 32) / 2 ^ (32 - bits) := by
    unfold hash_single
    rw [e, Nat.shiftRight_eq_div_pow, Nat.mod_eq_of_lt hv]
  have hd : hash_double v v2 bits =
      (((3141592653 * v) % 2 ^ 32) ^^^ ((3141592653 * v2) % 2 ^ 32)) / 2 ^ (32 - bits) := by
    unfold hash_double
    rw [e, Nat.shiftRight_eq_div_pow, Nat.mod_eq_of_lt hv, Nat.mod_eq_of_lt hv2]
  have hp : 2 ^ (32 - bits) * 2 ^ bits = 2 ^ 32 := by
    rw [← Nat.pow_add]
    congr 1
    omega
  refine ⟨hs, hd, ?_, ?_⟩
  · rw [hs]
    apply Nat.div_lt_of_lt_mul
    rw [hp]
    exact Nat.mod_lt _ (by positivity)
  · rw [hd]
    apply Nat.div_lt_of_lt_mul
    rw [hp]
    exact Nat.xor_lt_two_pow (Nat.mod_lt _ (by positivity)) (Nat.mod_lt _ (by positivity))

theorem hash_primitives_in_range_witness :
    hash_single 5 8 = ((3141592653 * 5) % 2 ^ 32) / 2 ^ (32 - 8) ∧
    hash_double 5 7 8 =
      (((3141592653 * 5) % 2 ^ 32) ^^^ ((3141592653 * 7) % 2 ^ 32)) / 2 ^ (32 - 8) ∧
    hash_single 5 8 < 2 ^ 8 ∧ hash_double 5 7 8 < 2 ^ 8 :=
  hash_primitives_in_range 5 7 8 (by norm_num) (by norm_num) (by norm_num) (by norm_num)

/-! ## A column of large values and small range -/

/-- Counterexample to C25 as stated: for the single integer column
`[10^9, 10^9 + 1, 10^9, 10^9 + 2]` the constructor finds `x_min = 10^9` and
`x_range = 4`, marks the column fast-int, and the driver's selection is `[0]`,
not empty. -/
theorem offset_column_is_selected :
    descriptors (.vector (.INTSXP [1000000000, 1000000001, 1000000000, 1000000002])) =
      .ok (1, 4, [example_offset_column]) ∧
    example_offset_column.is_fast_int = true ∧
    id_fast_int_from 1 4 [example_offset_column] 0 0 = [0] ∧
    id_fast_int_from 1 4 [example_offset_column] 0 0 ≠ [] :=
  ⟨rfl, rfl, rfl, by decide⟩

/-- C25 (as amended): the single integer column `[10^9, 10^9 + 1, 10^9, 10^9 + 2]`
(`n = 4`) has `x_range = 4 < 100000` and `x_range_bin = 3 < 17`: the driver's
fast-int selection is `[0]` and the column is indexed by one final call of the
direct-address indexer, over a table of 5 entries with the keys `x[i] - 10^9`;
the result is the index `[1, 2, 1, 3]` with first occurrences `[1, 2, 4]`. The
general single-column hash indexer would return the same pair. A column of
four values is sent to the hash indexer when its range is large, as for
`[0, 10^9 + 1, 0, 10^9 + 2]`. -/
theorem offset_column_takes_direct_address_path :
    (descriptors (.vector (.INTSXP [1000000000, 1000000001, 1000000000, 1000000002])) =
        .ok (1, 4, [example_offset_column]) ∧
      example_offset_column.x_range = 4 ∧ example_offset_column.x_range_bin = 3 ∧
      example_offset_column.is_fast_int = true ∧
      id_fast_int_from 1 4 [example_offset_column] 0 0 = [0] ∧
      run_stages 1 4 [example_offset_column] =
        multiple_ints_to_index [example_offset_column] [0] [] true ∧
      lookup_size [example_offset_column] [0] = 5 ∧
      (List.range 4).map (packed_key [example_offset_column] [0]) = [0, 1, 0, 2] ∧
      cpp_to_index_main (.vector (.INTSXP [1000000000, 1000000001, 1000000000, 1000000002])) =
        .ok ([1, 2, 1, 3], [1, 2, 4]) ∧
      (general_type_to_index_single example_offset_column [] true).map
        (fun st => (st.p_index, st.vec_first_obs)) = .ok ([1, 2, 1, 3], [1, 2, 4])) ∧
    (descriptors (.vector (.INTSXP [0, 1000000001, 0, 1000000002])) =
        .ok (1, 4, [example_spread_column]) ∧
      example_spread_column.is_fast_int = false ∧
      id_fast_int_from 1 4 [example_spread_column] 0 0 = [] ∧
      run_stages 1 4 [example_spread_column] =
        general_type_to_index_single example_spread_column [] true ∧
      cpp_to_index_main (.vector (.INTSXP [0, 1000000001, 0, 1000000002])) =
        .ok ([1, 2, 1, 3], [1, 2, 4])) :=
  ⟨⟨rfl, rfl, rfl, rfl, rfl, rfl, rfl, rfl, rfl, rfl⟩, ⟨rfl, rfl, rfl, rfl, rfl⟩⟩

/-! ## The flag `any_na` of an integer column -/

theorem mem_iff_getD {px : List Int} {a : Int} :
    a ∈ px ↔ ∃ i, i < px.length ∧ px.getD i 0 = a := by
  constructor
  · intro h
    obtain ⟨i, hi, e⟩ := List.getElem_of_mem h
    exact ⟨i, hi, by rw [List.getD_eq_getElem _ _ hi]; exact e⟩
  · rintro ⟨i, hi, e⟩
    rw [← e, List.getD_eq_getElem _ _ hi]
    exact List.getElem_mem hi

/-- C21: for every column of 32-bit integers `px`, whatever the places of its
missing values, the descriptor built by the constructor has `any_na = true` if and
only if some row holds `NA_INTEGER` (`INT_MIN`). Hence, when `any_na` is false no
row is missing, and the normalised value `UPDATE_V` that the indexers read, which
tests a row for `NA_INTEGER` only when `any_na` is true, is for every row the value
of the variant that always tests: `NA_value` for a missing row and `x[i] - x_min`
otherwise. -/
theorem any_na_is_exact (px : List Int) (hv : ∀ v, v ∈ px → NA_INTEGER ≤ v) :
    ∃ x, r_vector.init (.INTSXP px) = .ok x ∧ x.type = VType.T_INT ∧ x.px_int = px ∧
      x.n = px.length ∧
      (x.any_na = true ↔ ∃ i, i < px.length ∧ px.getD i 0 = NA_INTEGER) ∧
      (x.any_na = false → ∀ i, i < px.length → px.getD i 0 ≠ NA_INTEGER) ∧
      ∀ i, i < px.length →
        UPDATE_V x i =
          if px.getD i 0 = NA_INTEGER then x.NA_value
          else to_int32 (px.getD i 0 - x.x_min) := by
  obtain ⟨mn, mx, e, _⟩ := scanned_int_general px hv
  have hany : (decide (NA_INTEGER ∈ px) = true ↔
      ∃ i, i < px.length ∧ px.getD i 0 = NA_INTEGER) := by
    rw [decide_eq_true_eq]
    exact mem_iff_getD
  have hnone : decide (NA_INTEGER ∈ px) = false →
      ∀ i, i < px.length → px.getD i 0 ≠ NA_INTEGER := by
    intro h i hi hna
    have : decide (NA_INTEGER ∈ px) = true := hany.mpr ⟨i, hi, hna⟩
    rw [h] at this
    cases this
  refine ⟨_, rfl, ?_⟩
  simp only [set_fast_int, e]
  refine ⟨trivial, trivial, trivial, hany, hnone, ?_⟩
  intro i hi
  unfold UPDATE_V
  simp only [if_true]
  cases hd : decide (NA_INTEGER ∈ px) with
  | true => simp only [if_true]
  | false =>
    have := hnone hd i hi
    simp only [Bool.false_eq_true, if_false, if_neg this]

theorem any_na_is_exact_witness :
    (∀ v, v ∈ [NA_INTEGER, 7, NA_INTEGER, 5, NA_INTEGER] → NA_INTEGER ≤ v) ∧
    ∃ x, r_vector.init (.INTSXP [NA_INTEGER, 7, NA_INTEGER, 5, NA_INTEGER]) = .ok x ∧
      x.type = VType.T_INT ∧ x.px_int = [NA_INTEGER, 7, NA_INTEGER, 5, NA_INTEGER] ∧
      x.n = [NA_INTEGER, 7, NA_INTEGER, 5, NA_INTEGER].length ∧
      (x.any_na = true ↔ ∃ i, i < [NA_INTEGER, 7, NA_INTEGER, 5, NA_INTEGER].length ∧
        [NA_INTEGER, 7, NA_INTEGER, 5, NA_INTEGER].getD i 0 = NA_INTEGER) ∧
      (x.any_na = false → ∀ i, i < [NA_INTEGER, 7, NA_INTEGER, 5, NA_INTEGER].length →
        [NA_INTEGER, 7, NA_INTEGER, 5, NA_INTEGER].getD i 0 ≠ NA_INTEGER) ∧
      ∀ i, i < [NA_INTEGER, 7, NA_INTEGER, 5, NA_INTEGER].length →
        UPDATE_V x i =
          if [NA_INTEGER, 7, NA_INTEGER, 5, NA_INTEGER].getD i 0 = NA_INTEGER then x.NA_value
          else to_int32 ([NA_INTEGER, 7, NA_INTEGER, 5, NA_INTEGER].getD i 0 - x.x_min) :=
  ⟨by decide, any_na_is_exact [NA_INTEGER, 7, NA_INTEGER, 5, NA_INTEGER] (by decide)⟩

/-- A logical column keeps the default `any_na = true`: its rows are always
tested. A factor is scanned as the integer vector of its codes. -/
theorem any_na_default (px : List Int) (levels : Nat) :
    (∃ x, r_vector.init (.LGLSXP px) = .ok x ∧ x.any_na = true) ∧
    r_vector.init (.FACTOR px levels) = r_vector.init (.INTSXP px) :=
  ⟨⟨_, rfl, rfl⟩, rfl⟩

/-! ## The size of the table of the selected columns -/

theorem Scratch.Inv.first_obs_false {st : Scratch} {init : List Nat} {i : Nat}
    (h : st.Inv false init i) : st.vec_first_obs = init := by
  obtain ⟨_, fo, _, _, h3⟩ := h
  simpa using h3

/-- The calls of the loop of STEP 2, entered with an empty `vec_first_obs` and
at least one column left: the last call is final and returns the state of
`fold_left`; the calls before it are not final and leave `vec_first_obs`
empty. -/
theorem fold_left_stages_spec {vs : List r_vector} {ks : List Nat} {st st1 : Scratch}
    (hks : ks ≠ []) (hfo : st.vec_first_obs = [])
    (hr : fold_left vs ks st = .ok st1) :
    ∃ tr last, fold_left_stages vs ks st = .ok (tr ++ [last]) ∧
      last.is_final = true ∧ last.first_obs_before = [] ∧ last.result = st1 ∧
      ∀ s, s ∈ tr → s.is_final = false ∧ s.first_obs_before = [] ∧
        s.result.vec_first_obs = [] := by
  induction ks generalizing st with
  | nil => exact absurd rfl hks
  | cons k ks ih =>
    unfold fold_left at hr
    split at hr
    · cases hr
    · rename_i st2 hst2
      cases ks with
      | nil =>
        unfold fold_left at hr
        cases hr
        refine ⟨[], ⟨true, [], st1⟩, ?_, rfl, rfl, rfl, fun s hs => by cases hs⟩
        unfold fold_left_stages
        rw [hst2]
        simp only [fold_left_stages, List.isEmpty_nil, hfo, List.nil_append]
      | cons k1 ks1 =>
        have hinv := general_type_to_index_double_inv hst2
        rw [hfo] at hinv
        have hfo2 : st2.vec_first_obs = [] := by
          have : (k1 :: ks1).isEmpty = false := rfl
          rw [this] at hinv
          exact hinv.first_obs_false
        obtain ⟨tr, last, h1, h2, h3, h4, h5⟩ := ih (List.cons_ne_nil _ _) hfo2 hr
        refine ⟨⟨false, [], st2⟩ :: tr, last, ?_, h2, h3, h4, ?_⟩
        · rw [fold_left_stages, hst2]
          simp only [h1, hfo, List.isEmpty_cons, List.cons_append]
        · intro s hs
          rcases List.mem_cons.mp hs with hs | hs
          · rw [hs]; exact ⟨rfl, rfl, hfo2⟩
          · exact h5 s hs

/-- The calls of the driver: the last call is final and returns the state of
`run_stages`; the calls before it are not final, are entered with an empty
`vec_first_obs` and leave it empty. -/
theorem stages_spec {K n : Nat} {vs : List r_vector} {st : Scratch}
    (hK : vs.length = K) (hr : run_stages K n vs = .ok st) :
    ∃ tr last, stages K n vs = .ok (tr ++ [last]) ∧
      last.is_final = true ∧ last.first_obs_before = [] ∧ last.result = st ∧
      ∀ s, s ∈ tr → s.is_final = false ∧ s.first_obs_before = [] ∧
        s.result.vec_first_obs = [] := by
  unfold run_stages at hr
  unfold stages
  simp only at hr ⊢
  split at hr
  · rename_i hfast
    rw [if_pos hfast]
    split at hr
    · cases hr
    · rename_i st0 hst0
      have hinv := multiple_ints_to_index_inv hst0
      try simp only [hst0]
      split at hr
      · rename_i hfin
        cases hr
        rw [if_pos hfin]
        exact ⟨[], ⟨true, [], st⟩, by simp only [hfin, List.nil_append], rfl, rfl, rfl,
          fun s hs => by cases hs⟩
      · rename_i hfin
        rw [if_neg hfin]
        have hne : (List.range K).filter
            (fun k => !(id_fast_int_from K n vs 0 0).contains k) ≠ [] := by
          intro h
          exact hfin (by simpa using all_k_left_nil hK h)
        have hff : decide (K = (id_fast_int_from K n vs 0 0).length) = false := by
          simpa using hfin
        rw [hff] at hinv
        have hfo0 := hinv.first_obs_false
        obtain ⟨tr, last, h1, h2, h3, h4, h5⟩ := fold_left_stages_spec hne hfo0 hr
        refine ⟨⟨false, [], st0⟩ :: tr, last, ?_, h2, h3, h4, ?_⟩
        · simp only [h1, hff, List.cons_append]
        · intro s hs
          rcases List.mem_cons.mp hs with hs | hs
          · rw [hs]; exact ⟨rfl, rfl, hfo0⟩
          · exact h5 s hs
  · rename_i hfast
    rw [if_neg hfast]
    split at hr
    · cases hr
    · rename_i k0 left hl
      try simp only [hl]
      split at hr
      · cases hr
      · rename_i st0 hst0
        have hinv := general_type_to_index_single_inv hst0
        try simp only [hst0]
        split at hr
        · rename_i hfin
          cases hr
          rw [if_pos hfin]
          exact ⟨[], ⟨true, [], st⟩, by simp only [hfin, List.nil_append], rfl, rfl, rfl,
            fun s hs => by cases hs⟩
        · rename_i hfin
          rw [if_neg hfin]
          have hne : left ≠ [] := by
            intro h; apply hfin; simp [h]
          have hff : left.isEmpty = false := by simpa using hfin
          rw [hff] at hinv
          have hfo0 := hinv.first_obs_false
          obtain ⟨tr, last, h1, h2, h3, h4, h5⟩ := fold_left_stages_spec hne hfo0 hr
          refine ⟨⟨false, [], st0⟩ :: tr, last, ?_, h2, h3, h4, ?_⟩
          · simp only [h1, hff, List.cons_append]
          · intro s hs
            rcases List.mem_cons.mp hs with hs | hs
            · rw [hs]; exact ⟨rfl, rfl, hfo0⟩
            · exact h5 s hs

/-- C23: in every run of the driver that returns, the calls of the indexers
are `tr ++ [last]` with `K >= 1` columns: the last call is the only one made
with `is_final = true`; every call before it is made with `is_final = false`,
finds `vec_first_obs` empty and leaves it empty; the last call finds
`vec_first_obs` empty, and the returned `first_obs` (and the returned index) are
what the last call left. -/
theorem first_obs_recorded_by_last_stage (x : Input) (index first_obs : List Nat)
    (h : cpp_to_index_main x = .ok (index, first_obs)) :
    ∃ K n all_vecs tr last, descriptors x = .ok (K, n, all_vecs) ∧ 1 ≤ K ∧
      stages K n all_vecs = .ok (tr ++ [last]) ∧
      last.is_final = true ∧ last.first_obs_before = [] ∧
      (∀ s, s ∈ tr → s.is_final = false ∧ s.first_obs_before = [] ∧
        s.result.vec_first_obs = []) ∧
      run_stages K n all_vecs = .ok last.result ∧
      index = last.result.p_index ∧ first_obs = last.result.vec_first_obs := by
  unfold cpp_to_index_main at h
  split at h
  · cases h
  · rename_i K n vs hd
    split at h
    · cases h
    · rename_i st hst
      cases h
      obtain ⟨hK, _, _⟩ := descriptors_spec hd
      obtain ⟨tr, last, h1, h2, h3, h4, h5⟩ := stages_spec hK hst
      have hK1 : 1 ≤ K := by
        by_contra h0
        have hz : K = 0 := by omega
        rw [hz] at hst hK
        rw [List.length_eq_zero.mp hK] at hst
        cases hst
      refine ⟨K, n, vs, tr, last, hd, hK1, h1, h2, h3, h5, ?_, ?_, ?_⟩
      · rw [h4]; exact hst
      · rw [h4]
      · rw [h4]

theorem first_obs_recorded_by_last_stage_witness :
    cpp_to_index_main (.VECSXP [.STRSXP [5, 6, 5], .INTSXP [1, 1, 2]]) =
      .ok ([1, 2, 3], [1, 2, 3]) ∧
    ∃ K n all_vecs tr last,
      descriptors (.VECSXP [.STRSXP [5, 6, 5], .INTSXP [1, 1, 2]]) = .ok (K, n, all_vecs) ∧
      1 ≤ K ∧ stages K n all_vecs = .ok (tr ++ [last]) ∧
      last.is_final = true ∧ last.first_obs_before = [] ∧
      (∀ s, s ∈ tr → s.is_final = false ∧ s.first_obs_before = [] ∧
        s.result.vec_first_obs = []) ∧
      run_stages K n all_vecs = .ok last.result ∧
      [1, 2, 3] = last.result.p_index ∧ [1, 2, 3] = last.result.vec_first_obs :=
  ⟨rfl, first_obs_recorded_by_last_stage (.VECSXP [.STRSXP [5, 6, 5], .INTSXP [1, 1, 2]])
    [1, 2, 3] [1, 2, 3] rfl⟩

/-- The two calls of the driver on the columns `["a", "b", "a"]` and `[1, 1, 2]`:
the direct-address indexer on the second column, not final, which leaves
`vec_first_obs` empty, then the composed indexer on the first column, final. -/
theorem stages_example :
    ∃ vs, descriptors (.VECSXP [.STRSXP [5, 6, 5], .INTSXP [1, 1, 2]]) = .ok (2, 3, vs) ∧
      (stages 2 3 vs).map (fun tr => tr.map (fun s =>
        (s.is_final, s.first_obs_before, s.result.p_index, s.result.vec_first_obs))) =
      .ok [(false, [], [1, 1, 2], []), (true, [], [1, 2, 3], [1, 2, 3])] :=
  ⟨_, rfl, rfl⟩

/-! ## The two branches of the composed indexer give the same index -/

/-- C3 (not met on an integer column whose range is wider than an `int`): the
single column `[-1, 2147483647]` is accepted, but `x_max - x_min + 2 = 2^31 + 2`
overflows the `int` to `-2147483646`; the column passes the test
`x_range < 100000`, is sent to the direct-address indexer, and the size
`x_range + 1 = -2147483645` of its table, converted to `size_t`, cannot be
allocated: the run ends with a failure of the run-time and returns no index, so
no ids in order of first appearance. -/
theorem wide_column_is_not_numbered :
    SEXP.supported (.INTSXP [-1, 2147483647]) ∧
    (∃ x, descriptors (.vector (.INTSXP [-1, 2147483647])) = .ok (1, 2, [x]) ∧
      (2147483647 : Int) - (-1) + 2 = 2147483650 ∧
      x.x_range = -2147483646 ∧ x.is_fast_int = true ∧
      id_fast_int_from 1 2 [x] 0 0 = [0] ∧
      lookup_size [x] [0] = -2147483645 ∧
      run_stages 1 2 [x] = multiple_ints_to_index [x] [0] [] true ∧
      multiple_ints_to_index [x] [0] [] true = .error Failure.bad_alloc) ∧
    1 ≤ (Input.vector (.INTSXP [-1, 2147483647])).nrow ∧
    Failure.runtime Failure.bad_alloc ∧
    ∀ index first_obs,
      cpp_to_index_main (.vector (.INTSXP [-1, 2147483647])) ≠ .ok (index, first_obs) :=
  ⟨trivial, ⟨_, rfl, by decide, rfl, rfl, rfl, rfl, rfl, rfl⟩, by decide, Or.inr (Or.inl rfl),
    fun _ _ h => Except.noConfusion
      ((show cpp_to_index_main (.vector (.INTSXP [-1, 2147483647])) =
        .error Failure.bad_alloc from rfl).symm.trans h)⟩

/-- C4 (not met on an integer column whose range is wider than an `int`): the
single column `[-2147483647, 2147483647, 0]` holds three values and is accepted,
but `x_range` has overflowed to 0 and the table of the direct-address indexer
has one entry for the keys `0`, `-2` and `2147483647`: the second row leaves
the table and the run has no result, where the ids `1, 2, 3` are to be
returned. -/
theorem wide_column_ids_are_not_dense :
    SEXP.supported (.INTSXP [-2147483647, 2147483647, 0]) ∧
    (∃ x, descriptors (.vector (.INTSXP [-2147483647, 2147483647, 0])) = .ok (1, 3, [x]) ∧
      x.x_range = 0 ∧ x.is_fast_int = true ∧
      id_fast_int_from 1 3 [x] 0 0 = [0] ∧
      lookup_size [x] [0] = 1 ∧
      (List.range 3).map (packed_key [x] [0]) = [0, -2, 2147483647] ∧
      run_stages 1 3 [x] = multiple_ints_to_index [x] [0] [] true ∧
      multiple_ints_to_index [x] [0] [] true = .error Failure.out_of_bounds) ∧
    Failure.runtime Failure.out_of_bounds ∧
    ∀ index first_obs,
      cpp_to_index_main (.vector (.INTSXP [-2147483647, 2147483647, 0])) ≠
        .ok (index, first_obs) :=
  ⟨trivial, ⟨_, rfl, rfl, rfl, rfl, rfl, rfl, rfl, rfl⟩, Or.inl rfl,
    fun _ _ h => Except.noConfusion
      ((show cpp_to_index_main (.vector (.INTSXP [-2147483647, 2147483647, 0])) =
        .error Failure.out_of_bounds from rfl).symm.trans h)⟩

end indexthis
